import Mathlib

/-!
Verification of the markdown/PPTX round-trip pipeline of the `aippt`
repository (modules `extractor.py`, `llm_client.py`, `ppt_builder.py`,
`image_utils.py`).  Strings are modelled as `List Char`; the regular
expressions of the source are modelled as explicit deterministic scanners
(each pattern used by the source backtracks trivially, as argued at the
corresponding definition).
-/

set_option linter.unusedVariables false

namespace Aippt

/-! ### Character classes and Python string primitives -/

/-- ASCII whitespace, as stripped by Python's `str.strip()` and matched by
the regex class `\s` (' ', tab, newline, carriage return, vertical tab,
form feed). -/
def isPySpace (c : Char) : Bool :=
  c = ' ' || c = '\t' || c = '\n' || c = '\r' || c = '\x0b' || c = '\x0c' 

/-- Python `str.lstrip()`. -/
def pyLstrip (l : List Char) : List Char := l.dropWhile isPySpace

/-- Python `str.rstrip()`. -/
def pyRstrip (l : List Char) : List Char := (l.reverse.dropWhile isPySpace).reverse

/-- Python `str.strip()`. -/
def pyStrip (l : List Char) : List Char := pyRstrip (pyLstrip l)

/-- Python `str.rstrip("\n")` (as applied to a single line, which carries at
most one trailing newline). -/
def rstripNl (l : List Char) : List Char := (l.reverse.dropWhile (· = '\n')).reverse

/-- Python `str.strip("\n")`. -/
def stripNlBoth (l : List Char) : List Char :=
  ((l.dropWhile (· = '\n')).reverse.dropWhile (· = '\n')).reverse

/-! ### Decimal rendering and parsing -/

/-- The decimal digit characters. -/
def digitChar : Nat → Char
  | 0 => '0' | 1 => '1' | 2 => '2' | 3 => '3' | 4 => '4'
  | 5 => '5' | 6 => '6' | 7 => '7' | 8 => '8' | _ => '9'

/-- Fuelled most-significant-first decimal digits of `n` (`[]` for `0`);
the fuel keeps the recursion structural, `fuel ≥ n` is always enough. -/
def toDecimalAux : Nat → Nat → List Char
  | 0, _ => []
  | fuel + 1, n =>
    if n = 0 then [] else toDecimalAux fuel (n / 10) ++ [digitChar (n % 10)]

/-- Decimal rendering of a natural number, as Python's `str()`/f-string
interpolation produces it (most significant digit first, no leading zeros,
`0` rendered as `"0"`). -/
def toDecimal (n : Nat) : List Char :=
  if n = 0 then ['0'] else toDecimalAux n n

/-- Numeric value of a decimal digit character. -/
def digitVal (c : Char) : Nat := c.toNat - 48

/-- Numeric value of a most-significant-first decimal digit string. -/
def decVal (ds : List Char) : Nat := Nat.ofDigits 10 (ds.reverse.map digitVal)

/-! ### The placeholder codec

`_make_ph_name` is `extractor.py` lines 33-35.  The spec's `parseToken`
has no direct counterpart in the source (only the recognizing regex
`_placeholder_only_pat` of `ppt_builder.py`), so the parser is modelled
from the spec. -/

/-- `extractor._make_ph_name(slide_idx, shape_idx)`:
the token `\x7b\x7bS<slide_idx+1>_P<shape_idx+1>\x7d\x7d`. -/
def make_ph_name (slide_idx shape_idx : Nat) : List Char :=
  ['{', '{', 'S'] ++ toDecimal (slide_idx + 1)
    ++ ['_', 'P'] ++ toDecimal (shape_idx + 1) ++ ['}', '}']

/-- Modelled from the spec: `parseToken(token) -> (slideIndex, shapeIndex)
or fails` (spec section 4.1); the source only recognizes tokens with the
pattern `\x7b\x7bS\d+_P\d+\x7d\x7d` and never recovers the pair, so the
inverse is modelled from the spec's words: read the two decimal fields of
the token and undo the `+1` of `_make_ph_name`. -/
def parseToken (l : List Char) : Option (Nat × Nat) :=
  match l with
  | '{' :: '{' :: 'S' :: r1 =>
    let ds1 := r1.takeWhile Char.isDigit
    match r1.dropWhile Char.isDigit with
    | '_' :: 'P' :: r2 =>
      let ds2 := r2.takeWhile Char.isDigit
      match r2.dropWhile Char.isDigit with
      | ['}', '}'] =>
        if ds1 = [] ∨ ds2 = [] then none
        else some (decVal ds1 - 1, decVal ds2 - 1)
      | _ => none
    | _ => none
  | _ => none

/-! ### `llm_client.py`: line splitting

`_split_lines_keep_eol(txt) = re.findall(r".*?(?:\n|$)", txt)` cuts the
text into lines each keeping its `\n`, with a final newline-free piece and
a trailing empty match at end of input (so a text not ending in `\n`
yields its last line followed by `""`). -/

/-- Accumulator worker for `splitKeepEol` (`acc` holds the reversed current
line). -/
def splitEolAux (acc : List Char) : List Char → List (List Char)
  | [] => if acc = [] then [[]] else [acc.reverse, []]
  | c :: cs =>
    if c = '\n' then (acc.reverse ++ ['\n']) :: splitEolAux [] cs
    else splitEolAux (c :: acc) cs

/-- `_split_lines_keep_eol`. -/
def splitKeepEol (l : List Char) : List (List Char) := splitEolAux [] l

/-! ### `llm_client.py`: the length-hint pattern
`_len_pat = re.compile(r"<!--\s*len:(\d+)\s*-->")`. -/

/-- Expect the literal `pat` at the start of the input; on success return
the rest. -/
def expectLit (pat l : List Char) : Option (List Char) :=
  if pat.isPrefixOf l then some (l.drop pat.length) else none

/-- Match of `_len_pat` anchored at the start of the input: returns the
digit group together with the length of the matched text minus the 11
fixed characters (`<!--`, `len:`, `-->`).  Each greedy `\s*`/`\d+` run is
followed by a literal character outside its class, so the regex is
deterministic and maximal runs are correct. -/
def matchLenAt (l : List Char) : Option (List Char × Nat) :=
  match expectLit ['<', '!', '-', '-'] l with
  | none => none
  | some r1 =>
    match expectLit ['l', 'e', 'n', ':'] (r1.dropWhile isPySpace) with
    | none => none
    | some r3 =>
      if r3.takeWhile Char.isDigit = [] then none
      else
        match expectLit ['-', '-', '>']
            ((r3.dropWhile Char.isDigit).dropWhile isPySpace) with
        | none => none
        | some _ =>
          some (r3.takeWhile Char.isDigit,
            (r1.takeWhile isPySpace).length + (r3.takeWhile Char.isDigit).length
            + ((r3.dropWhile Char.isDigit).takeWhile isPySpace).length)

/-- `_len_pat.search(ln)`: digit group of the leftmost match. -/
def findLenTag : List Char → Option (List Char)
  | [] => none
  | c :: cs =>
    match matchLenAt (c :: cs) with
    | some (ds, _) => some ds
    | none => findLenTag cs

/-- A line whose length hint is zero: `m and m.group(1) == "0"`. -/
def zeroHint (l : List Char) : Bool := findLenTag l == some ['0']

/-- Fuelled worker for `_len_pat.sub("", ln)`: remove every
non-overlapping leftmost match (replacement text is not rescanned);
`fuel ≥ length` is always enough since each step consumes at least one
character. -/
def subLenTagsF : Nat → List Char → List Char
  | 0, l => l
  | _ + 1, [] => []
  | fuel + 1, c :: cs =>
    match matchLenAt (c :: cs) with
    | some (_, extra) => subLenTagsF fuel ((c :: cs).drop (11 + extra))
    | none => c :: subLenTagsF fuel cs

/-- `_len_pat.sub("", ln)`. -/
def subLenTags (l : List Char) : List Char := subLenTagsF l.length l

/-! ### `llm_client.py`: the lock sentinels
the pattern `_lock_pat` (an opening sentinel, a non-greedy dot-all group, a closing sentinel). -/

/-- The opening sentinel `<!--LOCK-->` (11 characters). -/
def lockOpen : List Char := "<!--LOCK-->".data

/-- The closing sentinel (12 characters: the opening one with a slash
after the two dashes). -/
def lockClose : List Char := "<!--/LOCK-->".data

/-- Minimal (non-greedy) group before the first closing sentinel: `some g`
iff the input is `g ++ lockClose ++ _` with `g` free of `lockClose`
occurrences before that point. -/
def findLockClose : List Char → Option (List Char)
  | [] => none
  | c :: cs =>
    if lockClose.isPrefixOf (c :: cs) then some []
    else
      match findLockClose cs with
      | some g => some (c :: g)
      | none => none

/-- Fuelled worker for `_lock_pat.sub(lambda m: m.group(1), md)`: at each
position try to match the opening sentinel followed (non-greedily) by a
closing one; on a match emit the group and continue after the whole match
(the emitted group is not rescanned, as with `re.sub`); otherwise advance
one character.  `fuel ≥ length` is always enough. -/
def lockSubF : Nat → List Char → List Char
  | 0, l => l
  | _ + 1, [] => []
  | fuel + 1, c :: cs =>
    if lockOpen.isPrefixOf (c :: cs) then
      match findLockClose ((c :: cs).drop 11) with
      | some g => g ++ lockSubF fuel ((c :: cs).drop (11 + (g.length + 12)))
      | none => c :: lockSubF fuel cs
    else c :: lockSubF fuel cs

/-- `_lock_pat.sub(lambda m: m.group(1), md)`. -/
def lockSub (l : List Char) : List Char := lockSubF l.length l

/-! ### `llm_client.py`: lock / unlock -/

/-- `_find_zero_len_lines(md)`: the `(index, line-without-eol)` pairs of
the zero-length-hint lines. -/
def find_zero_len_lines (md : List Char) : List (Nat × List Char) :=
  ((splitKeepEol md).enum.filter (fun p => zeroHint p.2)).map
    (fun p => (p.1, rstripNl p.2))

/-- The wrapped form (opening sentinel, origin, closing sentinel, newline)
written by `_lock_zero_len_lines`. -/
def wrapLock (origin : List Char) : List Char :=
  lockOpen ++ origin ++ lockClose ++ ['\n']

/-- `_lock_zero_len_lines(md)`. -/
def lock_zero_len_lines (md : List Char) : List Char × List (Nat × List Char) :=
  let zero := find_zero_len_lines md
  let lines := zero.foldl (fun ls p => ls.set p.1 (wrapLock p.2)) (splitKeepEol md)
  (lines.flatten, zero)

/-- The dedup key of `_unlock_and_dedup`:
`key = _len_pat.sub("", ln).strip()`. -/
def dedupKey (l : List Char) : List Char := pyStrip (subLenTags l)

/-- The dedup key of a line when it has a zero length hint, else `none`. -/
def zeroKey (l : List Char) : Option (List Char) :=
  if zeroHint l then some (dedupKey l) else none

/-- Lines 116-126 of `llm_client.py`: keep a `len:0` line only when its
key has not been seen before (`seen` is the growing key set). -/
def dedupGo (seen : List (List Char)) : List (List Char) → List (List Char)
  | [] => []
  | ln :: rest =>
    if zeroHint ln then
      if dedupKey ln ∈ seen then dedupGo seen rest
      else ln :: dedupGo (dedupKey ln :: seen) rest
    else ln :: dedupGo seen rest

/-- The dedup pass of `_unlock_and_dedup` (started with an empty `seen`). -/
def dedupLines (ls : List (List Char)) : List (List Char) := dedupGo [] ls

/-- Lines 129-140 of `_unlock_and_dedup`: when `strip_len_tag` is set,
remove the length tags from every line that has one (the source's two
branches perform the same substitution). -/
def stripLenStep (strip_len_tag : Bool) (ls : List (List Char)) : List (List Char) :=
  if strip_len_tag then
    ls.map (fun ln => if (findLenTag ln).isSome then subLenTags ln else ln)
  else ls

/-- `_unlock_and_dedup(md, zero_lines, strip_len_tag)`.  The source never
reads `zero_lines`; the parameter is kept for interface fidelity. -/
def unlock_and_dedup (md : List Char) (zero_lines : List (Nat × List Char))
    (strip_len_tag : Bool) : List Char :=
  let md1 := lockSub md
  let out := dedupLines (splitKeepEol md1)
  pyRstrip (List.flatten (stripLenStep strip_len_tag out))

/-- Whether `pat` occurs as a contiguous substring of the input. -/
def occursIn (pat : List Char) : List Char → Bool
  | [] => pat.isEmpty
  | c :: cs => pat.isPrefixOf (c :: cs) || occursIn pat cs

/-! ### Auxiliary notions for the line-level proofs -/

/-- Every character is whitespace. -/
def AllWs (l : List Char) : Prop := ∀ c ∈ l, isPySpace c = true

/-- A proper line: at most one newline, and only as the last character. -/
def ProperLine (l : List Char) : Prop :=
  ∃ body : List Char, '\n' ∉ body ∧ (l = body ∨ l = body ++ ['\n'])

/-- Every element except possibly the last ends with a newline. -/
inductive LineChain : List (List Char) → Prop
  | nil : LineChain []
  | single (l : List Char) : LineChain [l]
  | cons (l : List Char) {ls : List (List Char)}
      (h : l.getLast? = some '\n') (hc : LineChain ls) : LineChain (l :: ls)

/-- Remove the trailing all-whitespace elements of a line list. -/
def dropTrailWs (ls : List (List Char)) : List (List Char) :=
  (ls.reverse.dropWhile (fun l => (pyRstrip l).isEmpty)).reverse

/-- The canonical split of `pyRstrip ls.flatten` for a line list `ls`:
drop the trailing all-whitespace lines, right-strip the last survivor,
and append the empty final piece produced by `_split_lines_keep_eol`. -/
def canonLines (ls : List (List Char)) : List (List Char) :=
  match (dropTrailWs ls).reverse with
  | [] => [[]]
  | last :: revInit => revInit.reverse ++ [pyRstrip last, []]

/-- Per-line form of the locking pass: wrap a zero-hint line (its
end-of-line stripped) in sentinels, leave other lines unchanged. -/
def wrapIfZero (l : List Char) : List Char :=
  if zeroHint l then wrapLock (rstripNl l) else l

/-- Per-line form of the unlocked document: a zero-hint line keeps its
content and regains the newline added by the wrapper. -/
def normLine (l : List Char) : List Char :=
  if zeroHint l then rstripNl l ++ ['\n'] else l

/-! ### `extractor.py`: deck model and `pptx_to_markdown` -/

/-- First-paragraph alignment of a text frame (`PP_ALIGN`), reduced to the
three cases `_paragraph_align_tag` distinguishes. -/
inductive PAlign
  | center
  | right
  | other

/-- A shape of a slide: whether it has a text frame, the full
`text_frame.text`, and the first paragraph alignment (`none` when the
frame has no paragraphs). -/
structure PShape where
  has_text : Bool
  text : List Char
  align : Option PAlign

/-- The ASCII single-quote character, written numerically. -/
def sQuote : Char := Char.ofNat 39

/-- `_paragraph_align_tag`. -/
def paragraph_align_tag : PAlign → List Char
  | PAlign.center => ("<div align=".data) ++ sQuote :: ("center".data) ++ [sQuote, '>']
  | PAlign.right => ("<div align=".data) ++ sQuote :: ("right".data) ++ [sQuote, '>']
  | PAlign.other => []

/-- `SHORT_LIMIT = 10` of `extractor.py`. -/
def SHORT_LIMIT : Nat := 10

/-- Lines 74-75 of `extractor.py`:
`len(shape.text_frame.text.replace("\n", "").strip())`. -/
def shapeLen (text : List Char) : Nat :=
  (pyStrip (text.filter (fun c => c ≠ '\n'))).length

/-- Lines 65-83 of `extractor.py`: the `(ph, char_len, align_tag)` items of
one slide (`sh_idx` runs over all shapes, text frames or not). -/
def slideItems (s_idx : Nat) (shapes : List PShape) : List (List Char × Nat × List Char) :=
  shapes.enum.filterMap (fun p =>
    if p.2.has_text then
      some (make_ph_name s_idx p.1, shapeLen p.2.text,
        match p.2.align with
        | none => []
        | some a => paragraph_align_tag a)
    else none)

/-- Lines 99-102 / 108-111 of `extractor.py`: the `seg` string of an item
(`ph`, optional ` tag`, then ` <!--len:N-->`). -/
def segOf (ph : List Char) (ln : Nat) (tag : List Char) : List Char :=
  (ph ++ (if tag = [] then [] else ' ' :: tag))
    ++ (" <!--len:".data) ++ toDecimal ln ++ ("-->".data)

/-- Lines 90-113 of `extractor.py`: the grouping `while` loop, with fuel
(one item is consumed per step, so `items.length` fuel is enough).  A run
of short items becomes `### seg` lines, a long item a `- seg` line. -/
def renderItemsF : Nat → List (List Char × Nat × List Char) → List (List Char)
  | 0, _ => []
  | _, [] => []
  | f + 1, it :: rest =>
    if it.2.1 ≤ SHORT_LIMIT then
      ((it :: rest.takeWhile (fun j => j.2.1 ≤ SHORT_LIMIT)).map
          (fun j => ("### ".data) ++ segOf j.1 j.2.1 j.2.2))
        ++ renderItemsF f (rest.dropWhile (fun j => j.2.1 ≤ SHORT_LIMIT))
    else (('-' :: ' ' :: []) ++ segOf it.1 it.2.1 it.2.2) :: renderItemsF f rest

/-- The markdown lines produced for one slide's item list. -/
def renderItems (items : List (List Char × Nat × List Char)) : List (List Char) :=
  renderItemsF items.length items

/-- Lines 60-115 of `extractor.py`: the `md_lines` contributed by one
slide (heading, then either the no-text marker or the item lines plus the
page-end empty line). -/
def slideLines (s_idx : Nat) (shapes : List PShape) : List (List Char) :=
  (("## Slide ".data) ++ toDecimal (s_idx + 1)) ::
    (if slideItems s_idx shapes = [] then [("(No text on this slide)\n".data)]
     else renderItems (slideItems s_idx shapes) ++ [[]])

/-- Python `"\n".join`. -/
def joinNl : List (List Char) → List Char
  | [] => []
  | [l] => l
  | l :: l2 :: ls => l ++ '\n' :: joinNl (l2 :: ls)

/-- `pptx_to_markdown(path)[0]`: the markdown string (the placeholder map,
the second component, is not modelled). -/
def pptx_to_markdown (deck : List (List PShape)) : List Char :=
  joinNl ((deck.enum.map (fun p => slideLines p.1 p.2)).flatten)

/-! ### `ppt_builder.py`: `_split_markdown_slides` -/

/-- ASCII lower-casing of one character (Python `str.lower` on the ASCII
range, which is all `re.I` needs here). -/
def asciiLower (c : Char) : Char :=
  if 'A' ≤ c ∧ c ≤ 'Z' then Char.ofNat (c.toNat + 32) else c

/-- Length of the leading run of dashes. -/
def leadDash (l : List Char) : Nat := (l.takeWhile (fun c => c = '-')).length

/-- Match of `---+\n` at the start of the input (the dash run is maximal:
a dash is never a newline, so backtracking inside the run cannot help). -/
def dashSepCore (l : List Char) : Bool :=
  decide (3 ≤ leadDash l) && ((l.drop (leadDash l)).head? == some '\n')

/-- Match of `\n?---+\n` at the start of the input (greedy optional
newline; if consuming it fails, the bare pattern cannot start with the
same newline either). -/
def dashSepAt : List Char → Bool
  | [] => false
  | c :: cs => if c = '\n' then dashSepCore cs || dashSepCore (c :: cs) else dashSepCore (c :: cs)

/-- `re.search(r"\n?---+\n", md)` as a Boolean: some suffix matches. -/
def hasDashSep : List Char → Bool
  | [] => false
  | c :: cs => dashSepAt (c :: cs) || hasDashSep cs

/-- Match of `---+\n+` at the start of the input, returning the matched
length (both runs maximal: greedy, and nothing after the second run
constrains it). -/
def matchDashRun (l : List Char) : Option Nat :=
  if 3 ≤ leadDash l ∧ 1 ≤ ((l.drop (leadDash l)).takeWhile (fun c => c = '\n')).length
  then some (leadDash l + ((l.drop (leadDash l)).takeWhile (fun c => c = '\n')).length)
  else none

/-- Match of the separator `\n?---+\n+` at the start of the input. -/
def matchDashSplitAt : List Char → Option Nat
  | '\n' :: rest => (matchDashRun rest).map (fun n => n + 1)
  | l => matchDashRun l

/-- `re.split(r"\n?---+\n+", md)`: split at each leftmost separator match,
scanning left to right (fuel: at least one character is consumed per
step). -/
def dashSplitF : Nat → List Char → List Char → List (List Char)
  | 0, acc, _ => [acc.reverse]
  | _, acc, [] => [acc.reverse]
  | f + 1, acc, c :: cs =>
    match matchDashSplitAt (c :: cs) with
    | some len => acc.reverse :: dashSplitF f [] ((c :: cs).drop len)
    | none => dashSplitF f (c :: acc) cs

/-- The pages of the dash-separator branch of `_split_markdown_slides`. -/
def dashSplit (md : List Char) : List (List Char) := dashSplitF md.length [] md

/-- Whether `\s*$` (multiline) can end after exactly `k` characters of the
input: the position is the end of the string or sits before a newline. -/
def dollarAt (r : List Char) (k : Nat) : Bool :=
  (r.drop k).isEmpty || ((r.drop k).head? == some '\n')

/-- Greedy `\s*$`: the largest `k` (at most the given whitespace-run
length) whose position satisfies `$`, found by backtracking downward. -/
def findDollar (r : List Char) : Nat → Option Nat
  | 0 => if dollarAt r 0 then some 0 else none
  | k + 1 => if dollarAt r (k + 1) then some (k + 1) else findDollar r k

/-- Final part `\d+\s*$` of `_md_slide_pat`: a nonempty digit run, then
the greedy multiline `\s*$` handled by `findDollar`.  Returns the consumed
length. -/
def slideHeadTail3 (r6 : List Char) : Option Nat :=
  let ds := (r6.takeWhile Char.isDigit).length
  if 1 ≤ ds then
    match findDollar (r6.drop ds) (((r6.drop ds).takeWhile isPySpace).length) with
    | some k => some (ds + k)
    | none => none
  else none

/-- Middle part `\s*[-_ ]?\s*` of `_md_slide_pat` followed by its final
part.  Each whitespace run is maximal (the next token never matches a
whitespace character) and the optional separator is taken exactly when
the next character is one (a space cannot follow a maximal run). -/
def slideHeadTail2 (r3 : List Char) : Option Nat :=
  let w2 := (r3.takeWhile isPySpace).length
  let r4 := r3.drop w2
  let sep := match r4.head? with
    | some c => if c = '-' ∨ c = '_' ∨ c = ' ' then 1 else 0
    | none => 0
  let w3 := ((r4.drop sep).takeWhile isPySpace).length
  match slideHeadTail3 ((r4.drop sep).drop w3) with
  | some m => some (w2 + sep + w3 + m)
  | none => none

/-- Part `\s*slide` (case-insensitive) of `_md_slide_pat` followed by the
rest of the pattern. -/
def slideHeadTail1 (r1 : List Char) : Option Nat :=
  let w1 := (r1.takeWhile isPySpace).length
  let r2 := r1.drop w1
  if (r2.take 5).map asciiLower = ("slide".data) then
    match slideHeadTail2 (r2.drop 5) with
    | some m => some (w1 + 5 + m)
    | none => none
  else none

/-- Match of `_md_slide_pat = ^#{1,6}\s*slide\s*[-_ ]?\s*\d+\s*$`
(`re.I | re.M`) at a line-start position, returning the match length.
The hash run is maximal and must fit in one to six characters: taking
fewer hashes leaves a hash where `\s*`/`slide` must match, so no other
choice can succeed. -/
def matchSlideHeadAt (l : List Char) : Option Nat :=
  let hs := (l.takeWhile (fun c => c = '#')).length
  if 1 ≤ hs ∧ hs ≤ 6 then
    match slideHeadTail1 (l.drop hs) with
    | some m => some (hs + m)
    | none => none
  else none

/-- `_md_slide_pat.finditer(md)` as `(start, end)` pairs: scan left to
right, attempt the anchored pattern only at line starts, continue after a
match at its end (every match is at least one character long, so one unit
of fuel per step suffices). -/
def findHeadsF : Nat → Nat → Bool → List Char → List (Nat × Nat)
  | 0, _, _, _ => []
  | _, _, _, [] => []
  | f + 1, p, ls, c :: cs =>
    match (if ls then matchSlideHeadAt (c :: cs) else none) with
    | some len =>
      (p, p + len) :: findHeadsF f (p + len) (((c :: cs).take len).getLast? == some '\n')
        ((c :: cs).drop len)
    | none => findHeadsF f (p + 1) (c == '\n') cs

/-- All matches of the slide-heading pattern. -/
def findSlideHeads (md : List Char) : List (Nat × Nat) :=
  findHeadsF md.length 0 true md

/-- Python `md[s:e]`. -/
def listExtract (md : List Char) (s e : Nat) : List Char := (md.take e).drop s

/-- Lines 81-88 of `ppt_builder.py`: the stripped, nonempty bodies between
consecutive heading matches (the last body runs to the end of the
document). -/
def pagesOf (md : List Char) : List (Nat × Nat) → List (List Char)
  | [] => []
  | [(_, e)] =>
    let b := pyStrip (listExtract md e md.length)
    if b = [] then [] else [b]
  | (_, e) :: (s2, e2) :: rest =>
    let b := pyStrip (listExtract md e s2)
    (if b = [] then [] else [b]) ++ pagesOf md ((s2, e2) :: rest)

/-- `_split_markdown_slides`. -/
def split_markdown_slides (md0 : List Char) : List (List Char) :=
  let md := stripNlBoth md0
  if md = [] then []
  else if hasDashSep md then
    ((dashSplit md).map pyStrip).filter (fun p => !p.isEmpty)
  else
    match findSlideHeads md with
    | [] => [pyStrip md]
    | ms => pagesOf md ms

/-! ### Auxiliary notions for the slide-split proofs -/

/-- The lines a non-final slide contributes, with the page-end marker, and
the lines the final slide contributes after the document-level
`strip("\n")`: the trailing empty line (or the newline of the no-text
marker) is gone. -/
def slideLinesTrim (s_idx : Nat) (shapes : List PShape) : List (List Char) :=
  (("## Slide ".data) ++ toDecimal (s_idx + 1)) ::
    (if slideItems s_idx shapes = [] then [("(No text on this slide)".data)]
     else renderItems (slideItems s_idx shapes))

/-- The flattened markdown lines of the slides numbered from `k`. -/
def deckLinesFrom (k : Nat) : List (List PShape) → List (List Char)
  | [] => []
  | shapes :: rest => slideLines k shapes ++ deckLinesFrom (k + 1) rest

/-- As `deckLinesFrom`, with the final slide trimmed. -/
def deckLinesTrimFrom (k : Nat) : List (List PShape) → List (List Char)
  | [] => []
  | [shapes] => slideLinesTrim k shapes
  | shapes :: s2 :: rest => slideLines k shapes ++ deckLinesTrimFrom (k + 1) (s2 :: rest)

/-- Length of the heading line `## Slide k+1`. -/
def headLen (k : Nat) : Nat := 9 + (toDecimal (k + 1)).length

/-- Distance from the end of a non-final slide's heading match to the
start of the next slide's heading. -/
def slideGap (k : Nat) (shapes : List PShape) : Nat :=
  (if slideItems k shapes = [] then (("(No text on this slide)".data)).length
   else (joinNl (renderItems (slideItems k shapes))).length) + 3

/-- The `(start, end)` pairs of the heading matches of the document. -/
def headsOf : Nat → Nat → List (List PShape) → List (Nat × Nat)
  | _, _, [] => []
  | p, k, shapes :: rest =>
    (p, p + headLen k) :: headsOf (p + headLen k + slideGap k shapes) (k + 1) rest

/-- No suffix starts with three dashes (every dash run has length at most
two). -/
def noTriple : List Char → Bool
  | [] => true
  | c :: cs => decide (leadDash (c :: cs) ≤ 2) && noTriple cs

/-! ### Model: `image_utils.unsplash_search` (image_utils.py:80-143) -/

/-- Python `str.lower()` on the ASCII strings involved here. -/
def pyLower (l : List Char) : List Char := l.map asciiLower

/-- The effective `per_page` of `unsplash_search`: the compatibility
parameter `limit` overrides it when it is not `None`
(image_utils.py:103-104). -/
def effPerPage (per_page : Int) (limit : Option Int) : Int :=
  match limit with
  | some l => l
  | none => per_page

/-- `unsplash_search(query, per_page, limit=, orientation=, size=,
order_by=)` (image_utils.py:80-143).  The credential lookup
(`_ensure_key`, which may raise `KeyError`) and the whole network phase
(the HTTP search, the download loop with its per-image `try/except`, and
the final shuffle) are external effects, abstracted as the `ensure_key`
and `fetch` oracles; `fetch` receives the client id, the query, the
effective `per_page` and the three validated lowercase parameters, and
its `Except.error` carries the message of the `UnsplashError` raised on
request failure.  Validation failures are `Except.error` with the
source's message. -/
def unsplash_search
    (ensure_key : Except Unit (List Char))
    (fetch : List Char → List Char → Int → List Char → List Char → List Char →
      Except (List Char) (List (List Nat)))
    (query : List Char) (per_page : Int) (limit : Option Int)
    (orientation0 size0 order_by0 : List Char) :
    Except (List Char) (List (List Nat)) :=
  if effPerPage per_page limit ≤ 0 then Except.ok []
  else
    if ¬ (pyLower orientation0 = ("landscape".data) ∨
        pyLower orientation0 = ("portrait".data) ∨
        pyLower orientation0 = ("squarish".data)) then
      Except.error ("orientation 必须为 landscape / portrait / squarish".data)
    else if ¬ (pyLower size0 = ("small".data) ∨ pyLower size0 = ("regular".data) ∨
        pyLower size0 = ("full".data)) then
      Except.error ("size 必须为 small / regular / full".data)
    else if ¬ (pyLower order_by0 = ("latest".data) ∨ pyLower order_by0 = ("relevant".data)) then
      Except.error ("order_by 必须为 latest / relevant".data)
    else
      match ensure_key with
      | Except.error _ => Except.ok []
      | Except.ok client_id =>
        fetch client_id query (effPerPage per_page limit) (pyLower orientation0)
          (pyLower size0) (pyLower order_by0)

/-! ### Model: picture extraction and candidate preparation
(extractor.py:124-131, ppt_builder.py:165-187) -/

/-- A slide-part relationship as read by `extract_pictures` and
`_replace_picture`: its relationship type, its id (`rId`) and the image
bytes of its target part. -/
structure PRel where
  reltype : List Char
  rId : List Char
  blob : List Nat
  deriving DecidableEq

/-- `extract_pictures(prs)` (extractor.py:124-131): for every slide, every
relationship whose `reltype` ends in the string slash-image, as a
`(slide_idx, rId, blob)` triple, in deck order. -/
def extract_pictures (slides : List (List PRel)) : List (Nat × List Char × List Nat) :=
  (slides.enum.map (fun p =>
    (p.2.filter (fun rel => ("/image".data).isSuffixOf rel.reltype)).map
      (fun rel => (p.1, rel.rId, rel.blob)))).flatten

/-- One value of the candidate map: the dict with the original bytes under
`origin` and the downloaded candidates under `candidates`
(ppt_builder.py:184). -/
structure CandEntry where
  origin : List Nat
  candidates : List (List Nat)
  deriving DecidableEq

/-- Python `dict` assignment `d[k] = v` on an insertion-ordered
association list: overwrite in place when the key exists, else append. -/
def dictInsert (k : Nat × List Char) (v : CandEntry) :
    List ((Nat × List Char) × CandEntry) → List ((Nat × List Char) × CandEntry)
  | [] => [(k, v)]
  | e :: rest => if e.1 = k then (k, v) :: rest else e :: dictInsert k v rest

/-- The value of `cand` after the `try/except` around `unsplash_search`
(ppt_builder.py:179-183): the returned list on success, `[]` when the
call raises. -/
def candOf : Except Unit (List (List Nat)) → List (List Nat)
  | Except.ok c => c
  | Except.error _ => []

/-- The loop of `prepare_image_candidates` (ppt_builder.py:177-184): `i`
is the 1-based counter of `enumerate(pics, 1)`, here also used to index
the per-call `search` oracle. -/
def prepGo (search : Nat → Except Unit (List (List Nat))) :
    List (Nat × List Char × List Nat) → Nat →
    List ((Nat × List Char) × CandEntry) → List ((Nat × List Char) × CandEntry)
  | [], _, ret => ret
  | pic :: rest, i, ret =>
    prepGo search rest (i + 1)
      (dictInsert (pic.1, pic.2.1) ⟨pic.2.2, candOf (search i)⟩ ret)

/-- `prepare_image_candidates(prs, keyword, per_page=)`
(ppt_builder.py:165-187), with each `unsplash_search` call abstracted by
the per-call `search` oracle. -/
def prepare_image_candidates (search : Nat → Except Unit (List (List Nat)))
    (slides : List (List PRel)) : List ((Nat × List Char) × CandEntry) :=
  prepGo search (extract_pictures slides) 1 []

/-! ### Model: the picture-replacement phase of `render_ppt`
(ppt_builder.py:60-61, 216-224) -/

/-- `_replace_picture` on one slide's relationship list
(`slide.part.rels[r_id].target.part.blob = new_blob`,
ppt_builder.py:60-61).  `rels` is a dictionary keyed by `rId`, so the
first match is its entry; with no match the source raises `KeyError`,
which the caller catches, so the slide stays unchanged either way. -/
def replaceInSlide (r_id : List Char) (b : List Nat) : List PRel → List PRel
  | [] => []
  | rel :: rest =>
    if rel.rId = r_id then { rel with blob := b } :: rest
    else rel :: replaceInSlide r_id b rest

/-- One iteration of the picture-replacement loop of `render_ppt`
(ppt_builder.py:218-224): `if blob:` skips both `None` and empty bytes;
the `try/except` around `_replace_picture` turns an out-of-range slide
index or an unknown `rId` into a logged no-op. -/
def applyChoice (slides : List (List PRel)) (s_idx : Nat) (r_id : List Char) :
    Option (List Nat) → List (List PRel)
  | none => slides
  | some b =>
    if b = [] then slides
    else
      match slides[s_idx]? with
      | none => slides
      | some rels => slides.set s_idx (replaceInSlide r_id b rels)

/-- The picture-replacement phase of `render_ppt` (ppt_builder.py:216-224)
acting on the relationship state of the slides: one `applyChoice` per
entry of `user_choices`, in insertion order. -/
def renderPics (slides : List (List PRel))
    (user_choices : List ((Nat × List Char) × Option (List Nat))) :
    List (List PRel) :=
  user_choices.foldl (fun acc kv => applyChoice acc kv.1.1 kv.1.2 kv.2) slides

/-- The bytes behind relationship `r_id` of slide `s_idx`
(`prs.slides[s_idx].part.rels[r_id].target.part.blob`, read through the
same first-match view of the relationship dictionary). -/
def blobOf (slides : List (List PRel)) (s_idx : Nat) (r_id : List Char) :
    Option (List Nat) :=
  (slides[s_idx]?.bind (fun rels => rels.find? (fun rel => rel.rId == r_id))).map PRel.blob

/-! ### Model: `_clean_md_line`, `_is_placeholder_only` and the body loop
of `_write_page_to_slide` (ppt_builder.py:91-108, 146-161) -/

/-- A leading whitespace run, as consumed by a greedy anchored run of the
whitespace class in the two line patterns. -/
def dropSpaces (l : List Char) : List Char := l.dropWhile isPySpace

/-- Tail of `_bullet_pat` after its marker: at least one whitespace
character, then greedily the rest of the run; `some rest` holds the
characters after the match end. -/
def bulletAfterMark : List Char → Option (List Char)
  | [] => none
  | c :: cs => if isPySpace c then some (dropSpaces cs) else none

/-- The numbered alternative of `_bullet_pat` (one or more digits, then a
dot or a closing parenthesis), entered after its first digit. -/
def bulletNum : List Char → Option (List Char)
  | [] => none
  | c :: cs =>
    if c = '.' ∨ c = ')' then bulletAfterMark cs
    else if c.isDigit then bulletNum cs
    else none

/-- `_bullet_pat.match(line)` (ppt_builder.py:91): leading whitespace, a
dash / asterisk / numbered marker, then at least one whitespace
character; `some rest` is the text after the match end.  No two adjacent
pieces of the pattern share characters, so every quantifier is forced and
the scan is deterministic. -/
def matchBullet (line : List Char) : Option (List Char) :=
  match dropSpaces line with
  | [] => none
  | c :: cs =>
    if c = '-' ∨ c = '*' then bulletAfterMark cs
    else if c.isDigit then bulletNum cs
    else none

/-- `_clean_md_line(line)` (ppt_builder.py:97-105): strip, demote a
heading (drop the leading hash marks, strip again), or normalise a bullet
marker to a bullet-dot prefix. -/
def clean_md_line (line0 : List Char) : List Char :=
  match pyStrip line0 with
  | '#' :: cs => pyStrip (cs.dropWhile (fun c => c = '#'))
  | line =>
    match matchBullet line with
    | some rest => ("• ".data) ++ pyStrip rest
    | none => line

/-- One or more digits anchored at the input, returning the remainder;
the quantifier is forced because the character after it is never a
digit. -/
def phDigits : List Char → Option (List Char)
  | [] => none
  | c :: cs => if c.isDigit then some (cs.dropWhile Char.isDigit) else none

/-- The tail of `_placeholder_only_pat` after the closing braces of the
token: optional whitespace, an optional angle-bracket tag, whitespace to
the end.  Under `re.match` the final dollar also accepts a single
trailing newline, which is itself whitespace, so the no-tag branch is
exactly \x22all whitespace\x22. -/
def phTail (t : List Char) : Bool :=
  if t.all isPySpace then true
  else
    match dropSpaces t with
    | '<' :: rest =>
      !(rest.takeWhile (fun c => c != '>')).isEmpty &&
        (match rest.dropWhile (fun c => c != '>') with
          | '>' :: r2 => r2.all isPySpace
          | _ => false)
    | _ => false

/-- The token core of `_placeholder_only_pat` with its tail: two opening
braces, `S` (case-insensitive), digits, underscore, `P`
(case-insensitive), digits, two closing braces. -/
def phCore (t : List Char) : Bool :=
  match t with
  | '{' :: '{' :: c :: rest =>
    if c = 'S' ∨ c = 's' then
      match phDigits rest with
      | some ('_' :: c2 :: r2) =>
        if c2 = 'P' ∨ c2 = 'p' then
          match phDigits r2 with
          | some ('}' :: '}' :: r4) => phTail r4
          | _ => false
        else false
      | _ => false
    else false
  | _ => false

/-- `_is_placeholder_only(text)` (ppt_builder.py:92-95, 107-108):
anchored match of optional whitespace, an optional bullet marker, the
placeholder token, and an optional angle tag.  The first characters of
the marker alternatives and of the token are pairwise distinct, so the
scan is deterministic. -/
def is_placeholder_only (text : List Char) : Bool :=
  match dropSpaces text with
  | [] => false
  | c :: cs =>
    if c = '-' ∨ c = '*' ∨ c = '•' then phCore (dropSpaces cs)
    else if c.isDigit then
      match cs.dropWhile Char.isDigit with
      | d :: ds => if d = '.' ∨ d = ')' then phCore (dropSpaces ds) else false
      | [] => false
    else phCore (c :: cs)

/-- One paragraph write into a text frame (ppt_builder.py:157-159).  A
frame is its list of paragraph texts (a cleared frame is a single empty
paragraph); when `tf.text` is empty the text goes into the existing first
paragraph, otherwise `add_paragraph` appends one. -/
def frameWrite (f : List (List Char)) (t : List Char) : List (List Char) :=
  if joinNl f = [] then
    match f with
    | [] => [t]
    | _ :: rest => t :: rest
  else f ++ [t]

/-- The body loop of `_write_page_to_slide` (ppt_builder.py:146-161):
`i` is `frame_idx`, which advances on every line; a placeholder-only line
only advances, a line whose `frame_idx` is past the frame list is
skipped, and any other line is written into frame `frame_idx`. -/
def writeBodyGo (frames : List (List (List Char))) (i : Nat) :
    List (List Char) → List (List (List Char))
  | [] => frames
  | raw :: rest =>
    if is_placeholder_only (clean_md_line raw) then writeBodyGo frames (i + 1) rest
    else if frames.length ≤ i then writeBodyGo frames (i + 1) rest
    else writeBodyGo
      (frames.set i (frameWrite (frames.getD i []) (clean_md_line raw))) (i + 1) rest

/-- The body loop with its frame access made explicit: `none` would mean
`body_frames[frame_idx]` was read out of range.  The source guards the
access with its bound check (ppt_builder.py:153), and the C9 theorem
shows the `none` branch is never taken. -/
def writeBodyChk (frames : List (List (List Char))) (i : Nat) :
    List (List Char) → Option (List (List (List Char)))
  | [] => some frames
  | raw :: rest =>
    if is_placeholder_only (clean_md_line raw) then writeBodyChk frames (i + 1) rest
    else if frames.length ≤ i then writeBodyChk frames (i + 1) rest
    else
      match frames[i]? with
      | none => none
      | some f => writeBodyChk (frames.set i (frameWrite f (clean_md_line raw)))
          (i + 1) rest

/-- A two-slide example deck: two image relationships (one per slide,
with the same relationship id) and one non-image relationship. -/
def exSlides6 : List (List PRel) :=
  [[{ reltype := ("http://sch/image".data), rId := ("rId1".data), blob := [1, 2] }],
   [{ reltype := ("http://sch/image".data), rId := ("rId1".data), blob := [3] },
    { reltype := ("http://sch/chart".data), rId := ("rId2".data), blob := [4] }]]

/-- A one-slide example deck with two image relationships. -/
def exSlides7 : List (List PRel) :=
  [[{ reltype := ("http://sch/image".data), rId := ("rId1".data), blob := [7] },
    { reltype := ("http://sch/image".data), rId := ("rId2".data), blob := [8] }]]

/-- An example choice map that omits the key of the first relationship of
`exSlides7`, replaces the second, and names one unknown relationship. -/
def exChoices7 : List ((Nat × List Char) × Option (List Nat)) :=
  [((0, "rId2".data), some [9]), ((0, "rId3".data), some [5])]




end Aippt

namespace Aippt

/-! ### Lemmas: decimal rendering -/

theorem digitVal_digitChar {d : Nat} (hd : d < 10) : digitVal (digitChar d) = d := by
  interval_cases d <;> decide

theorem isDigit_digitChar {d : Nat} (hd : d < 10) : (digitChar d).isDigit = true := by
  interval_cases d <;> decide

theorem toDecimalAux_all_digits :
    ∀ (fuel n : Nat), ∀ c ∈ toDecimalAux fuel n, c.isDigit = true := by
  intro fuel
  induction fuel with
  | zero => intro n c hc; simp [toDecimalAux] at hc
  | succ f ih =>
    intro n c hc
    unfold toDecimalAux at hc
    split at hc
    · simp at hc
    · rw [List.mem_append] at hc
      rcases hc with hc | hc
      · exact ih _ c hc
      · simp only [List.mem_singleton] at hc
        subst hc
        exact isDigit_digitChar (Nat.mod_lt _ (by norm_num))

theorem toDecimal_ne_nil (n : Nat) : toDecimal n ≠ [] := by
  unfold toDecimal
  split
  · simp
  · next h =>
    obtain ⟨f, rfl⟩ : ∃ f, n = f + 1 := ⟨n - 1, by omega⟩
    unfold toDecimalAux
    simp

theorem toDecimal_all_digits (n : Nat) : ∀ c ∈ toDecimal n, c.isDigit = true := by
  intro c hc
  unfold toDecimal at hc
  split at hc
  · simp only [List.mem_singleton] at hc
    subst hc; decide
  · exact toDecimalAux_all_digits n n c hc

theorem takeWhile_append_all {p : Char → Bool} {l r : List Char}
    (h : ∀ c ∈ l, p c = true) :
    (l ++ r).takeWhile p = l ++ r.takeWhile p := by
  induction l with
  | nil => simp
  | cons c cs ih =>
    have hc : p c = true := h c (by simp)
    simp only [List.cons_append, List.takeWhile_cons, hc, if_true]
    rw [ih (fun x hx => h x (by simp [hx]))]

theorem dropWhile_append_all {p : Char → Bool} {l r : List Char}
    (h : ∀ c ∈ l, p c = true) :
    (l ++ r).dropWhile p = r.dropWhile p := by
  induction l with
  | nil => simp
  | cons c cs ih =>
    have hc : p c = true := h c (by simp)
    simp only [List.cons_append, List.dropWhile_cons, hc, if_true]
    exact ih (fun x hx => h x (by simp [hx]))

theorem decVal_append_singleton (xs : List Char) (c : Char) :
    decVal (xs ++ [c]) = digitVal c + 10 * decVal xs := by
  unfold decVal
  rw [List.reverse_append]
  simp [Nat.ofDigits_cons]

theorem decVal_toDecimalAux :
    ∀ (fuel n : Nat), n ≤ fuel → decVal (toDecimalAux fuel n) = n := by
  intro fuel
  induction fuel with
  | zero =>
    intro n hn
    interval_cases n
    simp [toDecimalAux, decVal, Nat.ofDigits]
  | succ f ih =>
    intro n hn
    unfold toDecimalAux
    split
    · next h => subst h; simp [decVal, Nat.ofDigits]
    · next h =>
      rw [decVal_append_singleton, ih (n / 10) (by omega),
        digitVal_digitChar (Nat.mod_lt _ (by norm_num))]
      omega

theorem decVal_toDecimal (n : Nat) : decVal (toDecimal n) = n := by
  unfold toDecimal
  split
  · next h => subst h; decide
  · exact decVal_toDecimalAux n n le_rfl

/-! ### C1: token round-trip and injectivity -/

theorem parseToken_make_ph_name (s i : Nat) :
    parseToken (make_ph_name s i) = some (s, i) := by
  have h1 := toDecimal_all_digits (s + 1)
  have h2 := toDecimal_all_digits (i + 1)
  have hm : make_ph_name s i
      = '{' :: '{' :: 'S'
        :: (toDecimal (s + 1) ++ ('_' :: 'P' :: (toDecimal (i + 1) ++ ['}', '}']))) := by
    simp [make_ph_name]
  have ht2 : (toDecimal (i + 1) ++ ['}', '}']).takeWhile Char.isDigit
      = toDecimal (i + 1) := by
    rw [takeWhile_append_all h2, List.takeWhile_cons_of_neg (by decide)]
    simp
  have hd2 : (toDecimal (i + 1) ++ ['}', '}']).dropWhile Char.isDigit = ['}', '}'] := by
    rw [dropWhile_append_all h2, List.dropWhile_cons_of_neg (by decide)]
  have ht1 : (toDecimal (s + 1)
        ++ ('_' :: 'P' :: (toDecimal (i + 1) ++ ['}', '}']))).takeWhile Char.isDigit
      = toDecimal (s + 1) := by
    rw [takeWhile_append_all h1, List.takeWhile_cons_of_neg (by decide)]
    simp
  have hd1 : (toDecimal (s + 1)
        ++ ('_' :: 'P' :: (toDecimal (i + 1) ++ ['}', '}']))).dropWhile Char.isDigit
      = '_' :: 'P' :: (toDecimal (i + 1) ++ ['}', '}']) := by
    rw [dropWhile_append_all h1, List.dropWhile_cons_of_neg (by decide)]
  rw [hm]
  simp only [parseToken, ht1, hd1, ht2, hd2]
  simp [toDecimal_ne_nil, decVal_toDecimal]

/-! ### Dedup characterization (for C3) -/

theorem dedupGo_sublist :
    ∀ (ls seen : List (List Char)), (dedupGo seen ls).Sublist ls := by
  intro ls
  induction ls with
  | nil => intro seen; simp [dedupGo]
  | cons ln rest ih =>
    intro seen
    rw [dedupGo]
    by_cases hz : zeroHint ln
    · simp only [hz, if_true]
      by_cases hs : dedupKey ln ∈ seen
      · simp only [hs, if_true]
        exact (ih seen).trans (List.sublist_cons_self ln rest)
      · simp only [hs, if_false]
        exact (ih _).cons₂ ln
    · simp only [hz, if_false]
      exact (ih seen).cons₂ ln

theorem zeroKey_beq_some (ln k : List Char) :
    ((zeroKey ln == some k) = true) ↔ (zeroHint ln = true ∧ dedupKey ln = k) := by
  unfold zeroKey
  by_cases hz : zeroHint ln <;> simp [hz]

theorem dedupGo_filter (k : List Char) :
    ∀ (ls seen : List (List Char)),
      (dedupGo seen ls).filter (fun ln => zeroKey ln == some k)
        = if k ∈ seen then []
          else (ls.filter (fun ln => zeroKey ln == some k)).take 1 := by
  intro ls
  induction ls with
  | nil => intro seen; simp [dedupGo]
  | cons ln rest ih =>
    intro seen
    rw [dedupGo]
    by_cases hz : zeroHint ln
    · by_cases hs : dedupKey ln ∈ seen
      · simp only [hz, if_true, hs]
        rw [ih seen]
        by_cases hk : k ∈ seen
        · simp [hk]
        · have hne : ¬((zeroKey ln == some k) = true) := by
            rw [zeroKey_beq_some]
            rintro ⟨-, rfl⟩
            exact hk hs
          simp [hk, List.filter_cons, hne]
      · simp only [hz, if_true, hs, if_false]
        by_cases hlk : dedupKey ln = k
        · subst hlk
          have hpass : (zeroKey ln == some (dedupKey ln)) = true := by
            rw [zeroKey_beq_some]; exact ⟨hz, rfl⟩
          simp only [List.filter_cons, hpass, if_true, ih (dedupKey ln :: seen)]
          simp [hs]
        · have hne : ¬((zeroKey ln == some k) = true) := by
            rw [zeroKey_beq_some]
            rintro ⟨-, h⟩
            exact hlk h
          simp only [List.filter_cons, hne, if_false, ih (dedupKey ln :: seen)]
          by_cases hk : k ∈ seen
          · simp [hk]
          · have hnm : k ∉ dedupKey ln :: seen := by
              simp only [List.mem_cons]
              rintro (h | h)
              · exact hlk h.symm
              · exact hk h
            simp [hk, hnm]
    · have hnone : ¬((zeroKey ln == some k) = true) := by
        rw [zeroKey_beq_some]
        rintro ⟨h, -⟩
        exact hz h
      simp only [hz, Bool.false_eq_true, if_false]
      simp [List.filter_cons, hnone, ih seen]

/-- C3 (amended): the dedup pass of `_unlock_and_dedup` keys on the whole
line with its length tags removed and surrounding whitespace stripped (not
on the placeholder token alone): the output is a subsequence of the input
in which, for every key `k`, exactly the first input line whose length
hint is zero and whose dedup key is `k` survives; all later lines with the
same key (zero-hint) are removed. -/
theorem c3_dedup_first_by_key :
    (∀ ls : List (List Char), (dedupLines ls).Sublist ls) ∧
    (∀ (ls : List (List Char)) (k : List Char),
      (dedupLines ls).filter (fun ln => zeroKey ln == some k)
        = (ls.filter (fun ln => zeroKey ln == some k)).take 1) := by
  constructor
  · intro ls; exact dedupGo_sublist ls []
  · intro ls k
    unfold dedupLines
    rw [dedupGo_filter]
    simp

/-- C3 counterexample: two input lines that carry the same zero-length
placeholder token but differ elsewhere are BOTH kept by
`_unlock_and_dedup` (the dedup key is the whole stripped line without its
length tags, not the token), contradicting the claim that only the first
line with a given token is kept. -/
theorem c3_counterexample :
    (let tok := make_ph_name 0 0
     let lnA := "### ".data ++ tok ++ " a <!--len:0-->".data
     let lnB := "### ".data ++ tok ++ " b <!--len:0-->".data
     let md := lnA ++ '\n' :: lnB
     zeroHint lnA = true ∧ zeroHint lnB = true ∧
     occursIn tok lnA = true ∧ occursIn tok lnB = true ∧
     unlock_and_dedup md [] false = md ∧
     lnB ∈ splitKeepEol (unlock_and_dedup md [] false)) := by
  decide

/-- C1: Placeholder token round-trip: for every slide index `s` and shape
index `i` (0-based), parsing the token produced by `_make_ph_name s i`
(the string `\x7b\x7bS<s+1>_P<i+1>\x7d\x7d`) recovers exactly the pair
`(s, i)`; consequently `_make_ph_name` is injective, so no two text shapes
of one deck share a token. -/
theorem c1_token_roundtrip :
    (∀ s i : Nat, parseToken (make_ph_name s i) = some (s, i)) ∧
    Function.Injective (fun p : Nat × Nat => make_ph_name p.1 p.2) := by
  refine ⟨parseToken_make_ph_name, ?_⟩
  intro p q h
  have hp := parseToken_make_ph_name p.1 p.2
  have hq := parseToken_make_ph_name q.1 q.2
  simp only at h
  rw [h, hq] at hp
  have := Option.some.inj hp
  exact Prod.ext (congrArg Prod.fst this).symm (congrArg Prod.snd this).symm


/-! ### Whitespace-suffix stability of the length-tag scanner -/

theorem dropWhile_append_split (p : Char → Bool) (a b : List Char) :
    (a ++ b).dropWhile p
      = if a.dropWhile p = [] then b.dropWhile p else a.dropWhile p ++ b := by
  induction a with
  | nil => simp
  | cons c cs ih =>
    by_cases hc : p c
    · simpa [List.dropWhile_cons, hc] using ih
    · simp [List.dropWhile_cons, hc]

theorem takeWhile_eq_of_dropWhile_nil {p : Char → Bool} :
    ∀ {a : List Char}, a.dropWhile p = [] → a.takeWhile p = a := by
  intro a
  induction a with
  | nil => simp
  | cons c cs ih =>
    intro h
    by_cases hc : p c
    · rw [List.dropWhile_cons_of_pos hc] at h
      rw [List.takeWhile_cons_of_pos hc, ih h]
    · rw [List.dropWhile_cons_of_neg hc] at h
      exact absurd h (by simp)

theorem dropWhile_all {p : Char → Bool} {a : List Char}
    (h : ∀ c ∈ a, p c = true) : a.dropWhile p = [] := by
  induction a with
  | nil => simp
  | cons c cs ih =>
    rw [List.dropWhile_cons_of_pos (h c (by simp))]
    exact ih (fun x hx => h x (by simp [hx]))

theorem takeWhile_append_split (p : Char → Bool) (a b : List Char) :
    (a ++ b).takeWhile p
      = if a.dropWhile p = [] then a ++ b.takeWhile p else a.takeWhile p := by
  induction a with
  | nil => simp
  | cons c cs ih =>
    by_cases hc : p c
    · simp only [List.cons_append, List.takeWhile_cons_of_pos hc,
        List.dropWhile_cons_of_pos hc, ih]
      split <;> simp
    · simp [List.takeWhile_cons_of_neg hc, List.dropWhile_cons_of_neg hc]

theorem ws_ne_lit {c d : Char} (h : isPySpace c = true) (hd : isPySpace d = false) :
    (d == c) = false := by
  have : d ≠ c := by
    intro he
    rw [← he, hd] at h
    exact Bool.false_ne_true h
  simp [this]

theorem isPrefixOf_append_allWs {pat : List Char}
    (hpat : ∀ c ∈ pat, isPySpace c = false) :
    ∀ (x : List Char) {ws : List Char}, AllWs ws →
      pat.isPrefixOf (x ++ ws) = pat.isPrefixOf x := by
  induction pat with
  | nil => intro x ws hws; simp [List.isPrefixOf]
  | cons p ps ih =>
    intro x ws hws
    cases x with
    | nil =>
      simp only [List.nil_append]
      cases ws with
      | nil => rfl
      | cons w ws' =>
        have h1 : isPySpace p = false := hpat p (by simp)
        have h2 : isPySpace w = true := hws w (by simp)
        show (p == w && ps.isPrefixOf ws') = (List.isPrefixOf (p :: ps) [])
        rw [ws_ne_lit h2 h1]
        simp [List.isPrefixOf]
    | cons a x' =>
      show (p == a && ps.isPrefixOf (x' ++ ws)) = (p == a && ps.isPrefixOf x')
      rw [ih (fun c hc => hpat c (by simp [hc])) x' hws]

theorem expectLit_append_allWs {pat : List Char}
    (hpat : ∀ c ∈ pat, isPySpace c = false) {x ws : List Char} (hws : AllWs ws) :
    expectLit pat (x ++ ws) = (expectLit pat x).map (fun r => r ++ ws) := by
  unfold expectLit
  rw [isPrefixOf_append_allWs hpat x hws]
  by_cases h : pat.isPrefixOf x
  · have hle : pat.length ≤ x.length :=
      (List.isPrefixOf_iff_prefix.mp h).length_le
    simp [h, List.drop_append_of_le_length hle]
  · simp [h]

theorem isPySpace_cases {c : Char} (h : isPySpace c = true) :
    c = ' ' ∨ c = '\t' ∨ c = '\n' ∨ c = '\r' ∨ c = '\x0b' ∨ c = '\x0c' := by
  unfold isPySpace at h
  simp only [Bool.or_eq_true, decide_eq_true_eq] at h
  tauto

theorem allWs_not_digit {c : Char} (h : isPySpace c = true) : c.isDigit = false := by
  rcases isPySpace_cases h with h|h|h|h|h|h <;> (subst h; decide)


theorem allWs_dropWhile_digit {ws : List Char} (hws : AllWs ws) :
    ws.dropWhile Char.isDigit = ws := by
  cases ws with
  | nil => rfl
  | cons w ws' =>
    rw [List.dropWhile_cons_of_neg]
    simp [allWs_not_digit (hws w (by simp))]

theorem allWs_takeWhile_digit {ws : List Char} (hws : AllWs ws) :
    ws.takeWhile Char.isDigit = [] := by
  cases ws with
  | nil => rfl
  | cons w ws' =>
    rw [List.takeWhile_cons_of_neg]
    simp [allWs_not_digit (hws w (by simp))]

theorem matchLenAt_append_allWs {ws : List Char} (hws : AllWs ws) (s : List Char) :
    matchLenAt (s ++ ws) = matchLenAt s := by
  unfold matchLenAt
  rw [expectLit_append_allWs (by decide) hws]
  cases h1 : expectLit ['<', '!', '-', '-'] s with
  | none => simp
  | some r1 =>
    simp only [Option.map_some']
    rw [dropWhile_append_split]
    by_cases h2 : r1.dropWhile isPySpace = []
    · rw [if_pos h2, dropWhile_all hws, h2]
      simp [expectLit, List.isPrefixOf]
    · rw [if_neg h2, expectLit_append_allWs (by decide) hws,
        takeWhile_append_split, if_neg h2]
      cases h3 : expectLit ['l', 'e', 'n', ':'] (r1.dropWhile isPySpace) with
      | none => simp
      | some r3 =>
        simp only [Option.map_some']
        rw [takeWhile_append_split, dropWhile_append_split]
        by_cases h4 : r3.dropWhile Char.isDigit = []
        · rw [if_pos h4, if_pos h4, allWs_takeWhile_digit hws,
            allWs_dropWhile_digit hws, List.append_nil,
            takeWhile_eq_of_dropWhile_nil h4]
          by_cases h5 : r3 = []
          · simp [h5]
          · rw [if_neg h5, if_neg h5, h4, dropWhile_all hws]
            simp [expectLit, List.isPrefixOf]
        · rw [if_neg h4, if_neg h4, dropWhile_append_split]
          by_cases h6 : (r3.dropWhile Char.isDigit).dropWhile isPySpace = []
          · rw [if_pos h6, dropWhile_all hws, h6]
            by_cases h5 : r3.takeWhile Char.isDigit = [] <;>
              simp [h5, expectLit, List.isPrefixOf]
          · rw [if_neg h6, expectLit_append_allWs (by decide) hws,
              takeWhile_append_split, if_neg h6]
            cases h7 : expectLit ['-', '-', '>']
                ((r3.dropWhile Char.isDigit).dropWhile isPySpace) with
            | none => simp
            | some r6 => simp


theorem matchLenAt_nil : matchLenAt [] = none := by
  simp [matchLenAt, expectLit, List.isPrefixOf]

theorem matchLenAt_allWs {ws : List Char} (hws : AllWs ws) : matchLenAt ws = none := by
  have h := matchLenAt_append_allWs hws []
  rw [List.nil_append] at h
  rw [h, matchLenAt_nil]

theorem findLenTag_allWs {ws : List Char} (hws : AllWs ws) : findLenTag ws = none := by
  induction ws with
  | nil => rfl
  | cons w ws' ih =>
    unfold findLenTag
    rw [matchLenAt_allWs hws]
    exact ih (fun c hc => hws c (by simp [hc]))

theorem findLenTag_append_allWs {ws : List Char} (hws : AllWs ws) :
    ∀ s, findLenTag (s ++ ws) = findLenTag s := by
  intro s
  induction s with
  | nil => simpa using findLenTag_allWs hws
  | cons c cs ih =>
    show findLenTag (c :: (cs ++ ws)) = findLenTag (c :: cs)
    unfold findLenTag
    rw [show (c :: (cs ++ ws)) = (c :: cs) ++ ws from rfl,
      matchLenAt_append_allWs hws (c :: cs)]
    cases matchLenAt (c :: cs) <;> simp [ih]

theorem subLenTagsF_congr :
    ∀ (f f' : Nat) (l : List Char), l.length ≤ f → l.length ≤ f' →
      subLenTagsF f l = subLenTagsF f' l := by
  intro f
  induction f with
  | zero =>
    intro f' l h h'
    have : l = [] := List.eq_nil_of_length_eq_zero (by omega)
    subst this
    cases f' <;> rfl
  | succ f ih =>
    intro f' l h h'
    cases l with
    | nil => cases f' <;> rfl
    | cons c cs =>
      cases f' with
      | zero => simp at h'
      | succ f'' =>
        show subLenTagsF (f + 1) (c :: cs) = subLenTagsF (f'' + 1) (c :: cs)
        unfold subLenTagsF
        cases hm : matchLenAt (c :: cs) with
        | some p =>
          simp only []
          apply ih
          · simp only [List.length_drop, List.length_cons]
            simp only [List.length_cons] at h
            omega
          · simp only [List.length_drop, List.length_cons]
            simp only [List.length_cons] at h'
            omega
        | none =>
          simp only [List.cons.injEq, true_and]
          apply ih
          · simp only [List.length_cons] at h; omega
          · simp only [List.length_cons] at h'; omega

theorem subLenTagsF_eq {f : Nat} {l : List Char} (h : l.length ≤ f) :
    subLenTagsF f l = subLenTags l :=
  subLenTagsF_congr f l.length l h le_rfl

theorem subLenTagsF_allWs {ws : List Char} (hws : AllWs ws) :
    ∀ f, subLenTagsF f ws = ws := by
  induction ws with
  | nil => intro f; cases f <;> rfl
  | cons w ws' ih =>
    intro f
    cases f with
    | zero => rfl
    | succ f' =>
      unfold subLenTagsF
      rw [matchLenAt_allWs hws]
      simp only [List.cons.injEq, true_and]
      exact ih (fun c hc => hws c (by simp [hc])) f'

theorem expectLit_some_length {pat l r : List Char} (h : expectLit pat l = some r) :
    l.length = pat.length + r.length := by
  unfold expectLit at h
  split at h
  · next hp =>
    have hle : pat.length ≤ l.length := (List.isPrefixOf_iff_prefix.mp hp).length_le
    have := Option.some.inj h
    subst this
    simp only [List.length_drop]
    omega
  · exact absurd h (by simp)

theorem matchLenAt_some_length {s : List Char} {ds : List Char} {extra : Nat}
    (h : matchLenAt s = some (ds, extra)) : 11 + extra ≤ s.length ∧ ds ≠ [] := by
  unfold matchLenAt at h
  split at h
  · exact absurd h (by simp)
  · next r1 h1 =>
    split at h
    · exact absurd h (by simp)
    · next r3 h2 =>
      split at h
      · exact absurd h (by simp)
      · next hds =>
        split at h
        · exact absurd h (by simp)
        · next r6 h3 =>
          have hinj := Option.some.inj h
          have hds2 : ds = r3.takeWhile Char.isDigit := (congrArg Prod.fst hinj).symm
          have hex : extra = (r1.takeWhile isPySpace).length
              + (r3.takeWhile Char.isDigit).length
              + ((r3.dropWhile Char.isDigit).takeWhile isPySpace).length :=
            (congrArg Prod.snd hinj).symm
          have l1 := expectLit_some_length h1
          have l2 := expectLit_some_length h2
          have l3 := expectLit_some_length h3
          have e1 : (r1.takeWhile isPySpace).length
              + (r1.dropWhile isPySpace).length = r1.length := by
            rw [← List.length_append, List.takeWhile_append_dropWhile]
          have e2 : (r3.takeWhile Char.isDigit).length
              + (r3.dropWhile Char.isDigit).length = r3.length := by
            rw [← List.length_append, List.takeWhile_append_dropWhile]
          have e3 : ((r3.dropWhile Char.isDigit).takeWhile isPySpace).length
                + ((r3.dropWhile Char.isDigit).dropWhile isPySpace).length
              = (r3.dropWhile Char.isDigit).length := by
            rw [← List.length_append, List.takeWhile_append_dropWhile]
          constructor
          · simp only [List.length_cons] at l1 l2 l3
            omega
          · rw [hds2]; exact hds

theorem subLenTagsF_append_allWs {ws : List Char} (hws : AllWs ws) :
    ∀ (f : Nat) (s : List Char), s.length + ws.length ≤ f →
      subLenTagsF f (s ++ ws) = subLenTagsF f s ++ ws := by
  intro f
  induction f with
  | zero =>
    intro s h
    have hs : s = [] := List.eq_nil_of_length_eq_zero (by omega)
    have hw : ws = [] := List.eq_nil_of_length_eq_zero (by omega)
    subst hs; subst hw; rfl
  | succ f ih =>
    intro s h
    cases s with
    | nil =>
      simp only [List.nil_append]
      rw [subLenTagsF_allWs hws]
      rfl
    | cons c cs =>
      show subLenTagsF (f + 1) ((c :: cs) ++ ws) = subLenTagsF (f + 1) (c :: cs) ++ ws
      have key : ∀ l : List Char, subLenTagsF (f + 1) (c :: l)
          = match matchLenAt (c :: l) with
            | some (_, extra) => subLenTagsF f ((c :: l).drop (11 + extra))
            | none => c :: subLenTagsF f l := fun l => rfl
      rw [List.cons_append, key (cs ++ ws), key cs, ← List.cons_append,
        matchLenAt_append_allWs hws (c :: cs)]
      cases hm : matchLenAt (c :: cs) with
      | some p =>
        obtain ⟨ds, extra⟩ := p
        simp only []
        have hlen := (matchLenAt_some_length hm).1
        rw [List.drop_append_of_le_length (by simpa using hlen)]
        apply ih
        simp only [List.length_drop, List.length_cons] at *
        omega
      | none =>
        simp only [List.cons_append, List.cons.injEq, true_and]
        apply ih
        simp only [List.length_cons] at h
        omega

theorem subLenTags_append_allWs {ws : List Char} (hws : AllWs ws) (s : List Char) :
    subLenTags (s ++ ws) = subLenTags s ++ ws := by
  unfold subLenTags
  rw [subLenTagsF_append_allWs hws (s ++ ws).length s (by simp)]
  rw [subLenTagsF_eq (by simp : s.length ≤ (s ++ ws).length)]
  rfl

/-! ### Whitespace-suffix stability of strip operations -/

theorem allWs_pyRstrip_nil {l : List Char} (h : AllWs l) : pyRstrip l = [] := by
  unfold pyRstrip
  rw [dropWhile_all (fun c hc => h c (List.mem_reverse.mp hc))]
  rfl

theorem pyRstrip_append_allWs {ws : List Char} (hws : AllWs ws) (x : List Char) :
    pyRstrip (x ++ ws) = pyRstrip x := by
  unfold pyRstrip
  rw [List.reverse_append, dropWhile_append_split,
    dropWhile_all (fun c hc => hws c (List.mem_reverse.mp hc))]
  simp

theorem pyStrip_append_allWs {ws : List Char} (hws : AllWs ws) (x : List Char) :
    pyStrip (x ++ ws) = pyStrip x := by
  unfold pyStrip pyLstrip
  rw [dropWhile_append_split]
  by_cases h : x.dropWhile isPySpace = []
  · rw [if_pos h, h]
    have hsub : AllWs (ws.dropWhile isPySpace) :=
      fun c hc => hws c (List.dropWhile_subset _ hc)
    rw [allWs_pyRstrip_nil hsub]
    rfl
  · rw [if_neg h, pyRstrip_append_allWs hws]

theorem pyRstrip_decomp (l : List Char) :
    ∃ ws, l = pyRstrip l ++ ws ∧ AllWs ws := by
  refine ⟨(l.reverse.takeWhile isPySpace).reverse, ?_, ?_⟩
  · unfold pyRstrip
    rw [← List.reverse_append, List.takeWhile_append_dropWhile, List.reverse_reverse]
  · intro c hc
    rw [List.mem_reverse] at hc
    exact List.mem_takeWhile_imp hc

theorem pyRstrip_idem (l : List Char) : pyRstrip (pyRstrip l) = pyRstrip l := by
  unfold pyRstrip
  rw [List.reverse_reverse]
  cases h : l.reverse.dropWhile isPySpace with
  | nil => rfl
  | cons c cs =>
    have hc : isPySpace c = false := by
      have := List.head?_dropWhile_not isPySpace l.reverse
      rw [h] at this
      exact this
    rw [List.dropWhile_cons_of_neg (by simp [hc])]

theorem zeroHint_pyRstrip (l : List Char) : zeroHint (pyRstrip l) = zeroHint l := by
  obtain ⟨ws, he, hws⟩ := pyRstrip_decomp l
  unfold zeroHint
  conv_rhs => rw [he]
  rw [findLenTag_append_allWs hws]

theorem dedupKey_pyRstrip (l : List Char) : dedupKey (pyRstrip l) = dedupKey l := by
  obtain ⟨ws, he, hws⟩ := pyRstrip_decomp l
  unfold dedupKey
  conv_rhs => rw [he]
  rw [subLenTags_append_allWs hws, pyStrip_append_allWs hws]

theorem zeroKey_pyRstrip (l : List Char) : zeroKey (pyRstrip l) = zeroKey l := by
  unfold zeroKey
  rw [zeroHint_pyRstrip, dedupKey_pyRstrip]


/-! ### Structure of `_split_lines_keep_eol` -/

theorem splitEolAux_flatten :
    ∀ (l acc : List Char), (splitEolAux acc l).flatten = acc.reverse ++ l := by
  intro l
  induction l with
  | nil =>
    intro acc
    by_cases h : acc = [] <;> simp [splitEolAux, h]
  | cons c cs ih =>
    intro acc
    unfold splitEolAux
    by_cases h : c = '\n'
    · subst h
      simp [ih]
    · rw [if_neg h, ih (c :: acc)]
      simp

theorem flatten_splitKeepEol (l : List Char) : (splitKeepEol l).flatten = l := by
  simpa using splitEolAux_flatten l []

theorem splitEolAux_line :
    ∀ (body : List Char), '\n' ∉ body → ∀ (acc rest : List Char),
      splitEolAux acc (body ++ '\n' :: rest)
        = ((acc.reverse ++ body) ++ ['\n']) :: splitEolAux [] rest := by
  intro body
  induction body with
  | nil =>
    intro h acc rest
    show splitEolAux acc ('\n' :: rest) = ((acc.reverse ++ []) ++ ['\n']) :: splitEolAux [] rest
    conv_lhs => unfold splitEolAux
    simp
  | cons b bs ih =>
    intro h acc rest
    have hb : ¬(b = '\n') := fun he => h (by simp [he])
    show splitEolAux acc (b :: (bs ++ '\n' :: rest)) = _
    conv_lhs => unfold splitEolAux
    rw [if_neg hb, ih (fun hm => h (by simp [hm])) (b :: acc) rest]
    simp

theorem splitKeepEol_cons_line {body : List Char} (h : '\n' ∉ body) (rest : List Char) :
    splitKeepEol ((body ++ ['\n']) ++ rest) = (body ++ ['\n']) :: splitKeepEol rest := by
  unfold splitKeepEol
  rw [List.append_assoc, List.singleton_append, splitEolAux_line body h [] rest]
  simp

theorem splitEolAux_no_nl :
    ∀ (body : List Char), '\n' ∉ body → ∀ acc : List Char,
      splitEolAux acc body
        = if acc.reverse ++ body = [] then [[]] else [acc.reverse ++ body, []] := by
  intro body
  induction body with
  | nil =>
    intro h acc
    unfold splitEolAux
    by_cases ha : acc = [] <;> simp [ha]
  | cons b bs ih =>
    intro h acc
    have hb : ¬(b = '\n') := fun he => h (by simp [he])
    unfold splitEolAux
    rw [if_neg hb, ih (fun hm => h (by simp [hm])) (b :: acc)]
    simp

theorem splitKeepEol_no_nl {body : List Char} (h : '\n' ∉ body) :
    splitKeepEol body = if body = [] then [[]] else [body, []] := by
  unfold splitKeepEol
  rw [splitEolAux_no_nl body h []]
  simp

theorem splitKeepEol_properLine :
    ∀ (l acc : List Char), '\n' ∉ acc →
      ∀ x ∈ splitEolAux acc l, ProperLine x := by
  intro l
  induction l with
  | nil =>
    intro acc hacc x hx
    unfold splitEolAux at hx
    split at hx
    · simp only [List.mem_singleton] at hx
      exact ⟨[], by simp, Or.inl (by simp [hx])⟩
    · simp only [List.mem_cons, List.mem_singleton, List.not_mem_nil, or_false] at hx
      rcases hx with rfl | rfl
      · exact ⟨acc.reverse, by simpa using hacc, Or.inl rfl⟩
      · exact ⟨[], by simp, Or.inl rfl⟩
  | cons c cs ih =>
    intro acc hacc x hx
    unfold splitEolAux at hx
    split at hx
    · next hc =>
      simp only [List.mem_cons] at hx
      rcases hx with rfl | hx
      · exact ⟨acc.reverse, by simpa using hacc, Or.inr rfl⟩
      · exact ih [] (by simp) x hx
    · next hc =>
      exact ih (c :: acc) (by simpa using ⟨fun h => hc h.symm, hacc⟩) x hx

/-- The pairwise guarantee of `_split_lines_keep_eol`: any element that is
followed by a non-whitespace element ends with a newline. -/
theorem splitKeepEol_pairwise :
    ∀ (l acc : List Char),
      (splitEolAux acc l).Pairwise
        (fun a b => pyRstrip b ≠ [] → a.getLast? = some '\n') := by
  intro l
  induction l with
  | nil =>
    intro acc
    unfold splitEolAux
    split
    · simp
    · refine List.Pairwise.cons ?_ (by simp)
      intro b hb
      simp only [List.mem_singleton] at hb
      subst hb
      intro hr
      exact absurd rfl hr
  | cons c cs ih =>
    intro acc
    unfold splitEolAux
    split
    · refine List.Pairwise.cons ?_ (ih [])
      intro b hb hr
      simp
    · exact ih (c :: acc)

/-! ### The canonical form of `pyRstrip ∘ flatten` on a line list -/

theorem pyRstrip_append (x y : List Char) :
    pyRstrip (x ++ y) = if pyRstrip y = [] then pyRstrip x else x ++ pyRstrip y := by
  unfold pyRstrip
  rw [List.reverse_append, dropWhile_append_split]
  by_cases h : y.reverse.dropWhile isPySpace = []
  · rw [if_pos h, h]
    simp
  · rw [if_neg h]
    rw [if_neg (by simpa using h)]
    simp

theorem dropTrailWs_snoc (ls : List (List Char)) (a : List Char) :
    dropTrailWs (ls ++ [a])
      = if pyRstrip a = [] then dropTrailWs ls else ls ++ [a] := by
  unfold dropTrailWs
  rw [List.reverse_append]
  simp only [List.reverse_cons, List.reverse_nil, List.nil_append, List.singleton_append]
  rw [List.dropWhile_cons]
  by_cases h : pyRstrip a = []
  · rw [if_pos (by simp [h]), if_pos h]
  · rw [if_neg (by simp [h]), if_neg h]
    simp

theorem pyRstrip_flatten_canon :
    ∀ ls : List (List Char),
      pyRstrip ls.flatten
        = match (dropTrailWs ls).reverse with
          | [] => []
          | last :: revInit => revInit.reverse.flatten ++ pyRstrip last := by
  intro ls
  induction ls using List.reverseRecOn with
  | nil => simp [dropTrailWs, pyRstrip]
  | append_singleton ls a ih =>
    rw [List.flatten_append, List.flatten_cons, List.flatten_nil, List.append_nil,
      pyRstrip_append, dropTrailWs_snoc]
    by_cases h : pyRstrip a = []
    · rw [if_pos h, if_pos h, ih]
    · rw [if_neg h, if_neg h, List.reverse_append]
      simp

theorem zeroKey_nil : zeroKey ([] : List Char) = none := by decide

theorem properLine_no_nl_pyRstrip {l : List Char} (h : ProperLine l) :
    '\n' ∉ pyRstrip l := by
  obtain ⟨body, hb, hl | hl⟩ := h
  · rw [hl]
    obtain ⟨ws, he, hws⟩ := pyRstrip_decomp body
    intro hm
    exact hb (by rw [he]; exact List.mem_append_left _ hm)
  · rw [hl, pyRstrip_append, if_pos (by decide)]
    obtain ⟨ws, he, hws⟩ := pyRstrip_decomp body
    intro hm
    exact hb (by rw [he]; exact List.mem_append_left _ hm)

theorem mem_dropTrailWs {ls : List (List Char)} {x : List Char}
    (hx : x ∈ ls) (hr : pyRstrip x ≠ []) : x ∈ dropTrailWs ls := by
  unfold dropTrailWs
  rw [List.mem_reverse]
  have hxr : x ∈ ls.reverse := List.mem_reverse.mpr hx
  have hsplit : ls.reverse
      = ls.reverse.takeWhile (fun l => (pyRstrip l).isEmpty)
        ++ ls.reverse.dropWhile (fun l => (pyRstrip l).isEmpty) :=
    (List.takeWhile_append_dropWhile ..).symm
  rw [hsplit, List.mem_append] at hxr
  rcases hxr with hxt | hxd
  · have := List.mem_takeWhile_imp hxt
    simp only [List.isEmpty_iff] at this
    exact absurd this hr
  · exact hxd

theorem dropTrailWs_leading (ls : List (List Char)) : dropTrailWs ls <+: ls := by
  unfold dropTrailWs
  have h := @List.dropWhile_suffix _ ls.reverse (fun l => (pyRstrip l).isEmpty)
  rw [← List.reverse_prefix] at h
  simpa using h


theorem splitKeepEol_flatten_blocks :
    ∀ (init : List (List Char)),
      (∀ l ∈ init, ∃ body, '\n' ∉ body ∧ l = body ++ ['\n']) →
      ∀ {last : List Char}, '\n' ∉ last → last ≠ [] →
        splitKeepEol (init.flatten ++ last) = init ++ [last, []] := by
  intro init
  induction init with
  | nil =>
    intro h last hl hne
    rw [List.flatten_nil, List.nil_append, splitKeepEol_no_nl hl, if_neg hne]
    rfl
  | cons l init' ih =>
    intro h last hl hne
    obtain ⟨body, hb, rfl⟩ := h l (by simp)
    rw [List.flatten_cons, List.append_assoc, splitKeepEol_cons_line hb,
      ih (fun x hx => h x (by simp [hx])) hl hne]
    rfl

/-- The canonical-form theorem: splitting the right-stripped flattening of
a list of proper lines (in which any line followed by a non-whitespace
line ends with a newline) gives back the lines, with the trailing
whitespace-only ones removed, the last survivor right-stripped and the
final empty piece appended. -/
theorem splitKeepEol_pyRstrip_flatten (D : List (List Char))
    (hp : ∀ l ∈ D, ProperLine l)
    (hchain : D.Pairwise (fun a b => pyRstrip b ≠ [] → a.getLast? = some '\n')) :
    splitKeepEol (pyRstrip D.flatten) = canonLines D := by
  rw [pyRstrip_flatten_canon]
  unfold canonLines
  cases hrev : (dropTrailWs D).reverse with
  | nil => rfl
  | cons last revInit =>
    have hD' : dropTrailWs D = revInit.reverse ++ [last] := by
      simpa using congrArg List.reverse hrev
    have hlastD : last ∈ D := (dropTrailWs_leading D).subset (by rw [hD']; simp)
    have hlast_ne : pyRstrip last ≠ [] := by
      have h := List.head?_dropWhile_not (fun l => (pyRstrip l).isEmpty) D.reverse
      have h2 : D.reverse.dropWhile (fun l => (pyRstrip l).isEmpty) = last :: revInit := by
        have h3 : (dropTrailWs D).reverse = last :: revInit := hrev
        unfold dropTrailWs at h3
        simpa using h3
      rw [h2] at h
      simpa [List.isEmpty_iff] using h
    have hnl : '\n' ∉ pyRstrip last := properLine_no_nl_pyRstrip (hp last hlastD)
    apply splitKeepEol_flatten_blocks
    · intro x hx
      have hxD' : x ∈ dropTrailWs D := by rw [hD']; exact List.mem_append_left _ hx
      have hxD : x ∈ D := (dropTrailWs_leading D).subset hxD'
      have hPW : (revInit.reverse ++ [last]).Pairwise
          (fun a b => pyRstrip b ≠ [] → a.getLast? = some '\n') := by
        rw [← hD']
        exact hchain.sublist (dropTrailWs_leading D).sublist
      have hends : x.getLast? = some '\n' := by
        rcases List.pairwise_append.mp hPW with ⟨-, -, hrel⟩
        exact hrel x hx last (by simp) hlast_ne
      obtain ⟨body, hb, hx1 | hx1⟩ := hp x hxD
      · exfalso
        have hmem : '\n' ∈ x := List.mem_of_getLast?_eq_some hends
        rw [hx1] at hmem
        exact hb hmem
      · exact ⟨body, hb, hx1⟩
    · exact hnl
    · exact hlast_ne

theorem canonLines_filter_le (D : List (List Char)) (k : List Char) :
    ((canonLines D).filter (fun ln => zeroKey ln == some k)).length
      ≤ (D.filter (fun ln => zeroKey ln == some k)).length := by
  unfold canonLines
  cases hrev : (dropTrailWs D).reverse with
  | nil =>
    simp [List.filter_cons, zeroKey_nil]
  | cons last revInit =>
    have hD' : dropTrailWs D = revInit.reverse ++ [last] := by
      simpa using congrArg List.reverse hrev
    have hk : (zeroKey (pyRstrip last) == some k) = (zeroKey last == some k) := by
      rw [zeroKey_pyRstrip]
    have h1 : ((revInit.reverse ++ [pyRstrip last, []]).filter
          (fun ln => zeroKey ln == some k)).length
        = ((revInit.reverse ++ [last]).filter (fun ln => zeroKey ln == some k)).length := by
      rw [List.filter_append, List.filter_append, List.length_append, List.length_append]
      congr 1
      simp only [List.filter_cons, List.filter_nil, zeroKey_nil, hk]
      cases (zeroKey last == some k) <;> simp [zeroKey_nil]
    rw [h1, ← hD']
    exact (List.Sublist.filter _ (dropTrailWs_leading D).sublist).length_le

/-- Membership transfer into the canonical split: a line with
non-whitespace content appears in the canonical split up to trailing
whitespace. -/
theorem canonLines_mem {D : List (List Char)} {x : List Char}
    (hx : x ∈ D) (hne : pyRstrip x ≠ []) :
    ∃ y ∈ canonLines D, pyRstrip y = pyRstrip x := by
  unfold canonLines
  cases hrev : (dropTrailWs D).reverse with
  | nil =>
    exfalso
    have h1 : dropTrailWs D = [] := by simpa using congrArg List.reverse hrev
    have := mem_dropTrailWs hx hne
    rw [h1] at this
    exact List.not_mem_nil _ this
  | cons last revInit =>
    have hD' : dropTrailWs D = revInit.reverse ++ [last] := by
      simpa using congrArg List.reverse hrev
    have hmem : x ∈ dropTrailWs D := mem_dropTrailWs hx hne
    rw [hD', List.mem_append] at hmem
    rcases hmem with hmem | hmem
    · exact ⟨x, List.mem_append_left _ hmem, rfl⟩
    · simp only [List.mem_singleton] at hmem
      subst hmem
      exact ⟨pyRstrip x, by simp, pyRstrip_idem x⟩

/-- The dedup pass is the identity on a line list in which every dedup key
appears on at most one zero-hint line (and no key is pre-seen). -/
theorem dedupGo_id_of_unique :
    ∀ (ls seen : List (List Char)),
      (∀ k, (ls.filter (fun ln => zeroKey ln == some k)).length ≤ 1) →
      (∀ ln ∈ ls, zeroHint ln = true → dedupKey ln ∉ seen) →
      dedupGo seen ls = ls := by
  intro ls
  induction ls with
  | nil => intro seen h1 h2; rfl
  | cons ln rest ih =>
    intro seen h1 h2
    rw [dedupGo]
    by_cases hz : zeroHint ln
    · have hns : dedupKey ln ∉ seen := h2 ln (by simp) hz
      simp only [hz, if_true, hns, if_false]
      congr 1
      have hpass : (zeroKey ln == some (dedupKey ln)) = true := by
        rw [zeroKey_beq_some]; exact ⟨hz, rfl⟩
      have hrestnil : (rest.filter (fun l => zeroKey l == some (dedupKey ln))) = [] := by
        have := h1 (dedupKey ln)
        simp only [List.filter_cons, hpass, if_true, List.length_cons] at this
        exact List.eq_nil_of_length_eq_zero (by omega)
      apply ih
      · intro k
        have := h1 k
        by_cases hk : (zeroKey ln == some k) = true
        · simp only [List.filter_cons, hk, if_true, List.length_cons] at this
          omega
        · simp only [List.filter_cons, hk, if_false] at this
          exact this
      · intro x hx hzx
        intro hmem
        rcases List.mem_cons.mp hmem with heq | hmem'
        · have hxpass : (zeroKey x == some (dedupKey ln)) = true := by
            rw [zeroKey_beq_some]; exact ⟨hzx, heq⟩
          have : x ∈ rest.filter (fun l => zeroKey l == some (dedupKey ln)) :=
            List.mem_filter.mpr ⟨hx, hxpass⟩
          rw [hrestnil] at this
          exact List.not_mem_nil _ this
        · exact h2 x (by simp [hx]) hzx hmem'
    · simp only [hz, Bool.false_eq_true, if_false]
      congr 1
      apply ih
      · intro k
        have := h1 k
        have hnk : ¬((zeroKey ln == some k) = true) := by
          rw [zeroKey_beq_some]; rintro ⟨h, -⟩; exact hz h
        simp only [List.filter_cons, hnk, if_false] at this
        exact this
      · intro x hx hzx
        exact h2 x (by simp [hx]) hzx

theorem pyRstrip_unlock (md : List Char) (zero : List (Nat × List Char)) (b : Bool) :
    pyRstrip (unlock_and_dedup md zero b) = unlock_and_dedup md zero b := by
  unfold unlock_and_dedup
  exact pyRstrip_idem _

/-- C4 (amended): applying `_unlock_and_dedup` a second time to its own
output (any `zero` lists, same flag) returns the same string, provided the
first output is a fixed point of the lock-sentinel substitution (no
residual sentinel pair, e.g. whenever the original input has no nested
sentinels) and, when `strip_len_tag` is set, no length tag survives on any
line of the first output (substitution does not rescan, so a tag can
survive only by being formed from the concatenation of the pieces around a
removed tag). -/
theorem c4_dedup_idem (md : List Char) (zero zero' : List (Nat × List Char))
    (strip_len_tag : Bool)
    (ha : lockSub (unlock_and_dedup md zero strip_len_tag)
      = unlock_and_dedup md zero strip_len_tag)
    (hb : strip_len_tag = true →
      ∀ ln ∈ splitKeepEol (unlock_and_dedup md zero strip_len_tag),
        findLenTag ln = none) :
    unlock_and_dedup (unlock_and_dedup md zero strip_len_tag) zero' strip_len_tag
      = unlock_and_dedup md zero strip_len_tag := by
  set f := unlock_and_dedup md zero strip_len_tag with hfdef
  show pyRstrip (stripLenStep strip_len_tag (dedupLines (splitKeepEol (lockSub f)))).flatten = f
  rw [ha]
  cases strip_len_tag with
  | true =>
    have hnone := hb rfl
    have hded : dedupLines (splitKeepEol f) = splitKeepEol f := by
      apply dedupGo_id_of_unique
      · intro k
        have hnil : (splitKeepEol f).filter (fun ln => zeroKey ln == some k) = [] := by
          rw [List.filter_eq_nil_iff]
          intro ln hln
          have hzn : zeroHint ln = false := by
            unfold zeroHint
            rw [hnone ln hln]
            rfl
          rw [zeroKey_beq_some]
          rintro ⟨h, -⟩
          rw [hzn] at h
          exact Bool.false_ne_true h
        rw [hnil]
        simp
      · intro ln hln hzl
        have := hnone ln hln
        unfold zeroHint at hzl
        rw [this] at hzl
        exact absurd hzl (by simp)
    rw [hded]
    have hstrip : stripLenStep true (splitKeepEol f) = splitKeepEol f := by
      unfold stripLenStep
      rw [if_pos rfl]
      have hmap : ∀ ln ∈ splitKeepEol f,
          (if (findLenTag ln).isSome then subLenTags ln else ln) = ln := by
        intro ln hln
        rw [hnone ln hln]
        rfl
      rw [List.map_congr_left hmap]
      simp
    rw [hstrip, flatten_splitKeepEol, hfdef]
    exact pyRstrip_unlock md zero true
  | false =>
    have hf : f = pyRstrip (dedupLines (splitKeepEol (lockSub md))).flatten := by
      rw [hfdef]
      rfl
    have hp1 : ∀ l ∈ dedupLines (splitKeepEol (lockSub md)), ProperLine l :=
      fun l hl => splitKeepEol_properLine (lockSub md) [] (by simp) l
        ((dedupGo_sublist _ []).subset hl)
    have hp2 : (dedupLines (splitKeepEol (lockSub md))).Pairwise
        (fun a b => pyRstrip b ≠ [] → a.getLast? = some '\n') :=
      (splitKeepEol_pairwise (lockSub md) []).sublist (dedupGo_sublist _ [])
    have hcanon : splitKeepEol f
        = canonLines (dedupLines (splitKeepEol (lockSub md))) := by
      rw [hf]
      exact splitKeepEol_pyRstrip_flatten _ hp1 hp2
    have hded : dedupLines (splitKeepEol f) = splitKeepEol f := by
      apply dedupGo_id_of_unique
      · intro k
        rw [hcanon]
        refine le_trans (canonLines_filter_le _ k) ?_
        have hchar := dedupGo_filter k (splitKeepEol (lockSub md)) []
        unfold dedupLines
        rw [hchar, if_neg (List.not_mem_nil k)]
        exact List.length_take_le 1 _
      · intro ln hln hzl
        exact List.not_mem_nil _
    rw [hded]
    show pyRstrip (splitKeepEol f).flatten = f
    rw [flatten_splitKeepEol, hfdef]
    exact pyRstrip_unlock md zero false

/-- C4 counterexample: on an input with nested lock sentinels the first
pass leaves a residual sentinel pair which the second pass removes, so
`_unlock_and_dedup` applied twice differs from applying it once. -/
theorem c4_counterexample :
    (let md := "<!--LOCK-->".data ++ "<!--LOCK-->".data ++ "x".data
      ++ "<!--/LOCK-->".data ++ "<!--/LOCK-->".data
     unlock_and_dedup (unlock_and_dedup md [] false) [] false
      ≠ unlock_and_dedup md [] false) := by
  decide

/-- C4 witness: a concrete run satisfying the amended hypotheses. -/
theorem c4_witness :
    (let md := "<!--LOCK-->".data ++ "t <!--len:0-->".data ++ "<!--/LOCK-->".data
      ++ "\nbody".data
     lockSub (unlock_and_dedup md [] false) = unlock_and_dedup md [] false ∧
     unlock_and_dedup (unlock_and_dedup md [] false) [] false
      = unlock_and_dedup md [] false) := by
  refine ⟨by decide, ?_⟩
  exact c4_dedup_idem _ [] [] false (by decide) (fun h => by simp at h)


/-! ### Occurrence lemmas and the lock substitution on locked documents -/

theorem occursIn_of_isPrefixOf {pat : List Char} {c : Char} {cs : List Char}
    (h : pat.isPrefixOf (c :: cs) = true) : occursIn pat (c :: cs) = true := by
  unfold occursIn
  rw [h]
  rfl

theorem occursIn_append_left {pat a : List Char} (h : occursIn pat a = true)
    (b : List Char) : occursIn pat (a ++ b) = true := by
  induction a with
  | nil =>
    unfold occursIn at h
    have : pat = [] := by simpa [List.isEmpty_iff] using h
    subst this
    cases b with
    | nil => exact h
    | cons x xs =>
      unfold occursIn
      simp [List.isPrefixOf]
  | cons c cs ih =>
    simp only [occursIn, Bool.or_eq_true] at h
    show occursIn pat (c :: (cs ++ b)) = true
    simp only [occursIn, Bool.or_eq_true]
    rcases h with h1 | h1
    · left
      exact List.isPrefixOf_iff_prefix.mpr
        ((List.isPrefixOf_iff_prefix.mp h1).trans (List.prefix_append _ b))
    · right
      exact ih h1

theorem occursIn_append_right {pat b : List Char} (h : occursIn pat b = true) :
    ∀ a, occursIn pat (a ++ b) = true := by
  intro a
  induction a with
  | nil => exact h
  | cons c cs ih =>
    show occursIn pat (c :: (cs ++ b)) = true
    unfold occursIn
    rw [ih]
    simp

theorem occursIn_false_of_append {pat a b : List Char}
    (h : occursIn pat (a ++ b) = false) :
    occursIn pat a = false ∧ occursIn pat b = false := by
  constructor
  · cases ha : occursIn pat a
    · rfl
    · rw [occursIn_append_left ha b] at h
      exact h
  · cases hb : occursIn pat b
    · rfl
    · rw [occursIn_append_right hb a] at h
      exact h

theorem isPrefixOf_append_split {m : List Char} :
    ∀ {a b : List Char}, m.isPrefixOf (a ++ b) = true →
      m.isPrefixOf a = true ∨ (a.length < m.length ∧ a = m.take a.length) := by
  induction m with
  | nil => intro a b h; left; simp [List.isPrefixOf]
  | cons x m' ih =>
    intro a b h
    cases a with
    | nil => right; simp
    | cons c a' =>
      rw [show (c :: a') ++ b = c :: (a' ++ b) from rfl] at h
      have hx : (x == c) = true ∧ m'.isPrefixOf (a' ++ b) = true := by
        simpa [List.isPrefixOf] using h
      rcases ih hx.2 with h1 | ⟨h1, h2⟩
      · left
        simp [List.isPrefixOf, hx.1, h1]
      · right
        refine ⟨by simpa using h1, ?_⟩
        have hxc : x = c := by simpa using hx.1
        simp [List.take_cons, hxc, ← h2]

theorem lockSubF_congr :
    ∀ (f f' : Nat) (l : List Char), l.length ≤ f → l.length ≤ f' →
      lockSubF f l = lockSubF f' l := by
  intro f
  induction f with
  | zero =>
    intro f' l h h'
    have : l = [] := List.eq_nil_of_length_eq_zero (by omega)
    subst this
    cases f' <;> rfl
  | succ f ih =>
    intro f' l h h'
    cases l with
    | nil => cases f' <;> rfl
    | cons c cs =>
      cases f' with
      | zero => simp at h'
      | succ f'' =>
        show lockSubF (f + 1) (c :: cs) = lockSubF (f'' + 1) (c :: cs)
        unfold lockSubF
        by_cases hp : lockOpen.isPrefixOf (c :: cs)
        · rw [if_pos hp, if_pos hp]
          cases hg : findLockClose ((c :: cs).drop 11) with
          | none =>
            simp only [List.cons.injEq, true_and]
            apply ih
            · simp only [List.length_cons] at h; omega
            · simp only [List.length_cons] at h'; omega
          | some g =>
            simp only [List.append_cancel_left_eq]
            apply ih
            · simp only [List.length_drop, List.length_cons] at *; omega
            · simp only [List.length_drop, List.length_cons] at *; omega
        · rw [if_neg hp, if_neg hp]
          simp only [List.cons.injEq, true_and]
          apply ih
          · simp only [List.length_cons] at h; omega
          · simp only [List.length_cons] at h'; omega

theorem lockSubF_eq {f : Nat} {l : List Char} (h : l.length ≤ f) :
    lockSubF f l = lockSub l :=
  lockSubF_congr f l.length l h le_rfl

theorem lockSubF_id_noopen {a : List Char} (h : occursIn lockOpen a = false) :
    ∀ f, lockSubF f a = a := by
  induction a with
  | nil => intro f; cases f <;> rfl
  | cons c cs ih =>
    intro f
    cases f with
    | zero => rfl
    | succ f' =>
      unfold occursIn at h
      have h1 : lockOpen.isPrefixOf (c :: cs) = false := by
        cases hp : lockOpen.isPrefixOf (c :: cs)
        · rfl
        · rw [hp] at h; simp at h
      have h2 : occursIn lockOpen cs = false := by
        cases hp : occursIn lockOpen cs
        · rfl
        · rw [hp] at h; simp at h
      unfold lockSubF
      rw [if_neg (by simp [h1])]
      simp only [List.cons.injEq, true_and]
      exact ih h2 f'

theorem no_open_at_line {a b : List Char} (hlast : a.getLast? = some '\n')
    (hocc : occursIn lockOpen a = false) :
    lockOpen.isPrefixOf (a ++ b) = false := by
  cases hp : lockOpen.isPrefixOf (a ++ b)
  · rfl
  · exfalso
    rcases isPrefixOf_append_split hp with h1 | ⟨h1, h2⟩
    · cases a with
      | nil => simp at hlast
      | cons c cs => rw [occursIn_of_isPrefixOf h1] at hocc; simp at hocc
    · have hmem : '\n' ∈ a := List.mem_of_getLast?_eq_some hlast
      rw [h2] at hmem
      have : '\n' ∈ lockOpen := List.take_subset _ _ hmem
      revert this
      decide

theorem lockSubF_append_line :
    ∀ (a : List Char) (f : Nat) (b : List Char), a.getLast? = some '\n' →
      occursIn lockOpen a = false → a.length + b.length ≤ f →
      lockSubF f (a ++ b) = a ++ lockSubF f b := by
  intro a
  induction a with
  | nil => intro f b h; simp at h
  | cons c a' ih =>
    intro f b hlast hocc hf
    cases f with
    | zero => simp only [List.length_cons] at hf; omega
    | succ f' =>
      have hp : lockOpen.isPrefixOf (c :: (a' ++ b)) = false :=
        no_open_at_line hlast hocc
      have key : ∀ (t : List Char) (ff : Nat), lockSubF (ff + 1) (c :: t)
          = if lockOpen.isPrefixOf (c :: t) then
              match findLockClose ((c :: t).drop 11) with
              | some g => g ++ lockSubF ff ((c :: t).drop (11 + (g.length + 12)))
              | none => c :: lockSubF ff t
            else c :: lockSubF ff t := fun t ff => rfl
      show lockSubF (f' + 1) (c :: (a' ++ b)) = (c :: a') ++ lockSubF (f' + 1) b
      rw [key (a' ++ b) f', if_neg (by simp [hp])]
      have h2 : occursIn lockOpen a' = false := by
        unfold occursIn at hocc
        cases hx : occursIn lockOpen a'
        · rfl
        · rw [hx] at hocc; simp at hocc
      cases ha' : a' with
      | nil =>
        subst ha'
        simp only [List.nil_append, List.cons_append, List.cons.injEq, true_and]
        exact lockSubF_congr f' (f' + 1) b (by simp only [List.length_cons] at hf; omega)
          (by simp only [List.length_cons] at hf; omega)
      | cons d a'' =>
        rw [← ha']
        have hlast' : a'.getLast? = some '\n' := by
          rw [ha'] at hlast ⊢
          rw [List.getLast?_cons_cons] at hlast
          exact hlast
        simp only [List.cons_append, List.cons.injEq, true_and]
        rw [ih f' b hlast' h2 (by simp only [List.length_cons] at hf; omega)]
        simp only [List.append_cancel_left_eq]
        exact lockSubF_congr f' (f' + 1) b (by simp only [List.length_cons] at hf; omega)
          (by simp only [List.length_cons] at hf; omega)


theorem findLockClose_wrapper :
    ∀ (o : List Char), occursIn lockClose o = false → ∀ tail,
      findLockClose (o ++ (lockClose ++ tail)) = some o := by
  intro o
  induction o with
  | nil =>
    intro h tail
    have hpre : lockClose.isPrefixOf (lockClose ++ tail) = true :=
      List.isPrefixOf_iff_prefix.mpr (List.prefix_append _ _)
    rw [List.nil_append]
    show findLockClose ('<' :: ("!--/LOCK-->".data ++ tail)) = some []
    unfold findLockClose
    rw [if_pos (show lockClose.isPrefixOf ('<' :: ("!--/LOCK-->".data ++ tail)) = true
      from hpre)]
  | cons c o' ih =>
    intro h tail
    show findLockClose (c :: (o' ++ (lockClose ++ tail))) = some (c :: o')
    have hfalse : lockClose.isPrefixOf (c :: (o' ++ (lockClose ++ tail))) = false := by
      cases hp : lockClose.isPrefixOf (c :: (o' ++ (lockClose ++ tail)))
      · rfl
      · exfalso
        have hp' : lockClose.isPrefixOf ((c :: o') ++ (lockClose ++ tail)) = true := hp
        rcases isPrefixOf_append_split hp' with h1 | ⟨h1, h2⟩
        · rw [occursIn_of_isPrefixOf h1] at h
          simp at h
        · have hpre := List.isPrefixOf_iff_prefix.mp hp'
          rw [h2] at hpre
          have hsplit : lockClose.take (c :: o').length
              ++ lockClose.drop (c :: o').length = lockClose :=
            List.take_append_drop _ _
          have hdrop : lockClose.drop (c :: o').length <+: (lockClose ++ tail) := by
            conv_lhs at hpre => rw [← hsplit]
            exact (List.prefix_append_right_inj _).mp hpre
          have hlen12 : lockClose.length = 12 := rfl
          have hne : lockClose.drop (c :: o').length ≠ [] := by
            intro hnil
            have := congrArg List.length hnil
            rw [List.length_drop, hlen12] at this
            simp only [List.length_nil] at this
            rw [hlen12] at h1
            omega
          obtain ⟨hd, tl, hcons⟩ := List.exists_cons_of_ne_nil hne
          have hdmem : hd ∈ lockClose.drop 1 := by
            have h1le : 1 ≤ (c :: o').length := by simp
            exact List.drop_subset_drop_left _ h1le (by rw [hcons]; simp)
          have hdlt : hd = '<' := by
            rw [hcons] at hdrop
            obtain ⟨r, hr⟩ := hdrop
            exact Option.some.inj (congrArg List.head? hr)
          rw [hdlt] at hdmem
          revert hdmem
          decide
    unfold findLockClose
    rw [if_neg (by simp [hfalse])]
    have h2 : occursIn lockClose o' = false := by
      unfold occursIn at h
      cases hx : occursIn lockClose o'
      · rfl
      · rw [hx] at h; simp at h
    rw [ih h2 tail]

theorem lockSubF_wrap (f : Nat) (o rest : List Char)
    (hocc : occursIn lockClose o = false)
    (hf : (wrapLock o ++ rest).length ≤ f) :
    lockSubF f (wrapLock o ++ rest) = (o ++ ['\n']) ++ lockSubF f rest := by
  have hwlen : (wrapLock o ++ rest).length = 24 + o.length + rest.length := by
    simp [wrapLock, lockOpen, lockClose]
    omega
  cases f with
  | zero => omega
  | succ f' =>
    have harg : wrapLock o ++ rest = lockOpen ++ (o ++ (lockClose ++ ('\n' :: rest))) := by
      unfold wrapLock
      simp [List.append_assoc]
    rw [harg]
    have key : ∀ (t : List Char), lockSubF (f' + 1) ('<' :: t)
        = if lockOpen.isPrefixOf ('<' :: t) then
            match findLockClose (('<' :: t).drop 11) with
            | some g => g ++ lockSubF f' (('<' :: t).drop (11 + (g.length + 12)))
            | none => '<' :: lockSubF f' t
          else '<' :: lockSubF f' t := fun t => rfl
    have hform : lockOpen ++ (o ++ (lockClose ++ ('\n' :: rest)))
        = '<' :: ("!--LOCK-->".data ++ (o ++ (lockClose ++ ('\n' :: rest)))) := rfl
    rw [hform, key]
    have hpre : lockOpen.isPrefixOf
        ('<' :: ("!--LOCK-->".data ++ (o ++ (lockClose ++ ('\n' :: rest))))) = true :=
      List.isPrefixOf_iff_prefix.mpr (List.prefix_append _ _)
    rw [if_pos hpre]
    have hdrop11 : ('<' :: ("!--LOCK-->".data
          ++ (o ++ (lockClose ++ ('\n' :: rest))))).drop 11
        = o ++ (lockClose ++ ('\n' :: rest)) := by
      rw [← hform]
      exact List.drop_left' rfl
    have hdropAll : ('<' :: ("!--LOCK-->".data
          ++ (o ++ (lockClose ++ ('\n' :: rest))))).drop (11 + (o.length + 12))
        = '\n' :: rest := by
      rw [← List.drop_drop, hdrop11, ← List.drop_drop,
        List.drop_left' (rfl : o.length = o.length)]
      exact List.drop_left' rfl
    have hmatch : (match findLockClose (('<' :: ("!--LOCK-->".data
            ++ (o ++ (lockClose ++ ('\n' :: rest))))).drop 11) with
        | some g => g ++ lockSubF f' (('<' :: ("!--LOCK-->".data
            ++ (o ++ (lockClose ++ ('\n' :: rest))))).drop (11 + (g.length + 12)))
        | none => '<' :: lockSubF f' ("!--LOCK-->".data
            ++ (o ++ (lockClose ++ ('\n' :: rest)))))
        = o ++ lockSubF f' ('\n' :: rest) := by
      rw [hdrop11, findLockClose_wrapper o hocc ('\n' :: rest)]
      show o ++ lockSubF f' (('<' :: ("!--LOCK-->".data
          ++ (o ++ (lockClose ++ ('\n' :: rest))))).drop (11 + (o.length + 12)))
        = o ++ lockSubF f' ('\n' :: rest)
      rw [hdropAll]
    rw [hmatch]
    have hfre : rest.length + 1 ≤ f' := by omega
    cases f' with
    | zero => omega
    | succ f'' =>
      have hop : lockOpen.isPrefixOf ('\n' :: rest) = false := by
        show (('<' :: "!--LOCK-->".data).isPrefixOf ('\n' :: rest)) = false
        simp [List.isPrefixOf]
      have key2 : lockSubF (f'' + 1) ('\n' :: rest)
          = if lockOpen.isPrefixOf ('\n' :: rest) then
              match findLockClose (('\n' :: rest).drop 11) with
              | some g => g ++ lockSubF f'' (('\n' :: rest).drop (11 + (g.length + 12)))
              | none => '\n' :: lockSubF f'' rest
            else '\n' :: lockSubF f'' rest := rfl
      rw [key2, if_neg (by simp [hop])]
      rw [lockSubF_congr f'' (f'' + 1 + 1) rest (by omega) (by omega)]
      simp


theorem splitKeepEol_pairwise_ne :
    ∀ (l acc : List Char),
      (splitEolAux acc l).Pairwise (fun a b => b ≠ [] → a.getLast? = some '\n') := by
  intro l
  induction l with
  | nil =>
    intro acc
    unfold splitEolAux
    split
    · simp
    · refine List.Pairwise.cons ?_ (by simp)
      intro b hb
      simp only [List.mem_singleton] at hb
      subst hb
      intro hr
      exact absurd rfl hr
  | cons c cs ih =>
    intro acc
    unfold splitEolAux
    split
    · refine List.Pairwise.cons ?_ (ih [])
      intro b hb hr
      simp
    · exact ih (c :: acc)

theorem zeroHint_ne_nil {l : List Char} (h : zeroHint l = true) : l ≠ [] := by
  intro he
  subst he
  exact absurd h (by decide)

theorem rstripNl_decomp (l : List Char) :
    ∃ s, l = rstripNl l ++ s ∧ AllWs s := by
  refine ⟨(l.reverse.takeWhile (· = '\n')).reverse, ?_, ?_⟩
  · unfold rstripNl
    rw [← List.reverse_append, List.takeWhile_append_dropWhile, List.reverse_reverse]
  · intro c hc
    rw [List.mem_reverse] at hc
    have := List.mem_takeWhile_imp hc
    simp only [decide_eq_true_eq] at this
    subst this
    decide

theorem zeroKey_append_allWs {ws : List Char} (hws : AllWs ws) (x : List Char) :
    zeroKey (x ++ ws) = zeroKey x := by
  unfold zeroKey zeroHint dedupKey
  rw [findLenTag_append_allWs hws, subLenTags_append_allWs hws, pyStrip_append_allWs hws]

theorem zeroKey_normLine (l : List Char) : zeroKey (normLine l) = zeroKey l := by
  unfold normLine
  by_cases hz : zeroHint l
  · rw [if_pos hz]
    obtain ⟨s, hd, hws⟩ := rstripNl_decomp l
    have hnl : AllWs ['\n'] := by
      intro c hc
      simp only [List.mem_singleton] at hc
      subst hc
      decide
    have h1 : zeroKey (rstripNl l ++ ['\n']) = zeroKey (rstripNl l) :=
      zeroKey_append_allWs hnl _
    have h2 : zeroKey l = zeroKey (rstripNl l) := by
      conv_lhs => rw [hd]
      exact zeroKey_append_allWs hws _
    rw [h1, h2]
  · rw [if_neg hz]

theorem set_append_length (A : List (List Char)) (x y : List Char) (ls : List (List Char)) :
    (A ++ x :: ls).set A.length y = A ++ y :: ls := by
  induction A with
  | nil => rfl
  | cons a A' ih => simp [List.set, ih]

theorem foldl_set_wrap :
    ∀ (lines A : List (List Char)),
      ((((A ++ lines).enumFrom 0).drop A.length |>.filter (fun p => zeroHint p.2)).map
          (fun p => (p.1, rstripNl p.2))).foldl
          (fun ls p => ls.set p.1 (wrapLock p.2)) (A ++ lines)
        = A ++ lines.map wrapIfZero := by
  intro lines
  -- restated with enumFrom A.length directly
  suffices h : ∀ (lines A : List (List Char)),
      (((lines.enumFrom A.length).filter (fun p => zeroHint p.2)).map
          (fun p => (p.1, rstripNl p.2))).foldl
          (fun ls p => ls.set p.1 (wrapLock p.2)) (A ++ lines)
        = A ++ lines.map wrapIfZero by
    intro A
    have hdrop : ((A ++ lines).enumFrom 0).drop A.length = lines.enumFrom A.length := by
      rw [List.enumFrom_append, List.drop_left' (by simp)]
      simp
    rw [hdrop]
    exact h lines A
  intro lines
  induction lines with
  | nil => intro A; simp
  | cons x ls ih =>
    intro A
    rw [List.enumFrom_cons]
    by_cases hz : zeroHint x
    · rw [List.filter_cons_of_pos (by simpa using hz), List.map_cons, List.foldl_cons]
      have hset : (A ++ x :: ls).set A.length (wrapLock (rstripNl x))
          = (A ++ [wrapLock (rstripNl x)]) ++ ls := by
        rw [set_append_length]
        simp
      rw [hset]
      have hlen : A.length + 1 = (A ++ [wrapLock (rstripNl x)]).length := by simp
      rw [hlen, ih (A ++ [wrapLock (rstripNl x)])]
      have hw : wrapIfZero x = wrapLock (rstripNl x) := by
        unfold wrapIfZero
        rw [if_pos hz]
      simp [hw]
    · rw [List.filter_cons_of_neg (by simpa using hz)]
      have hA : A ++ x :: ls = (A ++ [x]) ++ ls := by simp
      rw [hA]
      have hlen : A.length + 1 = (A ++ [x]).length := by simp
      rw [hlen, ih (A ++ [x])]
      have hw : wrapIfZero x = x := by
        unfold wrapIfZero
        rw [if_neg hz]
      simp [hw]

theorem lock_zero_map (md : List Char) :
    (lock_zero_len_lines md).1 = ((splitKeepEol md).map wrapIfZero).flatten := by
  unfold lock_zero_len_lines find_zero_len_lines
  have h := foldl_set_wrap (splitKeepEol md) []
  simp only [List.nil_append, List.length_nil, List.drop_zero] at h
  show (((((splitKeepEol md).enum).filter (fun p => zeroHint p.2)).map
      (fun p => (p.1, rstripNl p.2))).foldl
      (fun ls p => ls.set p.1 (wrapLock p.2)) (splitKeepEol md)).flatten = _
  rw [show (splitKeepEol md).enum = (splitKeepEol md).enumFrom 0 from rfl]
  rw [h]

theorem lockSubF_lines :
    ∀ (ls : List (List Char)) (f : Nat),
      (∀ l ∈ ls, occursIn lockOpen l = false ∧ occursIn lockClose l = false) →
      ls.Pairwise (fun a b => b ≠ [] → a.getLast? = some '\n') →
      ((ls.map wrapIfZero).flatten).length ≤ f →
      lockSubF f (ls.map wrapIfZero).flatten = (ls.map normLine).flatten := by
  intro ls
  induction ls with
  | nil =>
    intro f h hp hf
    cases f <;> rfl
  | cons l ls' ih =>
    intro f h hp hf
    rw [List.map_cons, List.flatten_cons, List.map_cons, List.flatten_cons]
    rw [List.map_cons, List.flatten_cons, List.length_append] at hf
    have hops := (h l (by simp)).1
    have hcls := (h l (by simp)).2
    have htail : ∀ x ∈ ls', occursIn lockOpen x = false ∧ occursIn lockClose x = false :=
      fun x hx => h x (List.mem_cons_of_mem _ hx)
    have hptail := (List.pairwise_cons.mp hp).2
    by_cases hz : zeroHint l
    · have hwz : wrapIfZero l = wrapLock (rstripNl l) := by
        unfold wrapIfZero; rw [if_pos hz]
      have hnz : normLine l = rstripNl l ++ ['\n'] := by
        unfold normLine; rw [if_pos hz]
      rw [hwz, hnz]
      obtain ⟨suf, hdec, hsuf⟩ := rstripNl_decomp l
      have hcls' : occursIn lockClose (rstripNl l) = false := by
        rw [hdec] at hcls
        exact (occursIn_false_of_append hcls).1
      rw [hwz] at hf
      rw [lockSubF_wrap f (rstripNl l) _ hcls' (by
        rw [List.length_append]; omega)]
      rw [ih f htail hptail (by omega)]
    · have hwz : wrapIfZero l = l := by unfold wrapIfZero; rw [if_neg hz]
      have hnz : normLine l = l := by unfold normLine; rw [if_neg hz]
      rw [hwz, hnz]
      rw [hwz] at hf
      by_cases hend : l.getLast? = some '\n'
      · rw [lockSubF_append_line l f _ hend hops (by omega)]
        rw [ih f htail hptail (by omega)]
      · have hall : ∀ b ∈ ls', b = [] := by
          intro b hb
          by_contra hbne
          exact hend ((List.pairwise_cons.mp hp).1 b hb hbne)
        have hwnil : wrapIfZero ([] : List Char) = [] := by decide
        have hnnil : normLine ([] : List Char) = [] := by decide
        have hflat1 : (ls'.map wrapIfZero).flatten = [] := by
          rw [List.flatten_eq_nil_iff]
          intro x hx
          rw [List.mem_map] at hx
          obtain ⟨b, hb, rfl⟩ := hx
          rw [hall b hb, hwnil]
        have hflat2 : (ls'.map normLine).flatten = [] := by
          rw [List.flatten_eq_nil_iff]
          intro x hx
          rw [List.mem_map] at hx
          obtain ⟨b, hb, rfl⟩ := hx
          rw [hall b hb, hnnil]
        rw [hflat1, hflat2, List.append_nil]
        exact lockSubF_id_noopen hops f


theorem dropWhile_eq_self_of_not {p : Char → Bool} :
    ∀ {l : List Char}, (∀ c ∈ l, p c = false) → l.dropWhile p = l := by
  intro l h
  cases l with
  | nil => rfl
  | cons c cs =>
    rw [List.dropWhile_cons, h c (List.mem_cons_self c cs)]
    simp

theorem rstripNl_no_nl {l : List Char} (h : '\n' ∉ l) : rstripNl l = l := by
  unfold rstripNl
  rw [dropWhile_eq_self_of_not, List.reverse_reverse]
  intro c hc
  simp only [decide_eq_false_iff_not]
  intro he
  exact h (he ▸ List.mem_reverse.mp hc)

theorem rstripNl_nlLine {b : List Char} (hb : '\n' ∉ b) :
    rstripNl (b ++ ['\n']) = b := by
  unfold rstripNl
  rw [List.reverse_append]
  simp only [List.reverse_cons, List.reverse_nil, List.nil_append, List.singleton_append]
  rw [List.dropWhile_cons, if_pos (by decide), dropWhile_eq_self_of_not, List.reverse_reverse]
  intro c hc
  simp only [decide_eq_false_iff_not]
  intro he
  exact hb (he ▸ List.mem_reverse.mp hc)

theorem pyRstrip_rstripNl (l : List Char) : pyRstrip (rstripNl l) = pyRstrip l := by
  obtain ⟨s, hd, hws⟩ := rstripNl_decomp l
  conv_rhs => rw [hd]
  rw [pyRstrip_append_allWs hws]

theorem dedupKey_rstripNl (l : List Char) : dedupKey (rstripNl l) = dedupKey l := by
  obtain ⟨s, hd, hws⟩ := rstripNl_decomp l
  conv_rhs => rw [hd]
  unfold dedupKey
  rw [subLenTags_append_allWs hws, pyStrip_append_allWs hws]

theorem pyRstrip_normLine (l : List Char) : pyRstrip (normLine l) = pyRstrip l := by
  unfold normLine
  by_cases hz : zeroHint l
  · rw [if_pos hz]
    have hnl : AllWs ['\n'] := by
      intro c hc
      simp only [List.mem_singleton] at hc
      subst hc
      decide
    rw [pyRstrip_append_allWs hnl, pyRstrip_rstripNl]
  · rw [if_neg hz]

theorem normLine_nlLine {b : List Char} (hb : '\n' ∉ b) :
    normLine (b ++ ['\n']) = b ++ ['\n'] := by
  unfold normLine
  by_cases hz : zeroHint (b ++ ['\n'])
  · rw [if_pos hz, rstripNl_nlLine hb]
  · rw [if_neg hz]

theorem normLine_properLine {l : List Char} (h : ProperLine l) :
    ProperLine (normLine l) := by
  obtain ⟨b, hb, hcase⟩ := h
  rcases hcase with hl | hl
  · unfold normLine
    by_cases hz : zeroHint l
    · rw [if_pos hz, hl, rstripNl_no_nl hb]
      exact ⟨b, hb, Or.inr rfl⟩
    · rw [if_neg hz]
      exact ⟨b, hb, Or.inl hl⟩
  · rw [hl, normLine_nlLine hb]
    exact ⟨b, hb, Or.inr rfl⟩

theorem splitEolAux_struct :
    ∀ (md acc : List Char), '\n' ∉ acc →
      ∃ A : List (List Char),
        (∀ a ∈ A, ∃ b, '\n' ∉ b ∧ a = b ++ ['\n']) ∧
        (splitEolAux acc md = A ++ [[]] ∨
          ∃ t, '\n' ∉ t ∧ t ≠ [] ∧ splitEolAux acc md = A ++ [t, []]) := by
  intro md
  induction md with
  | nil =>
    intro acc hacc
    by_cases ha : acc = []
    · subst ha
      exact ⟨[], by simp, Or.inl rfl⟩
    · refine ⟨[], by simp, Or.inr ⟨acc.reverse, ?_, ?_, ?_⟩⟩
      · intro h
        exact hacc (List.mem_reverse.mp h)
      · simpa using ha
      · show splitEolAux acc [] = [] ++ [acc.reverse, []]
        unfold splitEolAux
        rw [if_neg ha]
        rfl
  | cons c cs ih =>
    intro acc hacc
    by_cases hc : c = '\n'
    · subst hc
      obtain ⟨A, hA, hcase⟩ := ih [] (by simp)
      refine ⟨(acc.reverse ++ ['\n']) :: A, ?_, ?_⟩
      · intro a ha
        rcases List.mem_cons.mp ha with h | h
        · exact ⟨acc.reverse, fun hm => hacc (List.mem_reverse.mp hm), h⟩
        · exact hA a h
      · have heq : splitEolAux acc ('\n' :: cs)
            = (acc.reverse ++ ['\n']) :: splitEolAux [] cs := by
          rw [show splitEolAux acc ('\n' :: cs)
              = if '\n' = '\n' then (acc.reverse ++ ['\n']) :: splitEolAux [] cs
                else splitEolAux ('\n' :: acc) cs from rfl]
          rw [if_pos rfl]
        rcases hcase with h | ⟨t, h1, h2, h3⟩
        · left
          rw [heq, h]
          rfl
        · right
          refine ⟨t, h1, h2, ?_⟩
          rw [heq, h3]
          rfl
    · have heq : splitEolAux acc (c :: cs) = splitEolAux (c :: acc) cs := by
        rw [show splitEolAux acc (c :: cs)
            = if c = '\n' then (acc.reverse ++ ['\n']) :: splitEolAux [] cs
              else splitEolAux (c :: acc) cs from rfl]
        rw [if_neg hc]
      have hacc' : '\n' ∉ c :: acc := by
        intro h
        rcases List.mem_cons.mp h with h | h
        · exact hc h.symm
        · exact hacc h
      obtain ⟨A, hA, hcase⟩ := ih (c :: acc) hacc'
      refine ⟨A, hA, ?_⟩
      rw [heq]
      exact hcase

theorem splitKeepEol_struct (md : List Char) :
    ∃ A : List (List Char),
      (∀ a ∈ A, ∃ b, '\n' ∉ b ∧ a = b ++ ['\n']) ∧
      (splitKeepEol md = A ++ [[]] ∨
        ∃ t, '\n' ∉ t ∧ t ≠ [] ∧ splitKeepEol md = A ++ [t, []]) :=
  splitEolAux_struct md [] (by simp)

theorem splitKeepEol_flatten_nl :
    ∀ (init : List (List Char)),
      (∀ l ∈ init, ∃ body, '\n' ∉ body ∧ l = body ++ ['\n']) →
      splitKeepEol init.flatten = init ++ [[]] := by
  intro init
  induction init with
  | nil => intro h; rfl
  | cons l init' ih =>
    intro h
    obtain ⟨b, hb, hl⟩ := h l (by simp)
    rw [List.flatten_cons, hl, splitKeepEol_cons_line hb]
    rw [ih (fun x hx => h x (List.mem_cons_of_mem _ hx))]
    rfl

theorem splitKeepEol_map_normLine (md : List Char) :
    splitKeepEol (((splitKeepEol md).map normLine).flatten)
      = (splitKeepEol md).map normLine := by
  obtain ⟨A, hA, hcase⟩ := splitKeepEol_struct md
  have hmapA : A.map normLine = A := by
    have h : ∀ a ∈ A, normLine a = id a := by
      intro a ha
      obtain ⟨b, hb, rfl⟩ := hA a ha
      exact normLine_nlLine hb
    rw [List.map_congr_left h, List.map_id]
  rcases hcase with h | ⟨t, ht, htne, h⟩
  · rw [h, List.map_append, hmapA]
    rw [show List.map normLine [([] : List Char)] = [[]] from rfl]
    have hfl : (A ++ [([] : List Char)]).flatten = A.flatten := by
      rw [List.flatten_append]
      simp
    rw [hfl, splitKeepEol_flatten_nl A hA]
  · rw [h, List.map_append, hmapA]
    have hmt : List.map normLine [t, []] = [normLine t, []] := by
      rw [List.map_cons, List.map_cons, List.map_nil]
      rw [show normLine ([] : List Char) = [] from rfl]
    rw [hmt]
    by_cases hz : zeroHint t
    · have hnt : normLine t = t ++ ['\n'] := by
        unfold normLine
        rw [if_pos hz, rstripNl_no_nl ht]
      rw [hnt]
      have hfl : (A ++ [t ++ ['\n'], []]).flatten = (A ++ [t ++ ['\n']]).flatten := by
        rw [List.flatten_append, List.flatten_append]
        simp
      rw [hfl, splitKeepEol_flatten_nl (A ++ [t ++ ['\n']]) ?_]
      · rw [List.append_assoc]
        rfl
      · intro a ha
        rcases List.mem_append.mp ha with h' | h'
        · exact hA a h'
        · simp only [List.mem_singleton] at h'
          exact ⟨t, ht, h'⟩
    · have hnt : normLine t = t := by
        unfold normLine
        rw [if_neg hz]
      rw [hnt]
      have hfl : (A ++ [t, []]).flatten = A.flatten ++ t := by
        rw [List.flatten_append]
        simp
      rw [hfl, splitKeepEol_flatten_blocks A hA ht htne]

theorem occursIn_flatten_false {pat : List Char} :
    ∀ {ls : List (List Char)}, occursIn pat ls.flatten = false →
      ∀ l ∈ ls, occursIn pat l = false := by
  intro ls
  induction ls with
  | nil =>
    intro h l hl
    cases hl
  | cons x xs ih =>
    intro h l hl
    rw [List.flatten_cons] at h
    obtain ⟨h1, h2⟩ := occursIn_false_of_append h
    rcases List.mem_cons.mp hl with rfl | hl'
    · exact h1
    · exact ih h2 l hl'

theorem dedup_keeps_first {ls : List (List Char)} {i : Nat} {x : List Char}
    (hx : ls[i]? = some x) (hzx : zeroHint x = true)
    (hbef : ∀ j (y : List Char), j < i → ls[j]? = some y → zeroKey y ≠ zeroKey x) :
    x ∈ dedupLines ls := by
  have hkx : zeroKey x = some (dedupKey x) := by
    unfold zeroKey
    rw [if_pos hzx]
  obtain ⟨hi, hix⟩ := List.getElem?_eq_some_iff.mp hx
  have hdec : ls = ls.take i ++ x :: ls.drop (i + 1) := by
    conv_lhs => rw [← List.take_append_drop i ls]
    rw [List.drop_eq_getElem_cons hi, hix]
  have hfilter := dedupGo_filter (dedupKey x) ls []
  rw [if_neg (List.not_mem_nil (dedupKey x))] at hfilter
  have htake : (ls.take i).filter (fun ln => zeroKey ln == some (dedupKey x)) = [] := by
    rw [List.filter_eq_nil_iff]
    intro y hy
    obtain ⟨j, hj⟩ := List.mem_iff_getElem?.mp hy
    rw [List.getElem?_take] at hj
    by_cases hji : j < i
    · rw [if_pos hji] at hj
      have := hbef j y hji hj
      rw [hkx] at this
      simp only [beq_iff_eq]
      exact this
    · rw [if_neg hji] at hj
      exact absurd hj (by simp)
  have hfx : (ls.filter (fun ln => zeroKey ln == some (dedupKey x))).take 1 = [x] := by
    conv_lhs => rw [hdec]
    rw [List.filter_append, htake, List.nil_append, List.filter_cons]
    rw [if_pos (by rw [hkx]; exact beq_self_eq_true _)]
    rfl
  have hmem : x ∈ (dedupLines ls).filter (fun ln => zeroKey ln == some (dedupKey x)) := by
    show x ∈ (dedupGo [] ls).filter (fun ln => zeroKey ln == some (dedupKey x))
    rw [hfilter, hfx]
    exact List.mem_singleton.mpr rfl
  exact List.mem_of_mem_filter hmem


theorem zeroHint_normLine (l : List Char) : zeroHint (normLine l) = zeroHint l := by
  unfold normLine
  by_cases hz : zeroHint l
  · rw [if_pos hz]
    have hnl : AllWs ['\n'] := by
      intro c hc
      simp only [List.mem_singleton] at hc
      subst hc
      decide
    obtain ⟨s, hd, hws⟩ := rstripNl_decomp l
    have hfl : findLenTag (rstripNl l) = findLenTag l := by
      conv_rhs => rw [hd]
      rw [findLenTag_append_allWs hws]
    unfold zeroHint
    rw [findLenTag_append_allWs hnl, hfl]
  · rw [if_neg hz]

theorem normLine_chain (md : List Char) :
    ((splitKeepEol md).map normLine).Pairwise
      (fun a b => pyRstrip b ≠ [] → a.getLast? = some '\n') := by
  rw [List.pairwise_map]
  refine (splitKeepEol_pairwise_ne md []).imp ?_
  intro a b hab hpy
  have hbne : b ≠ [] := by
    intro h0
    subst h0
    exact hpy (by decide)
  have hlast : a.getLast? = some '\n' := hab hbne
  by_cases hz : zeroHint a
  · have hna : normLine a = rstripNl a ++ ['\n'] := by
      unfold normLine
      rw [if_pos hz]
    rw [hna, List.getLast?_concat]
  · have hna : normLine a = a := by
      unfold normLine
      rw [if_neg hz]
    rw [hna]
    exact hlast

/-- C2.  The literal claim fails: two locked lines that differ only in
surrounding whitespace share a dedup key, so the later one is removed by
`_unlock_and_dedup` and its bytes never reappear in the output. -/
theorem c2_counterexample :
    (1, (" a <!--len:0-->".data))
        ∈ (lock_zero_len_lines ("a <!--len:0-->\n a <!--len:0-->".data)).2 ∧
    occursIn (" a <!--len:0-->".data)
        (unlock_and_dedup
          (lock_zero_len_lines ("a <!--len:0-->\n a <!--len:0-->".data)).1
          (lock_zero_len_lines ("a <!--len:0-->\n a <!--len:0-->".data)).2
          false) = false := by
  constructor
  · decide
  · decide

/-- C2: lock round-trip for zero-length-hint lines.  For a document free
of the sentinel markers, every locked line whose dedup key is not shared
with an earlier zero-length-hint line reappears in the output of
`_unlock_and_dedup(locked, zero, strip_len_tag=False)` as a full line,
identical up to trailing whitespace. -/
theorem c2_locked_lines_preserved (md : List Char)
    (hopen : occursIn lockOpen md = false)
    (hclose : occursIn lockClose md = false)
    (p : Nat × List Char)
    (hp : p ∈ (lock_zero_len_lines md).2)
    (hfirst : ∀ q ∈ (lock_zero_len_lines md).2, q.1 < p.1 → dedupKey q.2 ≠ dedupKey p.2) :
    ∃ y ∈ splitKeepEol (unlock_and_dedup (lock_zero_len_lines md).1
        (lock_zero_len_lines md).2 false), pyRstrip y = pyRstrip p.2 := by
  have hp2 : p ∈ find_zero_len_lines md := hp
  unfold find_zero_len_lines at hp2
  rw [List.mem_map] at hp2
  obtain ⟨q, hqf, hpq⟩ := hp2
  rw [List.mem_filter] at hqf
  obtain ⟨i, x⟩ := q
  have hzx : zeroHint x = true := hqf.2
  have hgx : (splitKeepEol md)[i]? = some x := List.mk_mem_enum_iff_getElem?.mp hqf.1
  have hlines : ∀ l ∈ splitKeepEol md,
      occursIn lockOpen l = false ∧ occursIn lockClose l = false := by
    intro l hl
    constructor
    · exact occursIn_flatten_false (by rw [flatten_splitKeepEol]; exact hopen) l hl
    · exact occursIn_flatten_false (by rw [flatten_splitKeepEol]; exact hclose) l hl
  have hunlock : lockSub (((splitKeepEol md).map wrapIfZero).flatten)
      = ((splitKeepEol md).map normLine).flatten := by
    unfold lockSub
    exact lockSubF_lines (splitKeepEol md) _ hlines (splitKeepEol_pairwise_ne md [])
      (le_refl _)
  have hout : unlock_and_dedup (lock_zero_len_lines md).1 (lock_zero_len_lines md).2 false
      = pyRstrip (dedupLines ((splitKeepEol md).map normLine)).flatten := by
    show pyRstrip (List.flatten (stripLenStep false (dedupLines (splitKeepEol
        (lockSub (lock_zero_len_lines md).1))))) = _
    rw [lock_zero_map md, hunlock, splitKeepEol_map_normLine]
    rw [show ∀ x : List (List Char), stripLenStep false x = x from fun x => rfl]
  have hbefore : ∀ j (y : List Char), j < i → (splitKeepEol md)[j]? = some y →
      zeroKey y ≠ zeroKey x := by
    intro j y hj hy hk
    have hzy : zeroHint y = true := by
      by_contra hny
      unfold zeroKey at hk
      rw [if_neg hny, if_pos hzx] at hk
      exact Option.noConfusion hk
    have hdk : dedupKey y = dedupKey x := by
      unfold zeroKey at hk
      rw [if_pos hzy, if_pos hzx] at hk
      exact Option.some.inj hk
    have hmem : (j, rstripNl y) ∈ (lock_zero_len_lines md).2 := by
      show (j, rstripNl y) ∈ find_zero_len_lines md
      unfold find_zero_len_lines
      rw [List.mem_map]
      exact ⟨(j, y), List.mem_filter.mpr ⟨List.mk_mem_enum_iff_getElem?.mpr hy, hzy⟩, rfl⟩
    have hne := hfirst (j, rstripNl y) hmem (by rw [← hpq]; exact hj)
    apply hne
    show dedupKey (rstripNl y) = dedupKey p.2
    rw [dedupKey_rstripNl, hdk, ← hpq]
    exact (dedupKey_rstripNl x).symm
  have hgx' : ((splitKeepEol md).map normLine)[i]? = some (normLine x) := by
    rw [List.getElem?_map, hgx]
    rfl
  have hbefore' : ∀ j (y : List Char), j < i →
      ((splitKeepEol md).map normLine)[j]? = some y →
      zeroKey y ≠ zeroKey (normLine x) := by
    intro j y hj hy
    rw [List.getElem?_map] at hy
    cases hgy : (splitKeepEol md)[j]? with
    | none =>
      rw [hgy] at hy
      exact absurd hy (by simp)
    | some z =>
      rw [hgy] at hy
      have hyz : y = normLine z := (Option.some.inj hy).symm
      rw [hyz, zeroKey_normLine, zeroKey_normLine]
      exact hbefore j z hj hgy
  have hzn : zeroHint (normLine x) = true := by
    rw [zeroHint_normLine]
    exact hzx
  have hmemD : normLine x ∈ dedupLines ((splitKeepEol md).map normLine) :=
    dedup_keeps_first hgx' hzn hbefore'
  have hproper : ∀ l ∈ dedupLines ((splitKeepEol md).map normLine), ProperLine l := by
    intro l hl
    have hl' : l ∈ (splitKeepEol md).map normLine :=
      (dedupGo_sublist ((splitKeepEol md).map normLine) []).subset hl
    rw [List.mem_map] at hl'
    obtain ⟨a, ha, rfl⟩ := hl'
    exact normLine_properLine (splitKeepEol_properLine md [] (by simp) a ha)
  have hchain : (dedupLines ((splitKeepEol md).map normLine)).Pairwise
      (fun a b => pyRstrip b ≠ [] → a.getLast? = some '\n') :=
    List.Pairwise.sublist (dedupGo_sublist ((splitKeepEol md).map normLine) [])
      (normLine_chain md)
  have hsplit : splitKeepEol (pyRstrip (dedupLines ((splitKeepEol md).map normLine)).flatten)
      = canonLines (dedupLines ((splitKeepEol md).map normLine)) :=
    splitKeepEol_pyRstrip_flatten _ hproper hchain
  have hne : pyRstrip (normLine x) ≠ [] := by
    rw [pyRstrip_normLine]
    intro h0
    have hz0 : zeroHint x = false := by
      rw [← zeroHint_pyRstrip, h0]
      decide
    rw [hz0] at hzx
    exact Bool.noConfusion hzx
  obtain ⟨y, hy, hyr⟩ := canonLines_mem hmemD hne
  refine ⟨y, ?_, ?_⟩
  · rw [hout, hsplit]
    exact hy
  · rw [hyr, pyRstrip_normLine, ← hpq]
    exact (pyRstrip_rstripNl x).symm

/-- Witness for C2 at a one-line document. -/
theorem c2_witness :
    occursIn lockOpen ("t <!--len:0-->".data) = false ∧
    occursIn lockClose ("t <!--len:0-->".data) = false ∧
    (0, ("t <!--len:0-->".data)) ∈ (lock_zero_len_lines ("t <!--len:0-->".data)).2 ∧
    (∀ q ∈ (lock_zero_len_lines ("t <!--len:0-->".data)).2,
      q.1 < (0, ("t <!--len:0-->".data)).1 →
        dedupKey q.2 ≠ dedupKey (0, ("t <!--len:0-->".data)).2) ∧
    ∃ y ∈ splitKeepEol (unlock_and_dedup
        (lock_zero_len_lines ("t <!--len:0-->".data)).1
        (lock_zero_len_lines ("t <!--len:0-->".data)).2 false),
      pyRstrip y = pyRstrip (0, ("t <!--len:0-->".data)).2 :=
  ⟨by decide, by decide, by decide, by decide,
    c2_locked_lines_preserved ("t <!--len:0-->".data) (by decide) (by decide)
      (0, ("t <!--len:0-->".data)) (by decide) (by decide)⟩


theorem renderItemsF_map :
    ∀ (f : Nat) (items : List (List Char × Nat × List Char)), items.length ≤ f →
      renderItemsF f items = items.map (fun it =>
        (if it.2.1 ≤ SHORT_LIMIT then ("### ".data) else ('-' :: ' ' :: []))
          ++ segOf it.1 it.2.1 it.2.2) := by
  intro f
  induction f with
  | zero =>
    intro items h
    have : items = [] := List.eq_nil_of_length_eq_zero (Nat.le_zero.mp h)
    subst this
    rfl
  | succ f ih =>
    intro items h
    cases items with
    | nil => rfl
    | cons it rest =>
      rw [List.length_cons] at h
      rw [show renderItemsF (f + 1) (it :: rest)
          = if it.2.1 ≤ SHORT_LIMIT then
              ((it :: rest.takeWhile (fun j => j.2.1 ≤ SHORT_LIMIT)).map
                  (fun j => ("### ".data) ++ segOf j.1 j.2.1 j.2.2))
                ++ renderItemsF f (rest.dropWhile (fun j => j.2.1 ≤ SHORT_LIMIT))
            else (('-' :: ' ' :: []) ++ segOf it.1 it.2.1 it.2.2) :: renderItemsF f rest
          from rfl]
      by_cases hs : it.2.1 ≤ SHORT_LIMIT
      · rw [if_pos hs]
        have hd : renderItemsF f (rest.dropWhile (fun j => j.2.1 ≤ SHORT_LIMIT))
            = (rest.dropWhile (fun j => j.2.1 ≤ SHORT_LIMIT)).map (fun it =>
                (if it.2.1 ≤ SHORT_LIMIT then ("### ".data) else ('-' :: ' ' :: []))
                  ++ segOf it.1 it.2.1 it.2.2) :=
          ih _ (le_trans (List.dropWhile_sublist _).length_le (by omega))
        rw [hd]
        have hmap : (it :: rest.takeWhile (fun j => j.2.1 ≤ SHORT_LIMIT)).map
              (fun j => ("### ".data) ++ segOf j.1 j.2.1 j.2.2)
            = (it :: rest.takeWhile (fun j => j.2.1 ≤ SHORT_LIMIT)).map (fun it =>
                (if it.2.1 ≤ SHORT_LIMIT then ("### ".data) else ('-' :: ' ' :: []))
                  ++ segOf it.1 it.2.1 it.2.2) := by
          apply List.map_congr_left
          intro j hj
          have hjs : j.2.1 ≤ SHORT_LIMIT := by
            rcases List.mem_cons.mp hj with rfl | hj'
            · exact hs
            · have := List.mem_takeWhile_imp hj'
              simpa using this
          rw [if_pos hjs]
        rw [hmap, ← List.map_append, List.cons_append, List.takeWhile_append_dropWhile]
      · rw [if_neg hs, ih rest (by omega), List.map_cons]
        rw [if_neg hs]

/-- C8: a shape's length in the item list is
`len(text.replace("\n","").strip())`, and the grouping loop renders every
item whose length is at most `SHORT_LIMIT = 10` (ties included) as a
`### ` line and every longer item as a `- ` bullet line, in order. -/
theorem c8_short_text_classification (s_idx : Nat) (shapes : List PShape) :
    (∀ p ∈ slideItems s_idx shapes, ∃ q ∈ shapes.enum,
        q.2.has_text = true ∧ p.2.1 = shapeLen q.2.text) ∧
    renderItems (slideItems s_idx shapes)
      = (slideItems s_idx shapes).map (fun it =>
          (if it.2.1 ≤ SHORT_LIMIT then ("### ".data) else ('-' :: ' ' :: []))
            ++ segOf it.1 it.2.1 it.2.2) := by
  constructor
  · intro p hp
    unfold slideItems at hp
    rw [List.mem_filterMap] at hp
    obtain ⟨q, hq, hfq⟩ := hp
    refine ⟨q, hq, ?_⟩
    by_cases ht : q.2.has_text
    · rw [if_pos ht] at hfq
      refine ⟨ht, ?_⟩
      rw [← Option.some.inj hfq]
    · rw [if_neg ht] at hfq
      exact Option.noConfusion hfq
  · exact renderItemsF_map (slideItems s_idx shapes).length _ (le_refl _)


theorem leadDash_cons_ne {c : Char} (h : ¬ c = '-') (x : List Char) :
    leadDash (c :: x) = 0 := by
  unfold leadDash
  rw [List.takeWhile_cons, if_neg (by simpa using h)]
  rfl

theorem leadDash_all_dash {a : List Char} (h : ∀ c ∈ a, c = '-') :
    leadDash a = a.length := by
  unfold leadDash
  rw [List.takeWhile_eq_self_iff.mpr (fun c hc => by simpa using h c hc)]

theorem leadDash_append (x y : List Char) :
    leadDash (x ++ y) = if leadDash x = x.length then x.length + leadDash y
      else leadDash x := by
  unfold leadDash
  rw [List.takeWhile_append]
  by_cases h : (x.takeWhile (fun c => decide (c = '-'))).length = x.length
  · rw [if_pos h, if_pos h, List.length_append]
  · rw [if_neg h, if_neg h]

theorem noTriple_suffix {a : List Char} (h : noTriple a = true) :
    ∀ i, leadDash (a.drop i) ≤ 2 := by
  induction a with
  | nil =>
    intro i
    rw [List.drop_nil]
    decide
  | cons c cs ih =>
    rw [show noTriple (c :: cs) = (decide (leadDash (c :: cs) ≤ 2) && noTriple cs)
      from rfl, Bool.and_eq_true] at h
    intro i
    cases i with
    | zero =>
      rw [List.drop_zero]
      exact of_decide_eq_true h.1
    | succ i =>
      rw [List.drop_succ_cons]
      exact ih h.2 i

theorem takeWhile_eq_of_length {p : Char → Bool} {l : List Char}
    (h : (l.takeWhile p).length = l.length) : l.takeWhile p = l :=
  (List.takeWhile_prefix p).eq_of_length h

theorem noTriple_append {a b : List Char}
    (ha : noTriple a = true) (hb : noTriple b = true)
    (hside : ∀ i, (∀ c ∈ a.drop i, c = '-') → (a.drop i).length + leadDash b ≤ 2) :
    noTriple (a ++ b) = true := by
  induction a with
  | nil => simpa using hb
  | cons c a' ih =>
    rw [show noTriple (c :: a') = (decide (leadDash (c :: a') ≤ 2) && noTriple a')
      from rfl, Bool.and_eq_true] at ha
    rw [List.cons_append, show noTriple (c :: (a' ++ b))
      = (decide (leadDash (c :: (a' ++ b)) ≤ 2) && noTriple (a' ++ b)) from rfl,
      Bool.and_eq_true]
    constructor
    · apply decide_eq_true
      rw [show c :: (a' ++ b) = (c :: a') ++ b from rfl, leadDash_append]
      by_cases hall : leadDash (c :: a') = (c :: a').length
      · rw [if_pos hall]
        have hAllD : ∀ x ∈ c :: a', x = '-' := by
          intro x hx
          have heq : (c :: a').takeWhile (fun d => decide (d = '-')) = c :: a' :=
            takeWhile_eq_of_length hall
          have := List.takeWhile_eq_self_iff.mp heq x hx
          simpa using this
        have := hside 0 (by simpa using hAllD)
        simpa using this
      · rw [if_neg hall]
        exact of_decide_eq_true ha.1
    · refine ih ha.2 ?_
      intro i h'
      have := hside (i + 1) (by rw [List.drop_succ_cons]; exact h')
      rw [List.drop_succ_cons] at this
      exact this

theorem noTriple_append_nl {a b : List Char}
    (ha : noTriple a = true) (hb : noTriple b = true) (hb0 : leadDash b = 0) :
    noTriple (a ++ b) = true := by
  apply noTriple_append ha hb
  intro i hall
  rw [hb0]
  have h1 : leadDash (a.drop i) = (a.drop i).length := leadDash_all_dash hall
  have h2 : leadDash (a.drop i) ≤ 2 := noTriple_suffix ha i
  omega

theorem getLast?_drop_eq {a : List Char} {c : Char} (hl : a.getLast? = some c) :
    ∀ i, a.drop i ≠ [] → (a.drop i).getLast? = some c := by
  intro i hne
  rw [← List.take_append_drop i a, List.getLast?_append] at hl
  cases hgd : (a.drop i).getLast? with
  | none => exact absurd (List.getLast?_eq_none_iff.mp hgd) hne
  | some d =>
    rw [hgd] at hl
    exact hl

theorem noTriple_append_lastNe {a b : List Char} {c : Char}
    (ha : noTriple a = true) (hb : noTriple b = true)
    (hl : a.getLast? = some c) (hc : ¬ c = '-') (hb2 : leadDash b ≤ 2) :
    noTriple (a ++ b) = true := by
  apply noTriple_append ha hb
  intro i hall
  by_cases hne : a.drop i = []
  · rw [hne]
    simpa using hb2
  · exfalso
    have hgl := getLast?_drop_eq hl i hne
    exact hc (hall c (List.mem_of_mem_getLast? hgl))

theorem noTriple_of_no_dash {l : List Char} (h : ∀ c ∈ l, ¬ c = '-') :
    noTriple l = true := by
  induction l with
  | nil => rfl
  | cons c cs ih =>
    rw [show noTriple (c :: cs) = (decide (leadDash (c :: cs) ≤ 2) && noTriple cs)
      from rfl, Bool.and_eq_true]
    refine ⟨decide_eq_true ?_, ih (fun x hx => h x (List.mem_cons_of_mem _ hx))⟩
    rw [leadDash_cons_ne (h c (List.mem_cons_self c cs)) cs]
    omega

theorem leadDash_no_dash {l : List Char} (h : ∀ c ∈ l, ¬ c = '-') :
    leadDash l = 0 := by
  cases l with
  | nil => rfl
  | cons c cs => exact leadDash_cons_ne (h c (List.mem_cons_self c cs)) cs

theorem hasDashSep_false {md : List Char} (h : noTriple md = true) :
    hasDashSep md = false := by
  induction md with
  | nil => rfl
  | cons c cs ih =>
    rw [show noTriple (c :: cs) = (decide (leadDash (c :: cs) ≤ 2) && noTriple cs)
      from rfl, Bool.and_eq_true] at h
    rw [show hasDashSep (c :: cs) = (dashSepAt (c :: cs) || hasDashSep cs) from rfl]
    rw [ih h.2, Bool.or_false]
    have hcore : ∀ {x : List Char}, leadDash x ≤ 2 → dashSepCore x = false := by
      intro x hx
      unfold dashSepCore
      rw [decide_eq_false (by omega)]
      rfl
    show dashSepAt (c :: cs) = false
    rw [show dashSepAt (c :: cs) = (if c = '\n' then dashSepCore cs || dashSepCore (c :: cs)
      else dashSepCore (c :: cs)) from rfl]
    by_cases hc : c = '\n'
    · rw [if_pos hc, hcore (by simpa using noTriple_suffix h.2 0),
        hcore (of_decide_eq_true h.1)]
      rfl
    · rw [if_neg hc, hcore (of_decide_eq_true h.1)]


theorem isDigit_ne {c : Char} (h : c.isDigit = true) :
    ¬ c = '-' ∧ ¬ c = '\n' ∧ ¬ c = '_' ∧ ¬ c = ' ' ∧ ¬ c = '#' ∧ isPySpace c = false := by
  refine ⟨?_, ?_, ?_, ?_, ?_, ?_⟩
  · intro he; rw [he] at h; exact absurd h (by decide)
  · intro he; rw [he] at h; exact absurd h (by decide)
  · intro he; rw [he] at h; exact absurd h (by decide)
  · intro he; rw [he] at h; exact absurd h (by decide)
  · intro he; rw [he] at h; exact absurd h (by decide)
  · by_cases hws : isPySpace c
    · rw [allWs_not_digit hws] at h
      exact absurd h (by decide)
    · simpa using hws

theorem toDecimal_getLast (n : Nat) :
    ∃ c, (toDecimal n).getLast? = some c ∧ c.isDigit = true := by
  cases h : (toDecimal n).getLast? with
  | none => exact absurd (List.getLast?_eq_none_iff.mp h) (toDecimal_ne_nil n)
  | some c => exact ⟨c, rfl, toDecimal_all_digits n c (List.mem_of_mem_getLast? h)⟩

theorem make_ph_name_chars (s i : Nat) :
    ∀ c ∈ make_ph_name s i, ¬ c = '-' ∧ ¬ c = '\n' := by
  intro c hc
  unfold make_ph_name at hc
  rcases List.mem_append.mp hc with h | h
  · rcases List.mem_append.mp h with h | h
    · rcases List.mem_append.mp h with h | h
      · rcases List.mem_append.mp h with h | h
        · exact (by decide : ∀ x ∈ ['{', '{', 'S'], ¬ x = '-' ∧ ¬ x = '\n') c h
        · obtain ⟨h1, h2, _⟩ := isDigit_ne (toDecimal_all_digits _ c h)
          exact ⟨h1, h2⟩
      · exact (by decide : ∀ x ∈ ['_', 'P'], ¬ x = '-' ∧ ¬ x = '\n') c h
    · obtain ⟨h1, h2, _⟩ := isDigit_ne (toDecimal_all_digits _ c h)
      exact ⟨h1, h2⟩
  · exact (by decide : ∀ x ∈ ['}', '}'], ¬ x = '-' ∧ ¬ x = '\n') c h

theorem tag_chars (a : PAlign) :
    ∀ c ∈ paragraph_align_tag a, ¬ c = '-' ∧ ¬ c = '\n' := by
  cases a
  · decide
  · decide
  · decide

theorem slideItems_shape (k : Nat) (shapes : List PShape) :
    ∀ it ∈ slideItems k shapes,
      (∃ j, it.1 = make_ph_name k j) ∧
      (it.2.2 = [] ∨ ∃ a, it.2.2 = paragraph_align_tag a) := by
  intro it hit
  unfold slideItems at hit
  rw [List.mem_filterMap] at hit
  obtain ⟨q, hq, hfq⟩ := hit
  by_cases ht : q.2.has_text
  · rw [if_pos ht] at hfq
    have := Option.some.inj hfq
    subst this
    refine ⟨⟨q.1, rfl⟩, ?_⟩
    cases q.2.align with
    | none => exact Or.inl rfl
    | some a => exact Or.inr ⟨a, rfl⟩
  · rw [if_neg ht] at hfq
    exact Option.noConfusion hfq

theorem itemStr_chars {ph tag : List Char} {k : Nat}
    (hph : ∃ j, ph = make_ph_name k j)
    (htag : tag = [] ∨ ∃ a, tag = paragraph_align_tag a) :
    ∀ c ∈ ph ++ (if tag = [] then [] else ' ' :: tag), ¬ c = '-' ∧ ¬ c = '\n' := by
  intro c hc
  rw [List.mem_append] at hc
  rcases hc with hc | hc
  · obtain ⟨j, rfl⟩ := hph
    exact make_ph_name_chars k j c hc
  · by_cases he : tag = []
    · rw [if_pos he] at hc
      exact absurd hc (by simp)
    · rw [if_neg he] at hc
      rcases List.mem_cons.mp hc with rfl | hc'
      · exact ⟨by decide, by decide⟩
      · rcases htag with rfl | ⟨a, rfl⟩
        · exact absurd rfl he
        · exact tag_chars a c hc'

theorem segOf_noTriple {ph tag : List Char} (ln : Nat)
    (hchars : ∀ c ∈ ph ++ (if tag = [] then [] else ' ' :: tag), ¬ c = '-' ∧ ¬ c = '\n')
    (hne : ph ≠ []) :
    noTriple (segOf ph ln tag) = true ∧ leadDash (segOf ph ln tag) = 0
      ∧ '\n' ∉ segOf ph ln tag := by
  obtain ⟨d, hd, hdd⟩ := toDecimal_getLast ln
  have hdig := toDecimal_all_digits ln
  have hA : noTriple (ph ++ (if tag = [] then [] else ' ' :: tag)) = true :=
    noTriple_of_no_dash (fun c hc => (hchars c hc).1)
  have h0A : leadDash (ph ++ (if tag = [] then [] else ' ' :: tag)) = 0 :=
    leadDash_no_dash (fun c hc => (hchars c hc).1)
  have hAne : (ph ++ (if tag = [] then [] else ' ' :: tag)).length ≠ 0 := by
    rw [List.length_append]
    intro hlen
    exact hne (List.eq_nil_of_length_eq_zero (by omega))
  have hF1 : noTriple ((ph ++ (if tag = [] then [] else ' ' :: tag))
      ++ (" <!--len:".data)) = true :=
    noTriple_append_nl hA (by decide) (by decide)
  have hF1lead : leadDash ((ph ++ (if tag = [] then [] else ' ' :: tag))
      ++ (" <!--len:".data)) = 0 := by
    rw [leadDash_append, h0A, if_neg (fun he => hAne he.symm)]
  have hF1ne : ((ph ++ (if tag = [] then [] else ' ' :: tag))
      ++ (" <!--len:".data)).length ≠ 0 := by
    rw [List.length_append]
    intro hlen
    exact hAne (by omega)
  have hF2 : noTriple (((ph ++ (if tag = [] then [] else ' ' :: tag))
      ++ (" <!--len:".data)) ++ toDecimal ln) = true :=
    noTriple_append_nl hF1
      (noTriple_of_no_dash (fun c hc => (isDigit_ne (hdig c hc)).1))
      (leadDash_no_dash (fun c hc => (isDigit_ne (hdig c hc)).1))
  have hF2lead : leadDash (((ph ++ (if tag = [] then [] else ' ' :: tag))
      ++ (" <!--len:".data)) ++ toDecimal ln) = 0 := by
    rw [leadDash_append, hF1lead, if_neg (fun he => hF1ne he.symm)]
  have hF2ne : (((ph ++ (if tag = [] then [] else ' ' :: tag))
      ++ (" <!--len:".data)) ++ toDecimal ln).length ≠ 0 := by
    rw [List.length_append]
    intro hlen
    exact hF1ne (by omega)
  have hF2last : (((ph ++ (if tag = [] then [] else ' ' :: tag))
      ++ (" <!--len:".data)) ++ toDecimal ln).getLast? = some d := by
    rw [List.getLast?_append, hd]
    rfl
  refine ⟨?_, ?_, ?_⟩
  · unfold segOf
    exact noTriple_append_lastNe hF2 (by decide) hF2last (isDigit_ne hdd).1 (by decide)
  · unfold segOf
    rw [leadDash_append, hF2lead, if_neg (fun he => hF2ne he.symm)]
  · unfold segOf
    intro hmem
    simp only [List.mem_append] at hmem
    rcases hmem with (((hm | hm) | hm) | hm) | hm
    · exact (hchars '\n' (List.mem_append_left _ hm)).2 rfl
    · exact (hchars '\n' (List.mem_append_right _ hm)).2 rfl
    · exact absurd hm (by decide)
    · exact (isDigit_ne (hdig '\n' hm)).2.1 rfl
    · exact absurd hm (by decide)

theorem renderItems_line_facts (k : Nat) (shapes : List PShape) :
    ∀ l ∈ renderItems (slideItems k shapes),
      noTriple l = true ∧ '\n' ∉ l ∧
      ((∃ z, l = '#' :: '#' :: '#' :: ' ' :: '{' :: z) ∨ (∃ z, l = '-' :: z)) := by
  intro l hl
  rw [show renderItems (slideItems k shapes)
      = renderItemsF (slideItems k shapes).length (slideItems k shapes) from rfl,
    renderItemsF_map _ _ (le_refl _)] at hl
  rw [List.mem_map] at hl
  obtain ⟨it, hit, rfl⟩ := hl
  obtain ⟨hph, htag⟩ := slideItems_shape k shapes it hit
  have hchars := itemStr_chars hph htag
  have hphne : it.1 ≠ [] := by
    obtain ⟨j, hj⟩ := hph
    rw [hj]
    unfold make_ph_name
    simp
  obtain ⟨hnt, hld, hnl⟩ := segOf_noTriple it.2.1 hchars hphne
  by_cases hs : it.2.1 ≤ SHORT_LIMIT
  · rw [if_pos hs]
    refine ⟨noTriple_append_nl (by decide) hnt hld, ?_, ?_⟩
    · intro hmem
      rcases List.mem_append.mp hmem with hm | hm
      · exact absurd hm (by decide)
      · exact hnl hm
    · left
      obtain ⟨j, hj⟩ := hph
      refine ⟨((((make_ph_name k j).drop 1 ++ (if it.2.2 = [] then [] else ' ' :: it.2.2))
          ++ (" <!--len:".data)) ++ toDecimal it.2.1) ++ ("-->".data), ?_⟩
      rw [hj]
      rfl
  · rw [if_neg hs]
    refine ⟨noTriple_append_nl (by decide) hnt hld, ?_, Or.inr ⟨_, rfl⟩⟩
    intro hmem
    rcases List.mem_append.mp hmem with hm | hm
    · exact absurd hm (by decide)
    · exact hnl hm

theorem heading_facts (k : Nat) :
    noTriple (("## Slide ".data) ++ toDecimal (k + 1)) = true ∧
    '\n' ∉ ("## Slide ".data) ++ toDecimal (k + 1) := by
  have hdig := toDecimal_all_digits (k + 1)
  constructor
  · refine noTriple_of_no_dash ?_
    intro c hc
    rcases List.mem_append.mp hc with hm | hm
    · exact (by decide : ∀ x ∈ ("## Slide ".data), ¬ x = '-') c hm
    · exact (isDigit_ne (hdig c hm)).1
  · intro hmem
    rcases List.mem_append.mp hmem with hm | hm
    · exact absurd hm (by decide)
    · exact (isDigit_ne (hdig '\n' hm)).2.1 rfl

theorem deckLinesTrimFrom_noTriple :
    ∀ (ds : List (List PShape)) (k : Nat), ∀ l ∈ deckLinesTrimFrom k ds,
      noTriple l = true := by
  intro ds
  induction ds with
  | nil =>
    intro k l hl
    exact absurd hl (by simp [deckLinesTrimFrom])
  | cons shapes rest ih =>
    intro k l hl
    cases rest with
    | nil =>
      rw [show deckLinesTrimFrom k [shapes] = slideLinesTrim k shapes from rfl] at hl
      unfold slideLinesTrim at hl
      rcases List.mem_cons.mp hl with rfl | hl'
      · exact (heading_facts k).1
      · by_cases he : slideItems k shapes = []
        · rw [if_pos he] at hl'
          simp only [List.mem_singleton] at hl'
          subst hl'
          decide
        · rw [if_neg he] at hl'
          exact (renderItems_line_facts k shapes l hl').1
    | cons s2 rest2 =>
      rw [show deckLinesTrimFrom k (shapes :: s2 :: rest2)
        = slideLines k shapes ++ deckLinesTrimFrom (k + 1) (s2 :: rest2) from rfl] at hl
      rcases List.mem_append.mp hl with hl' | hl'
      · unfold slideLines at hl'
        rcases List.mem_cons.mp hl' with rfl | hl2
        · exact (heading_facts k).1
        · by_cases he : slideItems k shapes = []
          · rw [if_pos he] at hl2
            simp only [List.mem_singleton] at hl2
            subst hl2
            decide
          · rw [if_neg he] at hl2
            rcases List.mem_append.mp hl2 with hl3 | hl3
            · exact (renderItems_line_facts k shapes l hl3).1
            · simp only [List.mem_singleton] at hl3
              subst hl3
              rfl
      · exact ih (k + 1) l hl'

theorem noTriple_joinNl :
    ∀ (lines : List (List Char)), (∀ l ∈ lines, noTriple l = true) →
      noTriple (joinNl lines) = true := by
  intro lines
  induction lines with
  | nil => intro h; rfl
  | cons l rest ih =>
    intro h
    cases rest with
    | nil => exact h l (by simp)
    | cons l2 rest2 =>
      rw [show joinNl (l :: l2 :: rest2) = l ++ '\n' :: joinNl (l2 :: rest2) from rfl]
      refine noTriple_append_nl (h l (by simp)) ?_ (leadDash_cons_ne (by decide) _)
      rw [show noTriple ('\n' :: joinNl (l2 :: rest2))
        = (decide (leadDash ('\n' :: joinNl (l2 :: rest2)) ≤ 2)
            && noTriple (joinNl (l2 :: rest2))) from rfl, Bool.and_eq_true]
      constructor
      · apply decide_eq_true
        rw [leadDash_cons_ne (by decide)]
        omega
      · exact ih (fun x hx => h x (List.mem_cons_of_mem _ hx))


theorem deckLinesFrom_eq (ds : List (List PShape)) :
    ∀ k, ((ds.enumFrom k).map (fun p => slideLines p.1 p.2)).flatten
      = deckLinesFrom k ds := by
  induction ds with
  | nil => intro k; rfl
  | cons shapes rest ih =>
    intro k
    rw [List.enumFrom_cons, List.map_cons, List.flatten_cons, ih (k + 1)]
    rfl

theorem pptx_to_markdown_eq (deck : List (List PShape)) :
    pptx_to_markdown deck = joinNl (deckLinesFrom 0 deck) := by
  unfold pptx_to_markdown
  rw [show deck.enum = deck.enumFrom 0 from rfl, deckLinesFrom_eq deck 0]

theorem joinNl_append :
    ∀ (A B : List (List Char)), A ≠ [] → B ≠ [] →
      joinNl (A ++ B) = joinNl A ++ '\n' :: joinNl B := by
  intro A
  induction A with
  | nil => intro B h; exact absurd rfl h
  | cons l A' ih =>
    intro B _ hB
    cases A' with
    | nil =>
      cases B with
      | nil => exact absurd rfl hB
      | cons b B' => rfl
    | cons l2 A2 =>
      rw [show (l :: l2 :: A2) ++ B = l :: ((l2 :: A2) ++ B) from rfl]
      rw [show joinNl (l :: ((l2 :: A2) ++ B))
        = l ++ '\n' :: joinNl ((l2 :: A2) ++ B) from ?_]
      · rw [ih B (by simp) hB]
        rw [show joinNl (l :: l2 :: A2) = l ++ '\n' :: joinNl (l2 :: A2) from rfl,
          List.append_assoc]
        rfl
      · cases A2 <;> cases B <;> rfl

theorem renderItems_ne_nil {items : List (List Char × Nat × List Char)}
    (h : items ≠ []) : renderItems items ≠ [] := by
  rw [show renderItems items = renderItemsF items.length items from rfl,
    renderItemsF_map _ _ (le_refl _)]
  simpa using h

theorem deckLinesTrimFrom_ne_nil :
    ∀ {ds : List (List PShape)} (k : Nat), ds ≠ [] → deckLinesTrimFrom k ds ≠ [] := by
  intro ds k h
  cases ds with
  | nil => exact absurd rfl h
  | cons shapes rest =>
    cases rest with
    | nil => simp [deckLinesTrimFrom, slideLinesTrim]
    | cons s2 rest2 => simp [deckLinesTrimFrom, slideLines]

theorem deckLinesFrom_trim :
    ∀ (ds : List (List PShape)) (k : Nat), ds ≠ [] →
      joinNl (deckLinesFrom k ds) = joinNl (deckLinesTrimFrom k ds) ++ ['\n'] := by
  intro ds
  induction ds with
  | nil => intro k h; exact absurd rfl h
  | cons shapes rest ih =>
    intro k _
    cases rest with
    | nil =>
      rw [show deckLinesFrom k [shapes] = slideLines k shapes ++ [] from rfl,
        List.append_nil]
      rw [show deckLinesTrimFrom k [shapes] = slideLinesTrim k shapes from rfl]
      unfold slideLines slideLinesTrim
      by_cases he : slideItems k shapes = []
      · rw [if_pos he, if_pos he]
        rw [show ("(No text on this slide)\n".data)
          = ("(No text on this slide)".data) ++ ['\n'] from rfl]
        show _ ++ '\n' :: (("(No text on this slide)".data) ++ ['\n'])
          = (_ ++ '\n' :: ("(No text on this slide)".data)) ++ ['\n']
        simp
      · rw [if_neg he, if_neg he]
        have hr : renderItems (slideItems k shapes) ≠ [] := renderItems_ne_nil he
        rw [show (("## Slide ".data) ++ toDecimal (k + 1))
              :: (renderItems (slideItems k shapes) ++ [[]])
            = ((("## Slide ".data) ++ toDecimal (k + 1))
              :: renderItems (slideItems k shapes)) ++ [[]] from by simp]
        rw [joinNl_append _ [[]] (by simp) (by simp)]
        rfl
    | cons s2 rest2 =>
      rw [show deckLinesFrom k (shapes :: s2 :: rest2)
        = slideLines k shapes ++ deckLinesFrom (k + 1) (s2 :: rest2) from rfl]
      rw [show deckLinesTrimFrom k (shapes :: s2 :: rest2)
        = slideLines k shapes ++ deckLinesTrimFrom (k + 1) (s2 :: rest2) from rfl]
      have hA : slideLines k shapes ≠ [] := by simp [slideLines]
      have hB : deckLinesFrom (k + 1) (s2 :: rest2) ≠ [] := by
        cases rest2 <;> simp [deckLinesFrom, slideLines]
      rw [joinNl_append _ _ hA hB,
        joinNl_append _ _ hA (deckLinesTrimFrom_ne_nil (k + 1) (by simp)),
        ih (k + 1) (by simp)]
      simp

theorem dropWhile_eq_self_of_head {p : Char → Bool} :
    ∀ {l : List Char}, (∀ c, l.head? = some c → p c = false) → l.dropWhile p = l := by
  intro l h
  cases l with
  | nil => rfl
  | cons c cs =>
    rw [List.dropWhile_cons, h c rfl]
    simp

theorem stripNlBoth_wrap {D : List Char} {c0 : Char}
    (h1 : D.head? = some c0) (h1' : ¬ c0 = '\n')
    (h2 : ∀ c, D.getLast? = some c → ¬ c = '\n') :
    stripNlBoth (D ++ ['\n']) = D := by
  unfold stripNlBoth
  have hd1 : (D ++ ['\n']).dropWhile (fun c => decide (c = '\n')) = D ++ ['\n'] := by
    apply dropWhile_eq_self_of_head
    intro c hc
    cases D with
    | nil => exact absurd h1 (by simp)
    | cons d ds =>
      rw [List.cons_append] at hc
      have h3 : d = c := Option.some.inj hc
      have h4 : d = c0 := Option.some.inj h1
      subst h3
      rw [h4]
      simpa using h1'
  rw [hd1, List.reverse_append]
  rw [show (['\n'] : List Char).reverse = ['\n'] from rfl, List.singleton_append,
    List.dropWhile_cons, if_pos (by decide)]
  rw [dropWhile_eq_self_of_head ?_, List.reverse_reverse]
  intro c hc
  rw [List.head?_reverse] at hc
  simpa using h2 c hc

theorem joinNl_head :
    ∀ {lines : List (List Char)} {c : Char} {t : List Char},
      lines.head? = some (c :: t) → (joinNl lines).head? = some c := by
  intro lines c t h
  cases lines with
  | nil => exact absurd h (by simp)
  | cons l rest =>
    have : l = c :: t := Option.some.inj h
    subst this
    cases rest with
    | nil => rfl
    | cons l2 rest2 => rfl

theorem joinNl_getLast :
    ∀ (lines : List (List Char)) (x : List Char) (c : Char),
      (lines ++ [x]).getLast? = some x → x.getLast? = some c →
      (joinNl (lines ++ [x])).getLast? = some c := by
  intro lines
  induction lines with
  | nil =>
    intro x c _ hx
    rw [List.nil_append]
    exact hx
  | cons l rest ih =>
    intro x c _ hx
    rw [List.cons_append]
    rw [show joinNl (l :: (rest ++ [x])) = l ++ '\n' :: joinNl (rest ++ [x]) from ?_]
    · rw [List.getLast?_append]
      have := ih x c (by simp) hx
      rw [show ('\n' :: joinNl (rest ++ [x])).getLast?
        = (['\n'] ++ joinNl (rest ++ [x])).getLast? from rfl, List.getLast?_append, this]
      rfl
    · cases rest <;> rfl


theorem renderItems_line_last (k : Nat) (shapes : List PShape) :
    ∀ l ∈ renderItems (slideItems k shapes), l.getLast? = some '>' := by
  intro l hl
  rw [show renderItems (slideItems k shapes)
      = renderItemsF (slideItems k shapes).length (slideItems k shapes) from rfl,
    renderItemsF_map _ _ (le_refl _)] at hl
  rw [List.mem_map] at hl
  obtain ⟨it, _, rfl⟩ := hl
  rw [List.getLast?_append]
  rw [show segOf it.1 it.2.1 it.2.2
    = ((it.1 ++ (if it.2.2 = [] then [] else ' ' :: it.2.2))
        ++ (" <!--len:".data) ++ toDecimal it.2.1) ++ ("-->".data) from rfl]
  rw [List.getLast?_append]
  rfl

theorem deckLinesTrimFrom_last :
    ∀ (ds : List (List PShape)) (k : Nat), ds ≠ [] →
      ∃ (lines : List (List Char)) (x : List Char) (c : Char),
        deckLinesTrimFrom k ds = lines ++ [x] ∧ x.getLast? = some c ∧ ¬ c = '\n' := by
  intro ds
  induction ds with
  | nil => intro k h; exact absurd rfl h
  | cons shapes rest ih =>
    intro k _
    cases rest with
    | nil =>
      rw [show deckLinesTrimFrom k [shapes] = slideLinesTrim k shapes from rfl]
      unfold slideLinesTrim
      by_cases he : slideItems k shapes = []
      · rw [if_pos he]
        exact ⟨[("## Slide ".data) ++ toDecimal (k + 1)],
          ("(No text on this slide)".data), ')', rfl, by decide, by decide⟩
      · rw [if_neg he]
        have hr : renderItems (slideItems k shapes) ≠ [] := renderItems_ne_nil he
        refine ⟨(("## Slide ".data) ++ toDecimal (k + 1))
            :: (renderItems (slideItems k shapes)).dropLast,
          (renderItems (slideItems k shapes)).getLast hr, '>', ?_, ?_, by decide⟩
        · conv_rhs => rw [List.cons_append, List.dropLast_concat_getLast hr]
        · exact renderItems_line_last k shapes _ (List.getLast_mem hr)
    | cons s2 rest2 =>
      obtain ⟨lines, x, c, h1, h2, h3⟩ := ih (k + 1) (by simp)
      refine ⟨slideLines k shapes ++ lines, x, c, ?_, h2, h3⟩
      rw [show deckLinesTrimFrom k (shapes :: s2 :: rest2)
        = slideLines k shapes ++ deckLinesTrimFrom (k + 1) (s2 :: rest2) from rfl,
        h1, List.append_assoc]

theorem deckLinesTrimFrom_head :
    ∀ (ds : List (List PShape)) (k : Nat), ds ≠ [] →
      ∃ t, (deckLinesTrimFrom k ds).head? = some ('#' :: t) := by
  intro ds k h
  cases ds with
  | nil => exact absurd rfl h
  | cons shapes rest =>
    cases rest with
    | nil =>
      refine ⟨('#' :: (" Slide ".data)) ++ toDecimal (k + 1), ?_⟩
      rfl
    | cons s2 rest2 =>
      refine ⟨('#' :: (" Slide ".data)) ++ toDecimal (k + 1), ?_⟩
      rfl

theorem stripNlBoth_markdown (deck : List (List PShape)) (h : deck ≠ []) :
    stripNlBoth (pptx_to_markdown deck) = joinNl (deckLinesTrimFrom 0 deck) := by
  rw [pptx_to_markdown_eq, deckLinesFrom_trim deck 0 h]
  obtain ⟨t, hh⟩ := deckLinesTrimFrom_head deck 0 h
  obtain ⟨lines, x, c, h1, h2, h3⟩ := deckLinesTrimFrom_last deck 0 h
  exact stripNlBoth_wrap (joinNl_head hh) (by decide) (fun c' hc' => by
    rw [h1] at hc'
    rw [joinNl_getLast lines x c (by simp) h2] at hc'
    have := Option.some.inj hc'
    subst this
    exact h3)

theorem markdown_noDashSep (deck : List (List PShape)) :
    hasDashSep (joinNl (deckLinesTrimFrom 0 deck)) = false :=
  hasDashSep_false (noTriple_joinNl _ (deckLinesTrimFrom_noTriple deck 0))

theorem markdown_ne_nil (deck : List (List PShape)) (h : deck ≠ []) :
    joinNl (deckLinesTrimFrom 0 deck) ≠ [] := by
  obtain ⟨t, hh⟩ := deckLinesTrimFrom_head deck 0 h
  intro he
  have := joinNl_head hh
  rw [he] at this
  exact Option.noConfusion this


theorem findDollar_le {r : List Char} :
    ∀ {n k : Nat}, findDollar r n = some k → k ≤ n := by
  intro n
  induction n with
  | zero =>
    intro k h
    rw [show findDollar r 0 = if dollarAt r 0 then some 0 else none from rfl] at h
    split at h
    · have := Option.some.inj h
      omega
    · exact Option.noConfusion h
  | succ n ih =>
    intro k h
    rw [show findDollar r (n + 1)
      = if dollarAt r (n + 1) then some (n + 1) else findDollar r n from rfl] at h
    split at h
    · have := Option.some.inj h
      omega
    · have := ih h
      omega



theorem matchSlideHeadAt_pos {l : List Char} {len : Nat}
    (h : matchSlideHeadAt l = some len) : 1 ≤ len := by
  simp only [matchSlideHeadAt] at h
  split at h
  next h1 =>
    split at h
    next m hm =>
      have := Option.some.inj h
      omega
    next => exact Option.noConfusion h
  next => exact Option.noConfusion h

theorem matchSlideHeadAt_none_head {l : List Char}
    (h : ∀ c, l.head? = some c → ¬ c = '#') : matchSlideHeadAt l = none := by
  have h0 : l.takeWhile (fun c => decide (c = '#')) = [] := by
    cases l with
    | nil => rfl
    | cons c cs =>
      rw [List.takeWhile_cons, if_neg (by simpa using h c rfl)]
  simp only [matchSlideHeadAt]
  rw [h0]
  simp

theorem matchSlideHeadAt_item (z : List Char) :
    matchSlideHeadAt ('#' :: '#' :: '#' :: ' ' :: '{' :: z) = none := by
  have h0 : ('#' :: '#' :: '#' :: ' ' :: '{' :: z).takeWhile (fun c => decide (c = '#'))
      = ['#', '#', '#'] := by
    rw [List.takeWhile_cons, if_pos (by decide), List.takeWhile_cons, if_pos (by decide),
      List.takeWhile_cons, if_pos (by decide), List.takeWhile_cons, if_neg (by decide)]
  have h1 : (' ' :: '{' :: z).takeWhile isPySpace = [' '] := by
    rw [List.takeWhile_cons, if_pos (by decide), List.takeWhile_cons, if_neg (by decide)]
  simp only [matchSlideHeadAt]
  rw [h0]
  rw [show (['#', '#', '#'] : List Char).length = 3 from rfl]
  rw [show ('#' :: '#' :: '#' :: ' ' :: '{' :: z).drop 3 = ' ' :: '{' :: z from rfl]
  rw [if_pos (by decide)]
  simp only [slideHeadTail1]
  rw [h1]
  rw [show ([' '] : List Char).length = 1 from rfl]
  rw [show (' ' :: '{' :: z).drop 1 = '{' :: z from rfl]
  rw [show ('{' :: z).take 5 = '{' :: z.take 4 from rfl, List.map_cons]
  rw [if_neg (fun he => by
    have h2 : some (asciiLower '{') = some 's' := congrArg List.head? he
    exact absurd (Option.some.inj h2) (by decide))]

set_option maxHeartbeats 1000000 in
theorem matchSlideHeadAt_heading (k : Nat) (c : Char) (t : List Char)
    (hc : isPySpace c = false) :
    matchSlideHeadAt ((("## Slide ".data) ++ toDecimal (k + 1)) ++ '\n' :: c :: t)
      = some (headLen k) := by
  obtain ⟨d, D', hD⟩ := List.exists_cons_of_ne_nil (toDecimal_ne_nil (k + 1))
  have hd : d.isDigit = true := toDecimal_all_digits (k + 1) d (by rw [hD]; simp)
  have hdws : isPySpace d = false := (isDigit_ne hd).2.2.2.2.2
  have hDall : ∀ x ∈ toDecimal (k + 1), x.isDigit = true := toDecimal_all_digits (k + 1)
  have hshape : (("## Slide ".data) ++ toDecimal (k + 1)) ++ '\n' :: c :: t
      = '#' :: '#' :: ' ' :: 'S' :: 'l' :: 'i' :: 'd' :: 'e' :: ' '
        :: (toDecimal (k + 1) ++ '\n' :: c :: t) := by
    rw [show ("## Slide ".data) = '#' :: '#' :: ' ' :: 'S' :: 'l' :: 'i' :: 'd'
      :: 'e' :: ' ' :: [] from rfl]
    simp
  rw [hshape]
  have hDtw : (toDecimal (k + 1) ++ '\n' :: c :: t).takeWhile isPySpace = [] := by
    rw [hD, show (d :: D') ++ '\n' :: c :: t = d :: (D' ++ '\n' :: c :: t) from rfl,
      List.takeWhile_cons, if_neg (by rw [hdws]; exact Bool.false_ne_true)]
  have hds : (toDecimal (k + 1) ++ '\n' :: c :: t).takeWhile Char.isDigit
      = toDecimal (k + 1) := by
    rw [List.takeWhile_append,
      if_pos (by rw [List.takeWhile_eq_self_iff.mpr hDall]),
      List.takeWhile_cons, if_neg (by decide)]
    simp
  have hdrop : (toDecimal (k + 1) ++ '\n' :: c :: t).drop (toDecimal (k + 1)).length
      = '\n' :: c :: t := List.drop_left _ _
  have hdollar : findDollar ('\n' :: c :: t) 1 = some 0 := by
    rw [show findDollar ('\n' :: c :: t) 1
      = if dollarAt ('\n' :: c :: t) 1 then some 1 else findDollar ('\n' :: c :: t) 0
      from rfl]
    rw [if_neg ?_]
    · rw [show findDollar ('\n' :: c :: t) 0
        = if dollarAt ('\n' :: c :: t) 0 then some 0 else none from rfl]
      rw [if_pos ?_]
      unfold dollarAt
      rw [List.drop_zero]
      simp
    · unfold dollarAt
      rw [show ('\n' :: c :: t).drop 1 = c :: t from rfl]
      simp only [List.isEmpty_cons, List.head?_cons, Bool.or_eq_true, beq_iff_eq]
      rintro (h | h)
      · exact Bool.noConfusion h
      · have hcn : c = '\n' := Option.some.inj h
        rw [hcn] at hc
        exact Bool.noConfusion hc
  have htail3 : slideHeadTail3 (toDecimal (k + 1) ++ '\n' :: c :: t)
      = some (toDecimal (k + 1)).length := by
    simp only [slideHeadTail3]
    rw [hds, hdrop]
    rw [if_pos (by rw [hD]; exact Nat.succ_le_succ (Nat.zero_le _))]
    rw [show ('\n' :: c :: t).takeWhile isPySpace = '\n' :: (c :: t).takeWhile isPySpace
      from by rw [List.takeWhile_cons, if_pos (by decide)]]
    rw [show (c :: t).takeWhile isPySpace = [] from by
      rw [List.takeWhile_cons, if_neg (by rw [hc]; exact Bool.false_ne_true)]]
    rw [show (('\n' :: ([] : List Char)).length) = 1 from rfl]
    rw [hdollar]
    rfl
  have hsep : ¬ (d = '-' ∨ d = '_' ∨ d = ' ') := by
    obtain ⟨h1, _, h3, h4, _⟩ := isDigit_ne hd
    rintro (h | h | h)
    · exact h1 h
    · exact h3 h
    · exact h4 h
  have htail2 : slideHeadTail2 (' ' :: (toDecimal (k + 1) ++ '\n' :: c :: t))
      = some (1 + (toDecimal (k + 1)).length) := by
    simp only [slideHeadTail2]
    rw [show (' ' :: (toDecimal (k + 1) ++ '\n' :: c :: t)).takeWhile isPySpace
      = [' '] from by
      rw [List.takeWhile_cons, if_pos (by decide), hDtw]]
    rw [show ([' '] : List Char).length = 1 from rfl]
    rw [show (' ' :: (toDecimal (k + 1) ++ '\n' :: c :: t)).drop 1
      = toDecimal (k + 1) ++ '\n' :: c :: t from rfl]
    rw [show (toDecimal (k + 1) ++ '\n' :: c :: t).head? = some d from by
      rw [hD]; rfl]
    rw [show (match some d with
      | some x => if x = '-' ∨ x = '_' ∨ x = ' ' then 1 else 0
      | none => 0) = if d = '-' ∨ d = '_' ∨ d = ' ' then 1 else 0 from rfl]
    rw [if_neg hsep]
    rw [List.drop_zero, hDtw]
    rw [show ([] : List Char).length = 0 from rfl]
    rw [List.drop_zero]
    rw [htail3]
  have htail1 : slideHeadTail1 (' ' :: 'S' :: 'l' :: 'i' :: 'd' :: 'e' :: ' '
      :: (toDecimal (k + 1) ++ '\n' :: c :: t))
      = some (7 + (toDecimal (k + 1)).length) := by
    simp only [slideHeadTail1]
    rw [show (' ' :: 'S' :: 'l' :: 'i' :: 'd' :: 'e' :: ' '
        :: (toDecimal (k + 1) ++ '\n' :: c :: t)).takeWhile isPySpace = [' '] from by
      rw [List.takeWhile_cons, if_pos (by decide), List.takeWhile_cons,
        if_neg (by decide)]]
    rw [show ([' '] : List Char).length = 1 from rfl]
    rw [show (' ' :: 'S' :: 'l' :: 'i' :: 'd' :: 'e' :: ' '
        :: (toDecimal (k + 1) ++ '\n' :: c :: t)).drop 1
      = 'S' :: 'l' :: 'i' :: 'd' :: 'e' :: ' '
        :: (toDecimal (k + 1) ++ '\n' :: c :: t) from rfl]
    rw [show ('S' :: 'l' :: 'i' :: 'd' :: 'e' :: ' '
        :: (toDecimal (k + 1) ++ '\n' :: c :: t)).take 5
      = ['S', 'l', 'i', 'd', 'e'] from rfl]
    rw [if_pos (by decide)]
    rw [show ('S' :: 'l' :: 'i' :: 'd' :: 'e' :: ' '
        :: (toDecimal (k + 1) ++ '\n' :: c :: t)).drop 5
      = ' ' :: (toDecimal (k + 1) ++ '\n' :: c :: t) from rfl]
    rw [htail2]
    show some (1 + 5 + (1 + (toDecimal (k + 1)).length))
      = some (7 + (toDecimal (k + 1)).length)
    congr 1
    omega
  simp only [matchSlideHeadAt]
  rw [show ('#' :: '#' :: ' ' :: 'S' :: 'l' :: 'i' :: 'd' :: 'e' :: ' '
      :: (toDecimal (k + 1) ++ '\n' :: c :: t)).takeWhile (fun x => decide (x = '#'))
    = ['#', '#'] from by
      rw [List.takeWhile_cons, if_pos (by decide), List.takeWhile_cons,
        if_pos (by decide), List.takeWhile_cons, if_neg (by decide)]]
  rw [show (['#', '#'] : List Char).length = 2 from rfl]
  rw [if_pos (by decide)]
  rw [show ('#' :: '#' :: ' ' :: 'S' :: 'l' :: 'i' :: 'd' :: 'e' :: ' '
      :: (toDecimal (k + 1) ++ '\n' :: c :: t)).drop 2
    = ' ' :: 'S' :: 'l' :: 'i' :: 'd' :: 'e' :: ' '
      :: (toDecimal (k + 1) ++ '\n' :: c :: t) from rfl]
  rw [htail1]
  unfold headLen
  show some (2 + (7 + (toDecimal (k + 1)).length))
    = some (9 + (toDecimal (k + 1)).length)
  congr 1
  omega


theorem findHeadsF_congr :
    ∀ (f g p : Nat) (ls : Bool) (l : List Char),
      l.length ≤ f → l.length ≤ g →
      findHeadsF f p ls l = findHeadsF g p ls l := by
  intro f
  induction f with
  | zero =>
    intro g p ls l hf hg
    have : l = [] := List.eq_nil_of_length_eq_zero (by omega)
    subst this
    cases g <;> rfl
  | succ f ih =>
    intro g p ls l hf hg
    cases l with
    | nil => cases g <;> rfl
    | cons c cs =>
      cases g with
      | zero =>
        rw [List.length_cons] at hg
        omega
      | succ g =>
        rw [show findHeadsF (f + 1) p ls (c :: cs)
          = match (if ls then matchSlideHeadAt (c :: cs) else none) with
            | some len => (p, p + len) :: findHeadsF f (p + len)
                (((c :: cs).take len).getLast? == some '\n') ((c :: cs).drop len)
            | none => findHeadsF f (p + 1) (c == '\n') cs from rfl]
        rw [show findHeadsF (g + 1) p ls (c :: cs)
          = match (if ls then matchSlideHeadAt (c :: cs) else none) with
            | some len => (p, p + len) :: findHeadsF g (p + len)
                (((c :: cs).take len).getLast? == some '\n') ((c :: cs).drop len)
            | none => findHeadsF g (p + 1) (c == '\n') cs from rfl]
        rw [List.length_cons] at hf hg
        cases hm : (if ls then matchSlideHeadAt (c :: cs) else none) with
        | none =>
          simp only
          exact ih g (p + 1) (c == '\n') cs (by omega) (by omega)
        | some len =>
          simp only
          have hpos : 1 ≤ len := by
            cases ls with
            | false => exact absurd hm (by simp)
            | true =>
              rw [if_pos rfl] at hm
              exact matchSlideHeadAt_pos hm
          have hlen : ((c :: cs).drop len).length ≤ cs.length := by
            rw [List.length_drop, List.length_cons]
            omega
          rw [ih g (p + len) _ ((c :: cs).drop len) (by omega) (by omega)]

theorem findHeadsF_skipSegEnd :
    ∀ (seg : List Char) (f p : Nat), '\n' ∉ seg →
      findHeadsF f p false seg = [] := by
  intro seg
  induction seg with
  | nil => intro f p _; cases f <;> rfl
  | cons c cs ih =>
    intro f p hnl
    cases f with
    | zero => rfl
    | succ f =>
      rw [show findHeadsF (f + 1) p false (c :: cs)
        = findHeadsF f (p + 1) (c == '\n') cs from rfl]
      have hc : (c == '\n') = false := by
        rw [beq_eq_false_iff_ne]
        intro he
        exact hnl (he ▸ List.mem_cons_self c cs)
      rw [hc]
      exact ih f (p + 1) (fun hm => hnl (List.mem_cons_of_mem _ hm))

theorem findHeadsF_skipSeg :
    ∀ (seg : List Char) (f p : Nat) (rest : List Char), '\n' ∉ seg →
      seg.length + (1 + rest.length) ≤ f →
      findHeadsF f p false (seg ++ '\n' :: rest)
        = findHeadsF f (p + seg.length + 1) true rest := by
  intro seg
  induction seg with
  | nil =>
    intro f p rest _ hf
    rw [List.length_nil] at hf
    cases f with
    | zero => omega
    | succ f =>
      rw [List.nil_append]
      rw [show findHeadsF (f + 1) p false ('\n' :: rest)
        = findHeadsF f (p + 1) (('\n' : Char) == '\n') rest from rfl]
      rw [show (('\n' : Char) == '\n') = true from rfl]
      rw [show p + [].length + 1 = p + 1 from by simp]
      exact findHeadsF_congr f (f + 1) (p + 1) true rest (by omega) (by omega)
  | cons c cs ih =>
    intro f p rest hnl hf
    rw [List.length_cons] at hf
    cases f with
    | zero => omega
    | succ f =>
      rw [List.cons_append]
      rw [show findHeadsF (f + 1) p false (c :: (cs ++ '\n' :: rest))
        = findHeadsF f (p + 1) (c == '\n') (cs ++ '\n' :: rest) from rfl]
      have hc : (c == '\n') = false := by
        rw [beq_eq_false_iff_ne]
        intro he
        exact hnl (he ▸ List.mem_cons_self c cs)
      rw [hc]
      rw [ih f (p + 1) rest (fun hm => hnl (List.mem_cons_of_mem _ hm)) (by omega)]
      rw [show p + 1 + cs.length + 1 = p + (c :: cs).length + 1 from by
        rw [List.length_cons]; omega]
      exact findHeadsF_congr f (f + 1) _ true rest (by omega) (by omega)

theorem findHeadsF_skipLine {seg : List Char} (f p : Nat) (rest : List Char)
    (hnl : '\n' ∉ seg)
    (hnone : matchSlideHeadAt (seg ++ '\n' :: rest) = none)
    (hf : seg.length + (1 + rest.length) ≤ f) :
    findHeadsF f p true (seg ++ '\n' :: rest)
      = findHeadsF f (p + seg.length + 1) true rest := by
  cases seg with
  | nil =>
    rw [List.nil_append] at hnone ⊢
    rw [List.length_nil] at hf
    cases f with
    | zero => omega
    | succ f =>
      rw [show findHeadsF (f + 1) p true ('\n' :: rest)
        = match matchSlideHeadAt ('\n' :: rest) with
          | some len => (p, p + len) :: findHeadsF f (p + len)
              ((('\n' :: rest).take len).getLast? == some '\n') (('\n' :: rest).drop len)
          | none => findHeadsF f (p + 1) (('\n' : Char) == '\n') rest from rfl,
        hnone]
      rw [show (('\n' : Char) == '\n') = true from rfl]
      rw [show p + [].length + 1 = p + 1 from by simp]
      exact findHeadsF_congr f (f + 1) (p + 1) true rest (by omega) (by omega)
  | cons c cs =>
    rw [List.cons_append] at hnone ⊢
    rw [List.length_cons] at hf
    cases f with
    | zero => omega
    | succ f =>
      rw [show findHeadsF (f + 1) p true (c :: (cs ++ '\n' :: rest))
        = match matchSlideHeadAt (c :: (cs ++ '\n' :: rest)) with
          | some len => (p, p + len) :: findHeadsF f (p + len)
              (((c :: (cs ++ '\n' :: rest)).take len).getLast? == some '\n')
              ((c :: (cs ++ '\n' :: rest)).drop len)
          | none => findHeadsF f (p + 1) (c == '\n') (cs ++ '\n' :: rest) from rfl,
        hnone]
      have hc : (c == '\n') = false := by
        rw [beq_eq_false_iff_ne]
        intro he
        exact hnl (he ▸ List.mem_cons_self c cs)
      rw [hc]
      rw [findHeadsF_skipSeg cs f (p + 1) rest
        (fun hm => hnl (List.mem_cons_of_mem _ hm)) (by omega)]
      rw [show p + 1 + cs.length + 1 = p + (c :: cs).length + 1 from by
        rw [List.length_cons]; omega]
      exact findHeadsF_congr f (f + 1) _ true rest (by omega) (by omega)

theorem findHeadsF_skipLineEnd {seg : List Char} (f p : Nat)
    (hnl : '\n' ∉ seg) (hnone : matchSlideHeadAt seg = none) :
    findHeadsF f p true seg = [] := by
  cases seg with
  | nil => cases f <;> rfl
  | cons c cs =>
    cases f with
    | zero => rfl
    | succ f =>
      rw [show findHeadsF (f + 1) p true (c :: cs)
        = match matchSlideHeadAt (c :: cs) with
          | some len => (p, p + len) :: findHeadsF f (p + len)
              (((c :: cs).take len).getLast? == some '\n') ((c :: cs).drop len)
          | none => findHeadsF f (p + 1) (c == '\n') cs from rfl,
        hnone]
      have hc : (c == '\n') = false := by
        rw [beq_eq_false_iff_ne]
        intro he
        exact hnl (he ▸ List.mem_cons_self c cs)
      rw [hc]
      exact findHeadsF_skipSegEnd cs f (p + 1) (fun hm => hnl (List.mem_cons_of_mem _ hm))

theorem findHeadsF_emptyLine (f p : Nat) (rest : List Char)
    (hf : 1 + rest.length ≤ f) :
    findHeadsF f p true ('\n' :: rest) = findHeadsF f (p + 1) true rest := by
  have h := @findHeadsF_skipLine [] f p rest (by simp)
    (matchSlideHeadAt_none_head (fun c hc => by
      rw [List.nil_append, List.head?_cons] at hc
      have : '\n' = c := Option.some.inj hc
      rw [← this]
      decide)) (by simpa using hf)
  rw [List.nil_append] at h
  rw [h]
  rw [show p + List.length [] + 1 = p + 1 from by simp]


theorem safe_none {l : List Char}
    (h : (∃ z, l = '#' :: '#' :: '#' :: ' ' :: '{' :: z)
      ∨ (∃ z, l = '-' :: z) ∨ (∃ z, l = '(' :: z)) :
    ∀ r, matchSlideHeadAt (l ++ r) = none := by
  intro r
  rcases h with ⟨z, rfl⟩ | ⟨z, rfl⟩ | ⟨z, rfl⟩
  · rw [show ('#' :: '#' :: '#' :: ' ' :: '{' :: z) ++ r
      = '#' :: '#' :: '#' :: ' ' :: '{' :: (z ++ r) from rfl]
    exact matchSlideHeadAt_item (z ++ r)
  · refine matchSlideHeadAt_none_head (fun c hc => ?_)
    rw [List.cons_append, List.head?_cons] at hc
    have := Option.some.inj hc
    rw [← this]
    decide
  · refine matchSlideHeadAt_none_head (fun c hc => ?_)
    rw [List.cons_append, List.head?_cons] at hc
    have := Option.some.inj hc
    rw [← this]
    decide

theorem renderItems_safe (k : Nat) (shapes : List PShape) :
    ∀ l ∈ renderItems (slideItems k shapes),
      '\n' ∉ l ∧ ∀ r, matchSlideHeadAt (l ++ r) = none := by
  intro l hl
  obtain ⟨_, hnl, hstart⟩ := renderItems_line_facts k shapes l hl
  refine ⟨hnl, safe_none ?_⟩
  rcases hstart with h | h
  · exact Or.inl h
  · exact Or.inr (Or.inl h)

theorem joinNl_cons {a : List Char} {rest : List (List Char)} (h : rest ≠ []) :
    joinNl (a :: rest) = a ++ '\n' :: joinNl rest := by
  cases rest with
  | nil => exact absurd rfl h
  | cons b rest2 => rfl

theorem renderItems_head_decomp (k : Nat) (shapes : List PShape)
    (h : slideItems k shapes ≠ []) :
    ∃ (c0 : Char) (T : List Char),
      joinNl (renderItems (slideItems k shapes)) = c0 :: T
        ∧ isPySpace c0 = false := by
  obtain ⟨l0, R', hR⟩ :=
    List.exists_cons_of_ne_nil (renderItems_ne_nil h)
  have hfacts := renderItems_line_facts k shapes l0 (by rw [hR]; simp)
  obtain ⟨_, _, hstart⟩ := hfacts
  have hl0 : ∃ (c0 : Char) (t0 : List Char), l0 = c0 :: t0 ∧ isPySpace c0 = false := by
    rcases hstart with ⟨z, hz⟩ | ⟨z, hz⟩
    · exact ⟨'#', _, hz, by decide⟩
    · exact ⟨'-', _, hz, by decide⟩
  obtain ⟨c0, t0, hl0, hc0⟩ := hl0
  rw [hR]
  cases R' with
  | nil => exact ⟨c0, t0, by rw [show joinNl [l0] = l0 from rfl, hl0], hc0⟩
  | cons l1 R2 =>
    refine ⟨c0, t0 ++ '\n' :: joinNl (l1 :: R2), ?_, hc0⟩
    rw [joinNl_cons (by simp), hl0]
    rfl

theorem heading_cons (k : Nat) (X : List Char) :
    (("## Slide ".data) ++ toDecimal (k + 1)) ++ X
      = '#' :: ('#' :: ' ' :: 'S' :: 'l' :: 'i' :: 'd' :: 'e' :: ' '
        :: (toDecimal (k + 1) ++ X)) := by
  rw [show ("## Slide ".data) = '#' :: '#' :: ' ' :: 'S' :: 'l' :: 'i' :: 'd'
    :: 'e' :: ' ' :: [] from rfl]
  simp

theorem heading_length (k : Nat) :
    ((("## Slide ".data) ++ toDecimal (k + 1))).length = headLen k := by
  unfold headLen
  rw [List.length_append]
  rfl

theorem heading_getLast_not_nl (k : Nat) :
    (((("## Slide ".data) ++ toDecimal (k + 1))).getLast? == some '\n') = false := by
  obtain ⟨d, hd, hdd⟩ := toDecimal_getLast (k + 1)
  rw [List.getLast?_append, hd]
  rw [show (some d).or (("## Slide ".data).getLast?) = some d from rfl]
  rw [beq_eq_false_iff_ne]
  intro he
  exact (isDigit_ne hdd).2.1 (Option.some.inj he)

theorem findHeadsF_matchStep {doc : List Char} {len f p : Nat} {c0 : Char}
    {cs0 : List Char} (hdoc : doc = c0 :: cs0)
    (hm : matchSlideHeadAt doc = some len) :
    findHeadsF (f + 1) p true doc
      = (p, p + len) :: findHeadsF f (p + len)
          ((doc.take len).getLast? == some '\n') (doc.drop len) := by
  subst hdoc
  rw [show findHeadsF (f + 1) p true (c0 :: cs0)
    = match matchSlideHeadAt (c0 :: cs0) with
      | some len => (p, p + len) :: findHeadsF f (p + len)
          (((c0 :: cs0).take len).getLast? == some '\n') ((c0 :: cs0).drop len)
      | none => findHeadsF f (p + 1) (c0 == '\n') cs0 from rfl, hm]

theorem findHeadsF_falseStep (f p : Nat) (rest : List Char)
    (hf : 1 + rest.length ≤ f) :
    findHeadsF f p false ('\n' :: rest) = findHeadsF f (p + 1) true rest := by
  have h := findHeadsF_skipSeg [] f p rest (by simp) (by simpa using hf)
  rw [List.nil_append] at h
  rw [h]
  rw [show p + List.length [] + 1 = p + 1 from by simp]

theorem findHeadsF_skipLines :
    ∀ (lines : List (List Char)) (f p : Nat) (X : List Char), lines ≠ [] →
      (∀ l ∈ lines, '\n' ∉ l ∧ ∀ r, matchSlideHeadAt (l ++ r) = none) →
      (joinNl lines).length + (1 + X.length) ≤ f →
      findHeadsF f p true (joinNl lines ++ '\n' :: X)
        = findHeadsF f (p + (joinNl lines).length + 1) true X := by
  intro lines
  induction lines with
  | nil => intro f p X h; exact absurd rfl h
  | cons l rest ih =>
    intro f p X _ hsafe hf
    cases rest with
    | nil =>
      rw [show joinNl [l] = l from rfl] at hf ⊢
      exact findHeadsF_skipLine f p X (hsafe l (by simp)).1
        ((hsafe l (by simp)).2 ('\n' :: X)) hf
    | cons l2 rest2 =>
      rw [joinNl_cons (by simp : (l2 :: rest2 : List (List Char)) ≠ [])] at hf ⊢
      rw [List.append_assoc]
      rw [show ('\n' :: joinNl (l2 :: rest2)) ++ '\n' :: X
        = '\n' :: (joinNl (l2 :: rest2) ++ '\n' :: X) from rfl]
      rw [List.length_append, List.length_cons] at hf
      rw [findHeadsF_skipLine f p _ (hsafe l (by simp)).1
        ((hsafe l (by simp)).2 _) (by
          rw [List.length_append, List.length_cons]
          omega)]
      rw [ih f (p + l.length + 1) X (by simp)
        (fun x hx => hsafe x (List.mem_cons_of_mem _ hx)) (by omega)]
      rw [show (l ++ '\n' :: joinNl (l2 :: rest2)).length
        = l.length + ((joinNl (l2 :: rest2)).length + 1) from by
          rw [List.length_append, List.length_cons]]
      rw [show p + l.length + 1 + (joinNl (l2 :: rest2)).length + 1
        = p + (l.length + ((joinNl (l2 :: rest2)).length + 1)) + 1 from by omega]

theorem findHeadsF_skipLinesEnd :
    ∀ (lines : List (List Char)) (f p : Nat),
      (∀ l ∈ lines, '\n' ∉ l ∧ ∀ r, matchSlideHeadAt (l ++ r) = none) →
      (joinNl lines).length ≤ f →
      findHeadsF f p true (joinNl lines) = [] := by
  intro lines
  induction lines with
  | nil => intro f p _ _; cases f <;> rfl
  | cons l rest ih =>
    intro f p hsafe hf
    cases rest with
    | nil =>
      rw [show joinNl [l] = l from rfl]
      have h0 := (hsafe l (by simp)).2 []
      rw [List.append_nil] at h0
      exact findHeadsF_skipLineEnd f p (hsafe l (by simp)).1 h0
    | cons l2 rest2 =>
      rw [joinNl_cons (by simp : (l2 :: rest2 : List (List Char)) ≠ [])] at hf ⊢
      rw [List.length_append, List.length_cons] at hf
      rw [findHeadsF_skipLine f p _ (hsafe l (by simp)).1
        ((hsafe l (by simp)).2 _) (by omega)]
      exact ih f _ (fun x hx => hsafe x (List.mem_cons_of_mem _ hx)) (by omega)


theorem headLen_ge (k : Nat) : 9 ≤ headLen k := by
  unfold headLen
  omega

theorem findHeadsF_headBlock (k f p : Nat) (c0 : Char) (T : List Char)
    (hc0 : isPySpace c0 = false)
    (hf : headLen k + (2 + T.length) ≤ f + 1) :
    findHeadsF (f + 1) p true
        ((("## Slide ".data) ++ toDecimal (k + 1)) ++ '\n' :: c0 :: T)
      = (p, p + headLen k) :: findHeadsF f (p + headLen k + 1) true (c0 :: T) := by
  rw [findHeadsF_matchStep (heading_cons k ('\n' :: c0 :: T))
    (matchSlideHeadAt_heading k c0 T hc0)]
  rw [List.take_left' (heading_length k), List.drop_left' (heading_length k)]
  rw [heading_getLast_not_nl k]
  have h9 := headLen_ge k
  rw [findHeadsF_falseStep f (p + headLen k) (c0 :: T) (by
    rw [List.length_cons]; omega)]

theorem joinNl_snoc_nil {R : List (List Char)} (h : R ≠ []) :
    joinNl (R ++ [[]]) = joinNl R ++ ['\n'] := by
  rw [joinNl_append R [[]] h (by simp)]
  rfl

set_option maxHeartbeats 1000000 in
set_option linter.unnecessarySeqFocus false in
theorem findHeadsF_deck :
    ∀ (ds : List (List PShape)) (k p f : Nat), ds ≠ [] →
      (joinNl (deckLinesTrimFrom k ds)).length ≤ f →
      findHeadsF f p true (joinNl (deckLinesTrimFrom k ds)) = headsOf p k ds := by
  intro ds
  induction ds with
  | nil => intro k p f h; exact absurd rfl h
  | cons shapes rest ih =>
    intro k p f _ hf
    have hHeq : headLen k = 9 + (toDecimal (k + 1)).length := rfl
    have hA : ("## Slide ".data).length = 9 := by decide
    have hB : ("(No text on this slide)".data).length = 23 := by decide
    have hC : ("No text on this slide)".data).length = 22 := by decide
    have hD : ("(No text on this slide)\n".data).length = 24 := by decide
    cases rest with
    | nil =>
      rw [show deckLinesTrimFrom k [shapes] = slideLinesTrim k shapes from rfl] at hf ⊢
      unfold slideLinesTrim at hf ⊢
      by_cases he : slideItems k shapes = []
      · rw [if_pos he] at hf ⊢
        rw [show joinNl [("## Slide ".data) ++ toDecimal (k + 1),
            ("(No text on this slide)".data)]
          = (("## Slide ".data) ++ toDecimal (k + 1))
            ++ '\n' :: ('(' :: ("No text on this slide)".data)) from rfl] at hf ⊢
        cases f with
        | zero =>
          exfalso
          simp only [List.length_append, List.length_cons, hA, hC] at hf
          omega
        | succ f =>
          rw [findHeadsF_headBlock k f p '(' _ (by decide) (by
            simp only [List.length_append, List.length_cons, hA, hC] at hf ⊢ <;> omega)]
          rw [findHeadsF_skipLineEnd f _ (by decide) (by decide)]
          rfl
      · rw [if_neg he] at hf ⊢
        obtain ⟨c0, T, hjoin, hc0⟩ := renderItems_head_decomp k shapes he
        rw [joinNl_cons (renderItems_ne_nil he), hjoin] at hf ⊢
        cases f with
        | zero =>
          exfalso
          simp only [List.length_append, List.length_cons, hA] at hf
          omega
        | succ f =>
          rw [findHeadsF_headBlock k f p c0 T hc0 (by
            simp only [List.length_append, List.length_cons, hA] at hf ⊢ <;> omega)]
          rw [← hjoin]
          rw [findHeadsF_skipLinesEnd (renderItems (slideItems k shapes)) f _
            (renderItems_safe k shapes) (by
              rw [hjoin]
              simp only [List.length_append, List.length_cons, hA] at hf ⊢ <;> omega)]
          rfl
    | cons s2 rest2 =>
      rw [show deckLinesTrimFrom k (shapes :: s2 :: rest2)
        = slideLines k shapes ++ deckLinesTrimFrom (k + 1) (s2 :: rest2) from rfl]
        at hf ⊢
      rw [joinNl_append _ _ (by simp [slideLines])
        (deckLinesTrimFrom_ne_nil (k + 1) (by simp))] at hf ⊢
      unfold slideLines at hf ⊢
      by_cases he : slideItems k shapes = []
      · rw [if_pos he] at hf ⊢
        rw [show joinNl [("## Slide ".data) ++ toDecimal (k + 1),
            ("(No text on this slide)\n".data)]
          = (("## Slide ".data) ++ toDecimal (k + 1))
            ++ '\n' :: ("(No text on this slide)\n".data) from rfl] at hf ⊢
        rw [List.append_assoc] at hf ⊢
        rw [show ('\n' :: ("(No text on this slide)\n".data))
              ++ '\n' :: joinNl (deckLinesTrimFrom (k + 1) (s2 :: rest2))
          = '\n' :: ('(' :: (("No text on this slide)".data)
              ++ '\n' :: '\n' :: joinNl (deckLinesTrimFrom (k + 1) (s2 :: rest2))))
          from rfl] at hf ⊢
        cases f with
        | zero =>
          exfalso
          simp only [List.length_append, List.length_cons, hA, hC] at hf
          omega
        | succ f =>
          rw [findHeadsF_headBlock k f p '(' _ (by decide) (by
            simp only [List.length_append, List.length_cons, hA, hC] at hf ⊢ <;> omega)]
          rw [show ('(' :: (("No text on this slide)".data)
              ++ '\n' :: '\n' :: joinNl (deckLinesTrimFrom (k + 1) (s2 :: rest2))))
            = ("(No text on this slide)".data)
              ++ '\n' :: ('\n' :: joinNl (deckLinesTrimFrom (k + 1) (s2 :: rest2)))
            from rfl]
          rw [findHeadsF_skipLine f _ _ (by decide)
            (safe_none (Or.inr (Or.inr ⟨_, rfl⟩)) _) (by
              simp only [List.length_append, List.length_cons, hA, hB, hC] at hf ⊢ <;> omega)]
          rw [findHeadsF_emptyLine f _ _ (by
            simp only [List.length_append, List.length_cons, hA, hC] at hf ⊢ <;> omega)]
          rw [ih (k + 1) _ f (by simp) (by
            simp only [List.length_append, List.length_cons, hA, hC] at hf ⊢ <;> omega)]
          rw [show p + headLen k + 1 + ("(No text on this slide)".data).length + 1 + 1
            = p + headLen k + slideGap k shapes from by
              unfold slideGap
              rw [if_pos he, hB]]
          rfl
      · rw [if_neg he] at hf ⊢
        obtain ⟨c0, T, hjoin, hc0⟩ := renderItems_head_decomp k shapes he
        rw [joinNl_cons (by simp : renderItems (slideItems k shapes) ++ [[]] ≠ [])]
          at hf ⊢
        rw [joinNl_snoc_nil (renderItems_ne_nil he)] at hf ⊢
        rw [List.append_assoc] at hf ⊢
        rw [show ('\n' :: (joinNl (renderItems (slideItems k shapes)) ++ ['\n']))
              ++ '\n' :: joinNl (deckLinesTrimFrom (k + 1) (s2 :: rest2))
          = '\n' :: ((joinNl (renderItems (slideItems k shapes)) ++ ['\n'])
              ++ '\n' :: joinNl (deckLinesTrimFrom (k + 1) (s2 :: rest2))) from rfl]
          at hf ⊢
        rw [List.append_assoc (joinNl (renderItems (slideItems k shapes)))] at hf ⊢
        rw [show (['\n'] : List Char)
              ++ '\n' :: joinNl (deckLinesTrimFrom (k + 1) (s2 :: rest2))
          = '\n' :: '\n' :: joinNl (deckLinesTrimFrom (k + 1) (s2 :: rest2)) from rfl]
          at hf ⊢
        rw [hjoin] at hf ⊢
        rw [show (c0 :: T)
              ++ '\n' :: '\n' :: joinNl (deckLinesTrimFrom (k + 1) (s2 :: rest2))
          = c0 :: (T ++ '\n' :: '\n'
              :: joinNl (deckLinesTrimFrom (k + 1) (s2 :: rest2))) from rfl] at hf ⊢
        cases f with
        | zero =>
          exfalso
          simp only [List.length_append, List.length_cons, hA] at hf
          omega
        | succ f =>
          rw [findHeadsF_headBlock k f p c0 _ hc0 (by
            simp only [List.length_append, List.length_cons, hA] at hf ⊢ <;> omega)]
          rw [show (c0 :: (T ++ '\n' :: '\n'
                :: joinNl (deckLinesTrimFrom (k + 1) (s2 :: rest2))))
            = (c0 :: T) ++ '\n' :: ('\n'
                :: joinNl (deckLinesTrimFrom (k + 1) (s2 :: rest2))) from rfl]
          rw [← hjoin]
          rw [findHeadsF_skipLines (renderItems (slideItems k shapes)) f _ _
            (renderItems_ne_nil he) (renderItems_safe k shapes) (by
              rw [hjoin]
              simp only [List.length_append, List.length_cons, hA] at hf ⊢ <;> omega)]
          rw [findHeadsF_emptyLine f _ _ (by
            simp only [List.length_append, List.length_cons, hA] at hf ⊢ <;> omega)]
          rw [ih (k + 1) _ f (by simp) (by
            simp only [List.length_append, List.length_cons, hA] at hf ⊢ <;> omega)]
          rw [show p + headLen k + 1
              + (joinNl (renderItems (slideItems k shapes))).length + 1 + 1
            = p + headLen k + slideGap k shapes from by
              unfold slideGap
              rw [if_neg he]
              omega]
          rfl


theorem pyStrip_nil_allWs {l : List Char} (h : pyStrip l = []) : AllWs l := by
  unfold pyStrip pyRstrip pyLstrip at h
  rw [List.reverse_eq_nil_iff] at h
  have h2 : ∀ c ∈ (l.dropWhile isPySpace).reverse, isPySpace c = true :=
    List.dropWhile_eq_nil_iff.mp h
  intro c hc
  rw [← List.takeWhile_append_dropWhile isPySpace l] at hc
  rcases List.mem_append.mp hc with hm | hm
  · have := List.mem_takeWhile_imp hm
    exact this
  · exact h2 c (List.mem_reverse.mpr hm)

theorem pyStrip_ne_nil {l : List Char} {c : Char} (hc : c ∈ l)
    (hw : isPySpace c = false) : pyStrip l ≠ [] := by
  intro h
  rw [pyStrip_nil_allWs h c hc] at hw
  exact Bool.noConfusion hw

theorem listExtract_mid (A M B : List Char) :
    listExtract (A ++ (M ++ B)) A.length (A.length + M.length) = M := by
  unfold listExtract
  rw [List.take_append, List.take_left, List.drop_left]

set_option maxHeartbeats 1000000 in
theorem pagesOf_deck :
    ∀ (ds : List (List PShape)) (k : Nat) (pre md : List Char), ds ≠ [] →
      md = pre ++ joinNl (deckLinesTrimFrom k ds) →
      (pagesOf md (headsOf pre.length k ds)).length = ds.length := by
  intro ds
  induction ds with
  | nil => intro k pre md h; exact absurd rfl h
  | cons shapes rest ih =>
    intro k pre md _ hmd
    have hHlen := heading_length k
    cases rest with
    | nil =>
      rw [show deckLinesTrimFrom k [shapes] = slideLinesTrim k shapes from rfl] at hmd
      unfold slideLinesTrim at hmd
      rw [show headsOf pre.length k [shapes]
        = [(pre.length, pre.length + headLen k)] from rfl]
      show (if pyStrip (listExtract md (pre.length + headLen k) md.length) = [] then []
        else [pyStrip (listExtract md (pre.length + headLen k) md.length)]).length
        = [shapes].length
      have hextract : listExtract md (pre.length + headLen k) md.length
          = md.drop (pre.length + headLen k) := by
        unfold listExtract
        rw [List.take_length]
      -- the tail of the document after the heading
      obtain ⟨JT, hJT, hhead⟩ : ∃ JT,
          joinNl ((("## Slide ".data) ++ toDecimal (k + 1)) ::
            (if slideItems k shapes = [] then [("(No text on this slide)".data)]
             else renderItems (slideItems k shapes)))
            = (("## Slide ".data) ++ toDecimal (k + 1)) ++ '\n' :: JT
          ∧ ∃ c ∈ '\n' :: JT, isPySpace c = false := by
        by_cases he : slideItems k shapes = []
        · rw [if_pos he]
          refine ⟨'(' :: ("No text on this slide)".data), rfl, '(', by simp, by decide⟩
        · rw [if_neg he]
          obtain ⟨c0, T, hjoin, hc0⟩ := renderItems_head_decomp k shapes he
          refine ⟨c0 :: T, ?_, c0, by simp, hc0⟩
          rw [joinNl_cons (renderItems_ne_nil he), hjoin]
      rw [hJT] at hmd
      have hdrop : md.drop (pre.length + headLen k) = '\n' :: JT := by
        rw [hmd, ← List.append_assoc]
        exact List.drop_left' (by rw [List.length_append, hHlen])
      rw [hextract, hdrop]
      obtain ⟨c, hcmem, hcw⟩ := hhead
      rw [if_neg (pyStrip_ne_nil hcmem hcw)]
      rfl
    | cons s2 rest2 =>
      rw [show deckLinesTrimFrom k (shapes :: s2 :: rest2)
        = slideLines k shapes ++ deckLinesTrimFrom (k + 1) (s2 :: rest2) from rfl] at hmd
      rw [joinNl_append _ _ (by simp [slideLines])
        (deckLinesTrimFrom_ne_nil (k + 1) (by simp))] at hmd
      unfold slideLines at hmd
      -- the full tail lines of this (non-final) slide
      obtain ⟨JTF, hJTF, hhead, hlenJTF⟩ : ∃ JTF,
          joinNl ((("## Slide ".data) ++ toDecimal (k + 1)) ::
            (if slideItems k shapes = [] then [("(No text on this slide)\n".data)]
             else renderItems (slideItems k shapes) ++ [[]]))
            = (("## Slide ".data) ++ toDecimal (k + 1)) ++ '\n' :: JTF
          ∧ (∃ c ∈ '\n' :: JTF, isPySpace c = false)
          ∧ JTF.length + 2 = slideGap k shapes := by
        by_cases he : slideItems k shapes = []
        · rw [if_pos he]
          refine ⟨("(No text on this slide)\n".data), rfl, ⟨'(', by decide, by decide⟩, ?_⟩
          unfold slideGap
          rw [if_pos he]
          decide
        · rw [if_neg he]
          obtain ⟨c0, T, hjoin, hc0⟩ := renderItems_head_decomp k shapes he
          refine ⟨joinNl (renderItems (slideItems k shapes)) ++ ['\n'], ?_, ?_, ?_⟩
          · rw [joinNl_cons (by simp : renderItems (slideItems k shapes) ++ [[]] ≠ []),
              joinNl_snoc_nil (renderItems_ne_nil he)]
          · exact ⟨c0, by rw [hjoin]; simp, hc0⟩
          · unfold slideGap
            rw [if_neg he, List.length_append]
            rfl
      rw [hJTF] at hmd
      -- split positions
      have hsplit : md = (pre ++ (("## Slide ".data) ++ toDecimal (k + 1)))
          ++ (('\n' :: (JTF ++ ['\n']))
            ++ joinNl (deckLinesTrimFrom (k + 1) (s2 :: rest2))) := by
        rw [hmd]
        simp [List.append_assoc]
      rw [show headsOf pre.length k (shapes :: s2 :: rest2)
        = (pre.length, pre.length + headLen k)
          :: headsOf (pre.length + headLen k + slideGap k shapes) (k + 1) (s2 :: rest2)
        from rfl]
      rw [show headsOf (pre.length + headLen k + slideGap k shapes) (k + 1) (s2 :: rest2)
        = (pre.length + headLen k + slideGap k shapes,
            pre.length + headLen k + slideGap k shapes + headLen (k + 1))
          :: headsOf (pre.length + headLen k + slideGap k shapes + headLen (k + 1)
              + slideGap (k + 1) s2) (k + 2) rest2 from rfl]
      show ((if pyStrip (listExtract md (pre.length + headLen k)
            (pre.length + headLen k + slideGap k shapes)) = [] then []
          else [pyStrip (listExtract md (pre.length + headLen k)
            (pre.length + headLen k + slideGap k shapes))])
        ++ pagesOf md _).length = (shapes :: s2 :: rest2).length
      have hextract : listExtract md (pre.length + headLen k)
          (pre.length + headLen k + slideGap k shapes) = '\n' :: (JTF ++ ['\n']) := by
        have hm := listExtract_mid (pre ++ (("## Slide ".data) ++ toDecimal (k + 1)))
          ('\n' :: (JTF ++ ['\n'])) (joinNl (deckLinesTrimFrom (k + 1) (s2 :: rest2)))
        rw [← hsplit] at hm
        rw [show (pre ++ (("## Slide ".data) ++ toDecimal (k + 1))).length
          = pre.length + headLen k from by rw [List.length_append, hHlen]] at hm
        rw [show ('\n' :: (JTF ++ ['\n'])).length = slideGap k shapes from by
          rw [List.length_cons, List.length_append]
          simp only [List.length_cons, List.length_nil]
          omega] at hm
        exact hm
      rw [hextract]
      obtain ⟨c, hcmem, hcw⟩ := hhead
      have hcmem2 : c ∈ '\n' :: (JTF ++ ['\n']) := by
        rcases List.mem_cons.mp hcmem with rfl | hm
        · simp
        · exact List.mem_cons_of_mem _ (List.mem_append_left _ hm)
      rw [if_neg (pyStrip_ne_nil hcmem2 hcw)]
      have hih := ih (k + 1)
        ((pre ++ (("## Slide ".data) ++ toDecimal (k + 1))) ++ ('\n' :: (JTF ++ ['\n'])))
        md (by simp) (by rw [hsplit]; simp [List.append_assoc])
      rw [show ((pre ++ (("## Slide ".data) ++ toDecimal (k + 1)))
            ++ ('\n' :: (JTF ++ ['\n']))).length
        = pre.length + headLen k + slideGap k shapes from by
          rw [List.length_append, List.length_append, hHlen, List.length_cons,
            List.length_append]
          simp only [List.length_cons, List.length_nil]
          omega] at hih
      rw [show headsOf (pre.length + headLen k + slideGap k shapes) (k + 1) (s2 :: rest2)
        = (pre.length + headLen k + slideGap k shapes,
            pre.length + headLen k + slideGap k shapes + headLen (k + 1))
          :: headsOf (pre.length + headLen k + slideGap k shapes + headLen (k + 1)
              + slideGap (k + 1) s2) (k + 2) rest2 from rfl] at hih
      rw [List.singleton_append, List.length_cons, hih]
      rfl


/-- C5: slide-count preservation.  For every deck with at least one slide,
splitting the markdown produced by extraction yields exactly one chunk per
slide; a slide with zero text shapes contributes its no-text marker chunk
rather than being dropped. -/
theorem c5_slide_count (deck : List (List PShape)) (h : deck ≠ []) :
    (split_markdown_slides (pptx_to_markdown deck)).length = deck.length := by
  show (if stripNlBoth (pptx_to_markdown deck) = [] then []
    else if hasDashSep (stripNlBoth (pptx_to_markdown deck)) then
      (((dashSplit (stripNlBoth (pptx_to_markdown deck))).map pyStrip).filter
        (fun p => !p.isEmpty))
    else match findSlideHeads (stripNlBoth (pptx_to_markdown deck)) with
      | [] => [pyStrip (stripNlBoth (pptx_to_markdown deck))]
      | ms => pagesOf (stripNlBoth (pptx_to_markdown deck)) ms).length = deck.length
  rw [stripNlBoth_markdown deck h]
  rw [if_neg (markdown_ne_nil deck h)]
  rw [if_neg (by rw [markdown_noDashSep deck]; exact Bool.false_ne_true)]
  rw [show findSlideHeads (joinNl (deckLinesTrimFrom 0 deck)) = headsOf 0 0 deck from
    findHeadsF_deck deck 0 0 _ h (le_refl _)]
  cases deck with
  | nil => exact absurd rfl h
  | cons s ds =>
    show (pagesOf (joinNl (deckLinesTrimFrom 0 (s :: ds))) (headsOf 0 0 (s :: ds))).length
      = (s :: ds).length
    exact pagesOf_deck (s :: ds) 0 [] _ (by simp) (by simp)

/-- Witness for C5 at a one-slide deck with no text shapes. -/
theorem c5_witness :
    ([[]] : List (List PShape)) ≠ [] ∧
    (split_markdown_slides (pptx_to_markdown ([[]] : List (List PShape)))).length
      = ([[]] : List (List PShape)).length :=
  ⟨List.cons_ne_nil _ _, c5_slide_count [[]] (List.cons_ne_nil _ _)⟩

/-! ### C10: non-positive `per_page` short-circuit -/

/-- C10: whenever the effective `per_page` (after `limit` overrides it) is
non-positive, `unsplash_search` returns `ok []` immediately, for every
query, every orientation / size / order_by argument (valid or not), and
whatever the credential lookup and the network would have done. -/
theorem c10_nonpositive_per_page (ensure_key : Except Unit (List Char))
    (fetch : List Char → List Char → Int → List Char → List Char → List Char →
      Except (List Char) (List (List Nat)))
    (query : List Char) (per_page : Int) (limit : Option Int)
    (o s ob : List Char)
    (h : effPerPage per_page limit ≤ 0) :
    unsplash_search ensure_key fetch query per_page limit o s ob = Except.ok [] := by
  unfold unsplash_search
  rw [if_pos h]

/-- Witness for C10: `limit = -2` overrides `per_page = 5`; the
orientation is invalid and both oracles fail, yet the result is
`ok []`. -/
theorem c10_witness :
    effPerPage 5 (some (-2)) ≤ 0 ∧
    unsplash_search (Except.error ())
      (fun _ _ _ _ _ _ => Except.error ("boom".data))
      ("cat".data) 5 (some (-2)) ("diagonal".data) ("small".data) ("relevant".data)
      = Except.ok [] :=
  ⟨by decide, c10_nonpositive_per_page _ _ _ _ _ _ _ _ (by decide)⟩

/-! ### C6: candidate-map completeness under failing searches -/

theorem dictInsert_notMem (k : Nat × List Char) (v : CandEntry)
    (ret : List ((Nat × List Char) × CandEntry))
    (h : ∀ e ∈ ret, e.1 ≠ k) :
    dictInsert k v ret = ret ++ [(k, v)] := by
  induction ret with
  | nil => rfl
  | cons e rest ih =>
    rw [show dictInsert k v (e :: rest)
        = if e.1 = k then (k, v) :: rest else e :: dictInsert k v rest from rfl]
    rw [if_neg (h e (List.mem_cons_self e rest))]
    rw [ih (fun x hx => h x (List.mem_cons_of_mem e hx))]
    rfl

theorem prepGo_eq (search : Nat → Except Unit (List (List Nat)))
    (pics : List (Nat × List Char × List Nat)) :
    ∀ (i : Nat) (ret : List ((Nat × List Char) × CandEntry)),
    (pics.map (fun p => (p.1, p.2.1))).Nodup →
    (∀ p ∈ pics, ∀ e ∈ ret, e.1 ≠ (p.1, p.2.1)) →
    prepGo search pics i ret
      = ret ++ (List.enumFrom i pics).map
          (fun q => ((q.2.1, q.2.2.1),
            (⟨q.2.2.2, candOf (search q.1)⟩ : CandEntry))) := by
  induction pics with
  | nil =>
    intro i ret _ _
    show ret = ret ++ []
    rw [List.append_nil]
  | cons p rest ih =>
    intro i ret hnd hdis
    have hnd' := List.nodup_cons.mp hnd
    show prepGo search rest (i + 1)
        (dictInsert (p.1, p.2.1) ⟨p.2.2, candOf (search i)⟩ ret) = _
    rw [dictInsert_notMem _ _ _ (fun e he => hdis p (List.mem_cons_self p rest) e he)]
    rw [ih (i + 1) _ hnd'.2 ?_]
    · rw [List.append_assoc]
      rfl
    · intro q hq e he
      rcases List.mem_append.mp he with he1 | he2
      · exact hdis q (List.mem_cons_of_mem p hq) e he1
      · have he' : e = ((p.1, p.2.1), (⟨p.2.2, candOf (search i)⟩ : CandEntry)) := by
          simpa using he2
        rw [he']
        intro hcontra
        apply hnd'.1
        show (p.1, p.2.1) ∈ _
        rw [show (p.1, p.2.1) = (q.1, q.2.1) from hcontra]
        exact List.mem_map_of_mem (fun r => (r.1, r.2.1)) hq

theorem keysOf_enumFrom (search : Nat → Except Unit (List (List Nat)))
    (l : List (Nat × List Char × List Nat)) :
    ∀ i : Nat,
    ((List.enumFrom i l).map
        (fun q => ((q.2.1, q.2.2.1),
          (⟨q.2.2.2, candOf (search q.1)⟩ : CandEntry)))).map Prod.fst
      = l.map (fun p => (p.1, p.2.1)) := by
  induction l with
  | nil => intro i; rfl
  | cons p rest ih =>
    intro i
    rw [show List.enumFrom i (p :: rest) = (i, p) :: List.enumFrom (i + 1) rest from rfl]
    rw [List.map_cons, List.map_cons, List.map_cons, ih (i + 1)]

theorem entries_enumFrom (search : Nat → Except Unit (List (List Nat)))
    (hfail : ∀ i, search i = Except.error ())
    (l : List (Nat × List Char × List Nat)) :
    ∀ i : Nat,
    (List.enumFrom i l).map
        (fun q => ((q.2.1, q.2.2.1),
          (⟨q.2.2.2, candOf (search q.1)⟩ : CandEntry)))
      = l.map (fun p => ((p.1, p.2.1), (⟨p.2.2, []⟩ : CandEntry))) := by
  induction l with
  | nil => intro i; rfl
  | cons p rest ih =>
    intro i
    rw [show List.enumFrom i (p :: rest) = (i, p) :: List.enumFrom (i + 1) rest from rfl]
    rw [List.map_cons, List.map_cons, ih (i + 1), hfail i]
    rfl

/-- C6: when the keys `(slide_idx, rId)` of the extracted pictures are
pairwise distinct (they are: the relationship dictionary of one slide is
keyed by `rId`), `prepare_image_candidates` returns a map whose keys are
exactly those of the extracted pictures, in order, for any per-call
search oracle; and when every search call raises, every entry still
carries the picture's original bytes with an empty candidate list — no
failure removes an entry or aborts the batch. -/
theorem c6_candidate_completeness (search : Nat → Except Unit (List (List Nat)))
    (slides : List (List PRel))
    (hnd : ((extract_pictures slides).map (fun p => (p.1, p.2.1))).Nodup) :
    (prepare_image_candidates search slides).map Prod.fst
        = (extract_pictures slides).map (fun p => (p.1, p.2.1)) ∧
    ((∀ i, search i = Except.error ()) →
      prepare_image_candidates search slides
        = (extract_pictures slides).map
            (fun p => ((p.1, p.2.1), (⟨p.2.2, []⟩ : CandEntry)))) := by
  have hmain := prepGo_eq search (extract_pictures slides) 1 []
    hnd (fun p _ e he => absurd he (List.not_mem_nil e))
  constructor
  · unfold prepare_image_candidates
    rw [hmain, List.nil_append, keysOf_enumFrom search (extract_pictures slides) 1]
  · intro hfail
    unfold prepare_image_candidates
    rw [hmain, List.nil_append, entries_enumFrom search hfail (extract_pictures slides) 1]

/-- Witness for C6 on `exSlides6`: the keys are distinct, the oracle
always fails, and each of the two image relationships still gets its
entry with original bytes and no candidates. -/
theorem c6_witness :
    ((extract_pictures exSlides6).map (fun p => (p.1, p.2.1))).Nodup ∧
    prepare_image_candidates (fun _ => Except.error ()) exSlides6
      = (extract_pictures exSlides6).map
          (fun p => ((p.1, p.2.1), (⟨p.2.2, []⟩ : CandEntry))) :=
  ⟨by decide,
   (c6_candidate_completeness (fun _ => Except.error ()) exSlides6 (by decide)).2
     (fun _ => rfl)⟩

/-! ### C7: missing or `None` choices leave pictures unchanged -/

theorem replaceInSlide_find_ne (r_id r : List Char) (b : List Nat)
    (h : r_id ≠ r) (rels : List PRel) :
    (replaceInSlide r_id b rels).find? (fun rel => rel.rId == r)
      = rels.find? (fun rel => rel.rId == r) := by
  induction rels with
  | nil => rfl
  | cons rel rest ih =>
    rw [show replaceInSlide r_id b (rel :: rest)
        = if rel.rId = r_id then { rel with blob := b } :: rest
          else rel :: replaceInSlide r_id b rest from rfl]
    by_cases hc : rel.rId = r_id
    · rw [if_pos hc]
      have hfalse : (rel.rId == r) = false := by
        rw [hc]
        exact beq_eq_false_iff_ne.mpr h
      rw [List.find?_cons_of_neg _ (by
        show ¬ (({ rel with blob := b } : PRel).rId == r) = true
        show ¬ (rel.rId == r) = true
        rw [hfalse]
        exact Bool.false_ne_true)]
      rw [List.find?_cons_of_neg _ (by rw [hfalse]; exact Bool.false_ne_true)]
    · rw [if_neg hc]
      by_cases hr : (rel.rId == r) = true
      · rw [@List.find?_cons_of_pos _ (fun rel => rel.rId == r) rel
            (replaceInSlide r_id b rest) hr,
          @List.find?_cons_of_pos _ (fun rel => rel.rId == r) rel rest hr]
      · rw [@List.find?_cons_of_neg _ (fun rel => rel.rId == r) rel
            (replaceInSlide r_id b rest) hr,
          @List.find?_cons_of_neg _ (fun rel => rel.rId == r) rel rest hr, ih]

theorem applyChoice_blobOf (slides : List (List PRel)) (s_idx : Nat) (r_id : List Char)
    (v : Option (List Nat)) (s : Nat) (r : List Char)
    (h : (s_idx, r_id) ≠ (s, r) ∨ v = none) :
    blobOf (applyChoice slides s_idx r_id v) s r = blobOf slides s r := by
  cases v with
  | none => rfl
  | some b =>
    have hk : (s_idx, r_id) ≠ (s, r) := by
      cases h with
      | inl h1 => exact h1
      | inr h2 => exact absurd h2 (Option.some_ne_none b)
    show blobOf (if b = [] then slides
      else match slides[s_idx]? with
        | none => slides
        | some rels => slides.set s_idx (replaceInSlide r_id b rels)) s r
      = blobOf slides s r
    by_cases hb : b = []
    · rw [if_pos hb]
    · rw [if_neg hb]
      cases hrel : slides[s_idx]? with
      | none => rfl
      | some rels =>
        show blobOf (slides.set s_idx (replaceInSlide r_id b rels)) s r
          = blobOf slides s r
        by_cases hs : s_idx = s
        · subst hs
          have hlt : s_idx < slides.length := by
            rcases List.getElem?_eq_some_iff.mp hrel with ⟨hl, _⟩
            exact hl
          have hne : r_id ≠ r := by
            intro hrr
            exact hk (by rw [hrr])
          unfold blobOf
          rw [List.getElem?_set_self hlt, hrel]
          show ((replaceInSlide r_id b rels).find? (fun rel => rel.rId == r)).map _
            = ((rels.find? (fun rel => rel.rId == r)).map _)
          rw [replaceInSlide_find_ne r_id r b hne rels]
        · unfold blobOf
          rw [List.getElem?_set_ne hs]

theorem renderPics_blobOf (s : Nat) (r : List Char) :
    ∀ (choices : List ((Nat × List Char) × Option (List Nat)))
      (slides : List (List PRel)),
    (∀ kv ∈ choices, kv.1 = (s, r) → kv.2 = none) →
    blobOf (renderPics slides choices) s r = blobOf slides s r := by
  intro choices
  induction choices with
  | nil => intro slides _; rfl
  | cons kv rest ih =>
    intro slides h
    show blobOf (renderPics (applyChoice slides kv.1.1 kv.1.2 kv.2) rest) s r = _
    rw [ih _ (fun x hx => h x (List.mem_cons_of_mem kv hx))]
    apply applyChoice_blobOf
    by_cases hkey : kv.1 = (s, r)
    · right
      exact h kv (List.mem_cons_self kv rest) hkey
    · left
      intro hc
      exact hkey hc

/-- C7: a key mapped to `None` (and, by the empty-bytes test, any entry
the `if blob:` guard skips) or a key absent from the user-choice map
leaves the bytes behind that `(slide_idx, rId)` exactly as they were,
whatever the other entries do; and erasing a `None` entry from the choice
map anywhere does not change the rendered relationship state at all, so
omitting a key is observationally equivalent to passing `None`. -/
theorem c7_missing_choice_default (slides : List (List PRel))
    (choices : List ((Nat × List Char) × Option (List Nat)))
    (s : Nat) (r : List Char)
    (h : ∀ kv ∈ choices, kv.1 = (s, r) → kv.2 = none) :
    blobOf (renderPics slides choices) s r = blobOf slides s r ∧
    (∀ A B : List ((Nat × List Char) × Option (List Nat)),
      renderPics slides (A ++ ((s, r), none) :: B) = renderPics slides (A ++ B)) := by
  refine ⟨renderPics_blobOf s r choices slides h, ?_⟩
  intro A B
  unfold renderPics
  rw [List.foldl_append, List.foldl_append]
  rfl

/-- Witness for C7 on `exSlides7` and `exChoices7`: the choice map
replaces one picture and names one unknown relationship, but carries no
entry for the first relationship, whose bytes are unchanged. -/
theorem c7_witness :
    (∀ kv ∈ exChoices7, kv.1 = (0, ("rId1".data)) → kv.2 = none) ∧
    blobOf (renderPics exSlides7 exChoices7) 0 ("rId1".data)
      = blobOf exSlides7 0 ("rId1".data) :=
  ⟨by decide,
   (c7_missing_choice_default exSlides7 exChoices7 0 ("rId1".data) (by decide)).1⟩

/-! ### C9: excess body lines are dropped safely -/

theorem writeBodyGo_length (lines : List (List Char)) :
    ∀ (frames : List (List (List Char))) (i : Nat),
    (writeBodyGo frames i lines).length = frames.length := by
  induction lines with
  | nil => intro frames i; rfl
  | cons raw rest ih =>
    intro frames i
    rw [show writeBodyGo frames i (raw :: rest)
        = (if is_placeholder_only (clean_md_line raw) then writeBodyGo frames (i + 1) rest
          else if frames.length ≤ i then writeBodyGo frames (i + 1) rest
          else writeBodyGo (frames.set i (frameWrite (frames.getD i [])
            (clean_md_line raw))) (i + 1) rest) from rfl]
    by_cases h1 : is_placeholder_only (clean_md_line raw) = true
    · rw [if_pos h1, ih frames (i + 1)]
    · rw [if_neg h1]
      by_cases h2 : frames.length ≤ i
      · rw [if_pos h2, ih frames (i + 1)]
      · rw [if_neg h2, ih _ (i + 1), List.length_set]

theorem writeBodyGo_frozen (lines : List (List Char)) :
    ∀ (frames : List (List (List Char))) (i : Nat), frames.length ≤ i →
    writeBodyGo frames i lines = frames := by
  induction lines with
  | nil => intro frames i _; rfl
  | cons raw rest ih =>
    intro frames i h
    rw [show writeBodyGo frames i (raw :: rest)
        = (if is_placeholder_only (clean_md_line raw) then writeBodyGo frames (i + 1) rest
          else if frames.length ≤ i then writeBodyGo frames (i + 1) rest
          else writeBodyGo (frames.set i (frameWrite (frames.getD i [])
            (clean_md_line raw))) (i + 1) rest) from rfl]
    by_cases h1 : is_placeholder_only (clean_md_line raw) = true
    · rw [if_pos h1, ih frames (i + 1) (Nat.le_succ_of_le h)]
    · rw [if_neg h1, if_pos h, ih frames (i + 1) (Nat.le_succ_of_le h)]

theorem writeBodyChk_eq (lines : List (List Char)) :
    ∀ (frames : List (List (List Char))) (i : Nat),
    writeBodyChk frames i lines = some (writeBodyGo frames i lines) := by
  induction lines with
  | nil => intro frames i; rfl
  | cons raw rest ih =>
    intro frames i
    rw [show writeBodyChk frames i (raw :: rest)
        = (if is_placeholder_only (clean_md_line raw) then writeBodyChk frames (i + 1) rest
          else if frames.length ≤ i then writeBodyChk frames (i + 1) rest
          else match frames[i]? with
            | none => none
            | some f => writeBodyChk (frames.set i (frameWrite f (clean_md_line raw)))
                (i + 1) rest) from rfl]
    rw [show writeBodyGo frames i (raw :: rest)
        = (if is_placeholder_only (clean_md_line raw) then writeBodyGo frames (i + 1) rest
          else if frames.length ≤ i then writeBodyGo frames (i + 1) rest
          else writeBodyGo (frames.set i (frameWrite (frames.getD i [])
            (clean_md_line raw))) (i + 1) rest) from rfl]
    by_cases h1 : is_placeholder_only (clean_md_line raw) = true
    · rw [if_pos h1, if_pos h1]
      exact ih frames (i + 1)
    · rw [if_neg h1, if_neg h1]
      by_cases h2 : frames.length ≤ i
      · rw [if_pos h2, if_pos h2]
        exact ih frames (i + 1)
      · rw [if_neg h2, if_neg h2]
        have hlt : i < frames.length := Nat.lt_of_not_le h2
        rw [List.getElem?_eq_getElem hlt]
        have hgd : frames.getD i [] = frames[i] := by
          rw [List.getD_eq_getElem?_getD, List.getElem?_eq_getElem hlt]
          rfl
        rw [hgd]
        exact ih _ (i + 1)

/-- C9: in the body loop of `_write_page_to_slide` the bound-checked
variant never reaches an out-of-range frame access (it always returns
`some` of the unchecked run), the frame list keeps its length, and once
`frame_idx` has passed the frame count — as happens exactly when the
non-placeholder body lines have exhausted the frames — every further line
leaves the frames untouched. -/
theorem c9_excess_body_lines (frames : List (List (List Char))) (i : Nat)
    (lines : List (List Char)) :
    writeBodyChk frames i lines = some (writeBodyGo frames i lines) ∧
    (writeBodyGo frames i lines).length = frames.length ∧
    (frames.length ≤ i → writeBodyGo frames i lines = frames) :=
  ⟨writeBodyChk_eq lines frames i, writeBodyGo_length lines frames i,
   fun h => writeBodyGo_frozen lines frames i h⟩

/-- Witness for C9 at a single text frame already passed by the index:
the extra lines write nothing and the run is checked. -/
theorem c9_witness :
    ([[[]]] : List (List (List Char))).length ≤ 1 ∧
    writeBodyGo [[[]]] 1 [("second line".data), ("third line".data)] = [[[]]] :=
  ⟨by decide,
   (c9_excess_body_lines [[[]]] 1 [("second line".data), ("third line".data)]).2.2
     (by decide)⟩

end Aippt
